import Mathlib

/-!
# MemoryPool

A shallow embedding of `src/MemoryPool.cpp` (the templates `memoryblock<T>` and
`memorypool<T>`) and theorems about it.

Conventions of the embedding

* A C++ `int` is an `Int` whose value is brought back into the 32-bit two's
  complement range by `wrap32` after every arithmetic operation or conversion
  that produces an `int`.
* A store through `unsigned short*` keeps the value modulo `65536` and writes
  two bytes (low byte first); a load through `unsigned short*` reads them back.
* Pointers are integers (`nullptr` is `0`).  The arena of a block (`adata`) is
  a map from byte offsets to bytes, kept inside the block, and the address of
  `adata` is a field of the block.
* The chain `pblock -> pnext -> ...` of `unique_ptr`s is a `List memoryblock`,
  head first.
* `::operator new` is the environment: each `allocate` call is given what the
  operator would answer if it were called, `none` for `std::bad_alloc`, or
  the address of the new block's `adata` together with the bytes found there.
-/

namespace MemoryPool

/-- Constant `MEMPOOL_ALIGNMENT`. -/
def MEMPOOL_ALIGNMENT : Nat := 8

/-- The value an `int` holds after an operation whose exact result is `x`. -/
def wrap32 (x : Int) : Int := (x + 2147483648) % 4294967296 - 2147483648

/-- Bytes of an arena, by offset from its first byte. -/
abbrev Arena := Int → Nat

/-- Effect of `*(unsigned short*)(adata + off) = v` on the arena. -/
def store16 (m : Arena) (off : Int) (v : Int) : Arena := fun x =>
  if x = off then ((v % 65536) % 256).toNat
  else if x = off + 1 then ((v % 65536) / 256).toNat
  else m x

/-- Value of `*(unsigned short*)(adata + off)`. -/
def load16 (m : Arena) (off : Int) : Int :=
  ((m off % 256 + 256 * (m (off + 1) % 256) : Nat) : Int)

/-- Effect of a one byte store at offset `off`. -/
def store8 (m : Arena) (off : Int) (v : Nat) : Arena := fun x =>
  if x = off then v % 256 else m x

/-- Fields of `struct memoryblock`; `pnext` is the tail of the list the block
sits in, `adata` is the address of the arena and `data` its bytes. -/
structure memoryblock where
  nsize : Int
  nfree : Int
  nfirst : Int
  adata : Int
  data : Arena

/-- The loop `for (int i = 1; i < nunitamount; ++i)` of the constructor, with
`k` iterations left to run: `i` is the loop variable and `ppdata` the offset
of the pointer of the same name from `adata`. -/
def memoryblock.thread (nunitsize : Int) : Nat → Int → Int → Arena → Arena
  | 0, _, _, m => m
  | k + 1, i, ppdata, m =>
      memoryblock.thread nunitsize k (i + 1) (ppdata + nunitsize) (store16 m ppdata i)

/-- Constructor `memoryblock(int nunitsize, int nunitamount)` run on storage
whose arena starts at address `adata` and holds the bytes `raw`. -/
def memoryblock.ctor (nunitsize nunitamount : Int) (adata : Int) (raw : Arena) :
    memoryblock where
  nsize := wrap32 (nunitsize * nunitamount)
  nfree := wrap32 (nunitamount - 1)
  nfirst := 1
  adata := adata
  data := memoryblock.thread nunitsize (nunitamount - 1).toNat 1 0 raw

/-- The test `pfree >= adata && pfree < adata + nsize` of `free`. -/
def memoryblock.owns (b : memoryblock) (pfree : Int) : Prop :=
  b.adata ≤ pfree ∧ pfree < b.adata + b.nsize

instance (b : memoryblock) (pfree : Int) : Decidable (b.owns pfree) := by
  unfold memoryblock.owns; infer_instance

/-- Fields of `struct memorypool` (the mutex apart). -/
structure memorypool where
  ninitsize : Int
  ngrowsize : Int
  nunitsize : Int
  pblock : List memoryblock

/-- Function `align_size` on `size_t`. -/
def memorypool.align_size (size : Nat) : Nat :=
  ((size + (MEMPOOL_ALIGNMENT - 1)) % 2 ^ 64) &&& (2 ^ 64 - 1 - (MEMPOOL_ALIGNMENT - 1))

/-- Constructor `memorypool(int _ngrowsize, int _ninitsize)` for a type of
`sizeofT` bytes. -/
def memorypool.ctor (sizeofT : Nat) (_ngrowsize _ninitsize : Int) : memorypool where
  ninitsize := _ninitsize
  ngrowsize := _ngrowsize
  nunitsize := wrap32 (memorypool.align_size sizeofT)
  pblock := []

/-- The body of `if (pmyblock)` in `allocate`, on the block found by the
search: the pointer `pfree` and the block after the two updates. -/
def memoryblock.take (nunitsize : Int) (b : memoryblock) : Int × memoryblock :=
  let off := wrap32 (b.nfirst * nunitsize)
  (b.adata + off, { b with nfirst := load16 b.data off, nfree := wrap32 (b.nfree - 1) })

/-- The search loop of `allocate` followed by the branch `if (pmyblock)`: the
first block of the chain with `nfree != 0` hands out the unit `nfirst`.
`none` when the loop ends with `pmyblock == nullptr`. -/
def memorypool.takeUnit (nunitsize : Int) : List memoryblock → Option (Int × List memoryblock)
  | [] => none
  | b :: rest =>
    if b.nfree = 0 then
      match memorypool.takeUnit nunitsize rest with
      | none => none
      | some (pfree, rest') => some (pfree, b :: rest')
    else some ((b.take nunitsize).1, (b.take nunitsize).2 :: rest)

/-- Function `allocate(size_t num)`.  `heap` is the answer of `::operator new`
should the call need a block.  The result is the returned pointer (`none`
when `std::bad_alloc` leaves the function) and the pool after the call.
The number of bytes asked of `::operator new` (line 30) is not part of the
state: the storage answered is taken to hold the arena, as it does when the
product `nunitsize * nunitamount` of line 30 is in the range of `int`. -/
def memorypool.allocate (p : memorypool) (num : Nat) (heap : Option (Int × Arena)) :
    Option Int × memorypool :=
  if num = 0 then (some 0, p)
  else
    match p.pblock with
    | [] =>
      match heap with
      | none => (none, p)
      | some (a, raw) =>
        (some a, { p with pblock := [memoryblock.ctor p.nunitsize p.ninitsize a raw] })
    | b :: bs =>
      match memorypool.takeUnit p.nunitsize (b :: bs) with
      | some (pfree, chain) => (some pfree, { p with pblock := chain })
      | none =>
        match heap with
        | none => (none, p)
        | some (a, raw) =>
          (some a, { p with
            pblock := memoryblock.ctor p.nunitsize p.ngrowsize a raw :: b :: bs })

/-- The body of `if (pmyblock)` in `free`, on the block found by the search:
the block after the three updates. -/
def memoryblock.release (nunitsize : Int) (b : memoryblock) (pfree : Int) : memoryblock :=
  { b with
    data := store16 b.data (pfree - b.adata) b.nfirst
    nfirst := wrap32 (Int.tdiv (pfree - b.adata) nunitsize)
    nfree := wrap32 (b.nfree + 1) }

/-- The chain after `free(pfree)`: the search loop, the update of the block
found and its removal from the chain when `nfree * nunitsize == nsize`. -/
def memorypool.freeChain (nunitsize : Int) (pfree : Int) : List memoryblock → List memoryblock
  | [] => []
  | b :: rest =>
    if b.owns pfree then
      let b' := memoryblock.release nunitsize b pfree
      if wrap32 (b'.nfree * nunitsize) = b'.nsize then rest else b' :: rest
    else b :: memorypool.freeChain nunitsize pfree rest

/-- Function `free(void* pfree)`. -/
def memorypool.free (p : memorypool) (pfree : Int) : memorypool :=
  { p with pblock := memorypool.freeChain p.nunitsize pfree p.pblock }

/-- A caller writing the byte `v` at address `addr` (as `new (dp1) user(1111)`
in `main` does into the unit it was given): the chain afterwards. -/
def memorypool.pokeChain (addr : Int) (v : Nat) : List memoryblock → List memoryblock
  | [] => []
  | b :: rest =>
    if b.owns addr then { b with data := store8 b.data (addr - b.adata) v } :: rest
    else b :: memorypool.pokeChain addr v rest

/-- The pool after a caller wrote the byte `v` at address `addr`. -/
def memorypool.poke (p : memorypool) (addr : Int) (v : Nat) : memorypool :=
  { p with pblock := memorypool.pokeChain addr v p.pblock }

/-! ## Runs of a pool

The calls a program makes on a pool, with the addresses it currently holds. -/

/-- What `::operator new` may answer in state `p`: storage for the arena that
overlaps the arena of no block of the chain. -/
def memorypool.heapOK (p : memorypool) (heap : Option (Int × Arena)) : Prop :=
  ∀ a raw, heap = some (a, raw) → ∀ b ∈ p.pblock,
    a + wrap32 (p.nunitsize * p.ngrowsize) ≤ b.adata ∨ b.adata + b.nsize ≤ a

/-- The addresses a caller holds after a call of `allocate` returned `r`. -/
def liveAfter (r : Option Int) (live : List Int) : List Int :=
  match r with
  | some a => a :: live
  | none => live

/-- States a pool that starts as `p0` can be in, each with the list of the
addresses that `allocate` returned and that were not given to `free` since
(an address returned twice is listed twice).  A caller calls `allocate` with
a positive count, calls `free` on an address it holds, and writes bytes into
the units it holds. -/
inductive Reachable (p0 : memorypool) : memorypool → List Int → Prop
  | init : Reachable p0 p0 []
  | allocate {p : memorypool} {live : List Int} (num : Nat) (heap : Option (Int × Arena)) :
      Reachable p0 p live → 0 < num → p.heapOK heap →
      Reachable p0 (p.allocate num heap).2 (liveAfter (p.allocate num heap).1 live)
  | free {p : memorypool} {live : List Int} (a : Int) :
      Reachable p0 p live → a ∈ live → Reachable p0 (p.free a) (live.erase a)
  | poke {p : memorypool} {live : List Int} (a k : Int) (v : Nat) :
      Reachable p0 p live → a ∈ live → 0 ≤ k → k < p.nunitsize →
      Reachable p0 (p.poke (a + k) v) live

/-- Parameters within the ranges of the types that hold them: the unit has
room for the two byte link, a block has from 1 to 65536 units (the indices an
`unsigned short` link can hold) and its size in bytes is an `int`. -/
structure memorypool.Fits (p : memorypool) : Prop where
  unit : 2 ≤ p.nunitsize
  init_pos : 1 ≤ p.ninitsize
  init_le : p.ninitsize ≤ 65536
  grow_pos : 1 ≤ p.ngrowsize
  grow_le : p.ngrowsize ≤ 65536
  init_size : p.nunitsize * p.ninitsize < 2147483648
  grow_size : p.nunitsize * p.ngrowsize < 2147483648

/-- The byte stored at address `addr`, read in the first block of the chain
whose arena holds the address. -/
def byteAt : List memoryblock → Int → Option Nat
  | [], _ => none
  | b :: rest, addr => if b.owns addr then some (b.data (addr - b.adata)) else byteAt rest addr

/-- Number of units of a block, `nsize / nunitsize`. -/
def memoryblock.units (nunitsize : Int) (b : memoryblock) : Nat := (b.nsize / nunitsize).toNat

/-- Number of units of the block whose address a caller holds. -/
def memoryblock.heldUnits (nunitsize : Int) (live : List Int) (b : memoryblock) : Nat :=
  ((Finset.range (b.units nunitsize)).filter
    (fun i : Nat => b.adata + (i : Int) * nunitsize ∈ live)).card

/-! ## The free list of a block -/

/-- The stored links lead from `head` through the units listed in `fl`, in
that order: `head` is the first index, and the two bytes at the start of each
listed unit hold the index that follows it (the link of the last one is not
looked at). -/
def Linked (nunitsize : Int) (data : Arena) : Int → List Nat → Prop
  | _, [] => True
  | head, i :: rest => head = (i : Int) ∧ Linked nunitsize data (load16 data ((i : Int) * nunitsize)) rest

/-- A block of `cnt` units whose free units are those listed in `fl`, in the
order of the free list, while `live` lists the addresses callers hold: the
units not listed are those whose address a caller holds. -/
structure BlockInv (nunitsize : Int) (live : List Int) (b : memoryblock) (cnt : Nat)
    (fl : List Nat) : Prop where
  cnt_pos : 1 ≤ cnt
  cnt_le : cnt ≤ 65536
  size : b.nsize = nunitsize * cnt
  size_lt : nunitsize * cnt < 2147483648
  nfree : b.nfree = fl.length
  nodup : fl.Nodup
  lt : ∀ i ∈ fl, i < cnt
  linked : Linked nunitsize b.data b.nfirst fl
  held : ∀ i : Nat, i < cnt → (b.adata + (i : Int) * nunitsize ∈ live ↔ i ∉ fl)
  aligned : ∀ a ∈ live, b.owns a → ∃ i : Nat, i < cnt ∧ a = b.adata + (i : Int) * nunitsize

/-- The arenas of two blocks do not overlap. -/
def memoryblock.apart (b c : memoryblock) : Prop :=
  b.adata + b.nsize ≤ c.adata ∨ c.adata + c.nsize ≤ b.adata

/-- The state of a pool whose parameters fit, as every run keeps it: every
block has a well formed free list and a unit that a caller holds, the arenas
are apart, and every address held lies in a block and is held once. -/
structure PoolInv (p : memorypool) (live : List Int) : Prop where
  fits : p.Fits
  blocks : ∀ b ∈ p.pblock, ∃ cnt fl, BlockInv p.nunitsize live b cnt fl ∧ fl.length < cnt
  apart : p.pblock.Pairwise memoryblock.apart
  owned : ∀ a ∈ live, ∃ b ∈ p.pblock, b.owns a
  nodup : live.Nodup

/-- The unit indices met from `head` on by reading `k` times the link stored
in the first two bytes of the unit reached. -/
def walk (nunitsize : Int) (data : Arena) : Int → Nat → List Int
  | _, 0 => []
  | head, k + 1 => head :: walk nunitsize data (load16 data (head * nunitsize)) k

/-- The first `nfree` units reached from `nfirst` along the stored links. -/
def memoryblock.freeList (nunitsize : Int) (b : memoryblock) : List Int :=
  walk nunitsize b.data b.nfirst b.nfree.toNat

/-! ## Runs with the log of the blocks created -/

/-- The address of the arena of the block that a call of `allocate` creates,
if it creates one: the call asks `::operator new` for a block when the search
finds no block with `nfree != 0` (lines 68 and 97), and the block is built
when the operator answers with storage. -/
def memorypool.created (p : memorypool) (num : Nat) (heap : Option (Int × Arena)) :
    Option Int :=
  if num = 0 then none
  else
    match memorypool.takeUnit p.nunitsize p.pblock, heap with
    | none, some (a, _) => some a
    | _, _ => none

/-- The log of the blocks created, latest first, after call number `t` created
the block `r` (or none): each entry is the address of the arena of a block
with the number of the call that created it. -/
def logAfter (r : Option Int) (t : Nat) (log : List (Int × Nat)) : List (Int × Nat) :=
  match r with
  | some a => (a, t) :: log
  | none => log

/-- The number of the call that created the block whose arena is at `adata`:
the latest entry of the log for that address. -/
def bornAt : List (Int × Nat) → Int → Option Nat
  | [], _ => none
  | (a, t) :: rest, adata => if a = adata then some t else bornAt rest adata

/-- States of a run as in `Reachable`, with the number `t` of calls made so
far and the log of the blocks that the calls of `allocate` created. -/
inductive Logged (p0 : memorypool) : memorypool → List Int → List (Int × Nat) → Nat → Prop
  | init : Logged p0 p0 [] [] 0
  | allocate {p : memorypool} {live : List Int} {log : List (Int × Nat)} {t : Nat} (num : Nat)
      (heap : Option (Int × Arena)) :
      Logged p0 p live log t → 0 < num → p.heapOK heap →
      Logged p0 (p.allocate num heap).2 (liveAfter (p.allocate num heap).1 live)
        (logAfter (p.created num heap) t log) (t + 1)
  | free {p : memorypool} {live : List Int} {log : List (Int × Nat)} {t : Nat} (a : Int) :
      Logged p0 p live log t → a ∈ live → Logged p0 (p.free a) (live.erase a) log (t + 1)
  | poke {p : memorypool} {live : List Int} {log : List (Int × Nat)} {t : Nat} (a k : Int)
      (v : Nat) :
      Logged p0 p live log t → a ∈ live → 0 ≤ k → k < p.nunitsize →
      Logged p0 (p.poke (a + k) v) live log (t + 1)

/-- The block whose arena is at `x` was created by a later call than the
block whose arena is at `y`. -/
def laterAt (log : List (Int × Nat)) (x y : Int) : Prop :=
  ∃ s r, bornAt log x = some s ∧ bornAt log y = some r ∧ r < s

/-- Block `b` was created by a later call than block `c`. -/
def createdAfter (log : List (Int × Nat)) (b c : memoryblock) : Prop :=
  laterAt log b.adata c.adata

/-! ## Two runs of the same calls -/

/-- What the calls can observe of a block: the address and size of its arena,
its number of free units and its free list. -/
def memoryblock.shape (nunitsize : Int) (b : memoryblock) : Int × Int × Int × List Int :=
  (b.adata, b.nsize, b.nfree, b.freeList nunitsize)

/-- The answer of `::operator new`: `std::bad_alloc`, or storage at the given
address that holds the bytes `raw`. -/
def heapAt (addr : Option Int) (raw : Arena) : Option (Int × Arena) :=
  addr.map (fun a => (a, raw))

/-- The states `p` and `q` of two runs of the same calls on the pool `p0`, in
which `::operator new` answers with the same addresses, but the storage it
hands out holds the bytes `raw` in the first run and `raw'` in the second.
The list is that of the addresses held in the first run. -/
inductive Twin (p0 : memorypool) : memorypool → memorypool → List Int → Prop
  | init : Twin p0 p0 p0 []
  | allocate {p q : memorypool} {live : List Int} (num : Nat) (addr : Option Int)
      (raw raw' : Arena) :
      Twin p0 p q live → 0 < num → p.heapOK (heapAt addr raw) →
      Twin p0 (p.allocate num (heapAt addr raw)).2 (q.allocate num (heapAt addr raw')).2
        (liveAfter (p.allocate num (heapAt addr raw)).1 live)
  | free {p q : memorypool} {live : List Int} (a : Int) :
      Twin p0 p q live → a ∈ live → Twin p0 (p.free a) (q.free a) (live.erase a)
  | poke {p q : memorypool} {live : List Int} (a k : Int) (v : Nat) :
      Twin p0 p q live → a ∈ live → 0 ≤ k → k < p.nunitsize →
      Twin p0 (p.poke (a + k) v) (q.poke (a + k) v) live

/-- The index of the unit that `allocate` hands out next from the block, when
the block has a free unit. -/
def memoryblock.head (b : memoryblock) : Option Int :=
  if b.nfree = 0 then none else some b.nfirst

/-! ## Pools with blocks of any number of units -/

/-- Parameters within the range of `int`: the unit has room for the two byte
link, a block has at least one unit and its size in bytes is an `int`. -/
structure memorypool.Sized (p : memorypool) : Prop where
  unit : 2 ≤ p.nunitsize
  init_pos : 1 ≤ p.ninitsize
  grow_pos : 1 ≤ p.ngrowsize
  init_size : p.nunitsize * p.ninitsize < 2147483648
  grow_size : p.nunitsize * p.ngrowsize < 2147483648

/-- The addresses that callers hold in the arena of the block, as the test of
`free` sees it; an address held twice is listed twice. -/
def memoryblock.heldIn (b : memoryblock) (live : List Int) : List Int :=
  live.filter (fun a => decide (b.owns a))

/-- A block of more than 65536 units: every link that can be read or written
is one of the units 0 to 65535, whose links the constructor wrote. -/
structure BigInv (nunitsize : Int) (held : List Int) (b : memoryblock) (cnt : Nat) : Prop where
  big : 65536 < cnt
  first_nonneg : 0 ≤ b.nfirst
  first_lt : b.nfirst < 65536
  aligned : ∀ a ∈ held, ∃ i : Nat, i < 65536 ∧ a = b.adata + (i : Int) * nunitsize

/-- A block of `cnt` units while `held` lists the addresses held in its
arena: `nfree` plus the number of addresses held is `cnt`, an address is
held, and either the block has at most 65536 units and a well formed free
list, with no address held twice, or it has more. -/
structure GenBlock (nunitsize : Int) (held : List Int) (b : memoryblock) (cnt : Nat) :
    Prop where
  size : b.nsize = nunitsize * cnt
  size_lt : nunitsize * cnt < 2147483648
  nfree_nonneg : 0 ≤ b.nfree
  acc : b.nfree + held.length = cnt
  some_held : held ≠ []
  held_owned : ∀ a ∈ held, b.owns a
  regime : (∃ fl, BlockInv nunitsize held b cnt fl ∧ held.Nodup) ∨ BigInv nunitsize held b cnt

/-- The state of a pool whose parameters are in the range of `int`, as every
run keeps it: every block accounts for the addresses held in its arena, the
arenas are apart, and every address held lies in a block. -/
structure GenInv (p : memorypool) (live : List Int) : Prop where
  sized : p.Sized
  blocks : ∀ b ∈ p.pblock, ∃ cnt, GenBlock p.nunitsize (b.heldIn live) b cnt
  apart : p.pblock.Pairwise memoryblock.apart
  owned : ∀ a ∈ live, ∃ b ∈ p.pblock, b.owns a

/-- The links stored in the units 0 to 65535 of the arena. -/
def memoryblock.links (nunitsize : Int) (b : memoryblock) : List Int :=
  (List.range 65536).map (fun i : Nat => load16 b.data ((i : Int) * nunitsize))

/-- What the calls can read of a block: the address and size of its arena, its
number of free units and, when the arena has room for at most 65536 units,
its free list; when it has room for more, `nfirst` and the links of the units
0 to 65535. -/
def memoryblock.seen (nunitsize : Int) (b : memoryblock) :
    Int × Int × Int × (List Int ⊕ Int × List Int) :=
  (b.adata, b.nsize, b.nfree,
    if b.nsize ≤ 65536 * nunitsize then Sum.inl (b.freeList nunitsize)
    else Sum.inr (b.nfirst, b.links nunitsize))

/-- What the states of two runs of the same calls have in common: both keep
the invariant with the same addresses held, the parameters are the same, and
the calls can read the same of the blocks of the two chains, in order. -/
structure TwinGen (p q : memorypool) (live : List Int) : Prop where
  left : GenInv p live
  right : GenInv q live
  unit : q.nunitsize = p.nunitsize
  init : q.ninitsize = p.ninitsize
  grow : q.ngrowsize = p.ngrowsize
  seen : q.pblock.map (memoryblock.seen p.nunitsize) =
    p.pblock.map (memoryblock.seen p.nunitsize)

/-! ## Runs used in the examples -/

/-- The state after `m` calls `allocate(1)` on `p`, with the addresses they
returned, latest first; `heaps j` is what `::operator new` would answer in
call number `j + 1`. -/
def allocRun (p : memorypool) (heaps : Nat → Option (Int × Arena)) : Nat → memorypool × List Int
  | 0 => (p, [])
  | m + 1 =>
    let s := allocRun p heaps m
    let r := s.1.allocate 1 (heaps m)
    (r.2, liveAfter r.1 s.2)

/-- The answers of `::operator new` in a run whose first call is answered
`heap` and whose later calls would be answered `std::bad_alloc`. -/
def onlyFirst (heap : Option (Int × Arena)) : Nat → Option (Int × Arena) :=
  fun j => if j = 0 then heap else none

/-- The log of the blocks created by the `m` calls of `allocRun`. -/
def logRun (p : memorypool) (heaps : Nat → Option (Int × Arena)) : Nat → List (Int × Nat)
  | 0 => []
  | m + 1 => logAfter ((allocRun p heaps m).1.created 1 (heaps m)) m (logRun p heaps m)

/-- The state after `free` was called on each address of the list in turn. -/
def freeRun (p : memorypool) : List Int → memorypool
  | [] => p
  | a :: l => freeRun (p.free a) l

/-- The addresses of the units with indices `(m - 1) % 65536, ..., 1 % 65536,
0` of an arena at address `a`. -/
def firstUnits (a us : Int) : Nat → List Int
  | 0 => []
  | m + 1 => (a + ((m % 65536 : Nat) : Int) * us) :: firstUnits a us m

/-- A pool of 8 byte units (`sizeof(user)` is 4) with the default counts. -/
def demoPool : memorypool := memorypool.ctor 4 10 3

/-- A pool of 8 byte units whose first block has 65537 units. -/
def bigPool : memorypool := memorypool.ctor 4 10 65537

/-- A pool of 8 byte units whose first block has 2 units. -/
def pairPool : memorypool := memorypool.ctor 4 10 2

/-- A pool for a type of 2^32 bytes, with the default counts: the `int` field
`nunitsize` holds 0. -/
def nullPool : memorypool := memorypool.ctor 4294967296 10 3

/-- A pool of 8 byte units whose first block has 2 units and whose later
blocks have none. -/
def noGrowPool : memorypool := memorypool.ctor 4 0 2

/-- A pool of 8 byte units whose first block has no unit. -/
def noInitPool : memorypool := memorypool.ctor 4 10 0

/-- Storage at address `a` filled with zero bytes. -/
def zeroed (a : Int) : Option (Int × Arena) := some (a, fun _ => 0)

/-- The answers of `::operator new` in the run of `noGrowPool`: storage at
4096 for the first call, at 8192 for the third, `std::bad_alloc` otherwise. -/
def pairHeaps : Nat → Option (Int × Arena) :=
  fun j => if j = 0 then zeroed 4096 else if j = 2 then zeroed 8192 else none

/-- The answers of `::operator new` in the demonstration runs: storage at
4096 for the first call, at 8192 for the fourth, `std::bad_alloc` otherwise. -/
def demoHeaps : Nat → Option (Int × Arena) :=
  fun j => if j = 0 then zeroed 4096 else if j = 3 then zeroed 8192 else none

/-- The demonstration pool after three calls of `allocate`, when the storage
that `::operator new` hands out at 4096 holds the bytes `raw`: the three units
of the first block are handed out, and `nfirst` holds the link read in the
last unit, which the constructor did not write. -/
def rawRun (raw : Arena) : memorypool :=
  (((demoPool.allocate 1 (heapAt (some 4096) raw)).2.allocate 1 (heapAt none raw)).2.allocate 1
    (heapAt none raw)).2

end MemoryPool

namespace MemoryPool

/-! ## Arithmetic of the embedding -/

theorem wrap32_of_range {x : Int} (h0 : -2147483648 ≤ x) (h1 : x < 2147483648) : wrap32 x = x := by
  unfold wrap32; omega

theorem load16_nonneg (m : Arena) (off : Int) : 0 ≤ load16 m off := by
  unfold load16; omega

theorem load16_lt (m : Arena) (off : Int) : load16 m off < 65536 := by
  unfold load16; omega

theorem load16_congr {m m' : Arena} {off : Int} (h0 : m' off = m off)
    (h1 : m' (off + 1) = m (off + 1)) : load16 m' off = load16 m off := by
  unfold load16; rw [h0, h1]

theorem load16_store16_same (m : Arena) (off v : Int) :
    load16 (store16 m off v) off = v % 65536 := by
  have h : off + 1 ≠ off := by omega
  simp only [load16, store16, if_true, h, if_false]
  omega

theorem store16_other (m : Arena) (off v x : Int) (h : x < off ∨ off + 1 < x) :
    store16 m off v x = m x := by
  have h0 : x ≠ off := by omega
  have h1 : x ≠ off + 1 := by omega
  simp [store16, h0, h1]

theorem load16_store16_other (m : Arena) (off v x : Int) (h : x + 1 < off ∨ off + 1 < x) :
    load16 (store16 m off v) x = load16 m x :=
  load16_congr (store16_other m off v x (by omega)) (store16_other m off v (x + 1) (by omega))

theorem store8_other (m : Arena) (off x : Int) (v : Nat) (h : x ≠ off) :
    store8 m off v x = m x := by
  simp [store8, h]

theorem load16_store8_other (m : Arena) (off x : Int) (v : Nat) (h : off < x ∨ x + 1 < off) :
    load16 (store8 m off v) x = load16 m x :=
  load16_congr (store8_other m off x v (by omega)) (store8_other m off (x + 1) v (by omega))

/-- Units with different indices start at least one unit size apart. -/
theorem unit_sep {us : Int} (hus : 0 ≤ us) {i j : Nat} (h : i < j) :
    (i : Int) * us + us ≤ (j : Int) * us := by
  have h1 : ((i : Int) + 1) ≤ (j : Int) := by omega
  have h2 := mul_le_mul_of_nonneg_right h1 hus
  linarith

theorem unit_lt {us : Int} (hus : 0 < us) {i cnt : Nat} (h : i < cnt) :
    (i : Int) * us + us ≤ us * (cnt : Int) := by
  have := unit_sep (le_of_lt hus) h
  linarith [mul_comm (cnt : Int) us]

theorem unit_nonneg {us : Int} (hus : 0 ≤ us) (i : Nat) : 0 ≤ (i : Int) * us :=
  mul_nonneg (by omega) hus

theorem unit_inj {us : Int} (hus : 0 < us) {i j : Nat} (h : (i : Int) * us = (j : Int) * us) :
    i = j := by
  rcases Nat.lt_trichotomy i j with h1 | h1 | h1
  · have := unit_sep (le_of_lt hus) h1; omega
  · exact h1
  · have := unit_sep (le_of_lt hus) h1; omega

/-! ## The constructor's loop -/

theorem thread_frame {us : Int} (hus : 0 ≤ us) (k : Nat) (i pp : Int) (m : Arena) (x : Int)
    (hx : x < pp) : memoryblock.thread us k i pp m x = m x := by
  induction k generalizing i pp m with
  | zero => rfl
  | succ k ih =>
    rw [memoryblock.thread, ih _ _ _ (by omega), store16_other _ _ _ _ (Or.inl hx)]

theorem thread_load {us : Int} (hus : 2 ≤ us) (k : Nat) (i pp : Int) (m : Arena) (j : Nat)
    (hj : j < k) :
    load16 (memoryblock.thread us k i pp m) (pp + (j : Int) * us) = (i + j) % 65536 := by
  induction k generalizing i pp m j with
  | zero => omega
  | succ k ih =>
    rw [memoryblock.thread]
    cases j with
    | zero =>
      simp only [Nat.cast_zero, zero_mul, add_zero]
      rw [load16_congr (thread_frame (by omega) k _ _ _ pp (by omega))
        (thread_frame (by omega) k _ _ _ (pp + 1) (by omega)), load16_store16_same]
    | succ j =>
      have := ih (i + 1) (pp + us) (store16 m pp i) j (by omega)
      have e : pp + ((j + 1 : Nat) : Int) * us = pp + us + (j : Int) * us := by push_cast; ring
      rw [e, this]; congr 1; push_cast; ring

/-! ## The searches along the chain -/

theorem takeUnit_none {us : Int} {chain : List memoryblock} :
    memorypool.takeUnit us chain = none ↔ ∀ c ∈ chain, c.nfree = 0 := by
  induction chain with
  | nil => simp [memorypool.takeUnit]
  | cons b rest ih =>
    by_cases hb : b.nfree = 0
    · cases h : memorypool.takeUnit us rest with
      | none =>
        simp only [memorypool.takeUnit, hb, h, if_true, true_iff]
        intro c hc
        rcases List.mem_cons.mp hc with rfl | hc
        · exact hb
        · exact ih.mp h c hc
      | some r =>
        have : ¬ ∀ c ∈ rest, c.nfree = 0 := fun hh => by rw [ih.mpr hh] at h; cases h
        simp [memorypool.takeUnit, hb, h, this]
    · simp [memorypool.takeUnit, hb]

theorem takeUnit_some {us : Int} {chain chain' : List memoryblock} {pfree : Int}
    (h : memorypool.takeUnit us chain = some (pfree, chain')) :
    ∃ pre b post, chain = pre ++ b :: post ∧ (∀ c ∈ pre, c.nfree = 0) ∧ b.nfree ≠ 0 ∧
      pfree = (b.take us).1 ∧ chain' = pre ++ (b.take us).2 :: post := by
  induction chain generalizing chain' pfree with
  | nil => simp [memorypool.takeUnit] at h
  | cons b rest ih =>
    by_cases hb : b.nfree = 0
    · cases hr : memorypool.takeUnit us rest with
      | none => simp [memorypool.takeUnit, hb, hr] at h
      | some r =>
        obtain ⟨q, rest'⟩ := r
        simp only [memorypool.takeUnit, hb, hr, if_true, Option.some.injEq, Prod.mk.injEq] at h
        obtain ⟨pre, c, post, e, hpre, hc, hq, hrest⟩ := ih hr
        refine ⟨b :: pre, c, post, by simp [e], ?_, hc, by rw [← h.1, hq], by simp [← h.2, hrest]⟩
        intro d hd
        rcases List.mem_cons.mp hd with rfl | hd
        · exact hb
        · exact hpre d hd
    · simp only [memorypool.takeUnit, hb, if_false, Option.some.injEq, Prod.mk.injEq] at h
      exact ⟨[], b, rest, rfl, by simp, hb, h.1.symm, by simp [← h.2]⟩

theorem exists_first (P : memoryblock → Prop) [DecidablePred P] (chain : List memoryblock)
    (h : ∃ c ∈ chain, P c) :
    ∃ pre b post, chain = pre ++ b :: post ∧ (∀ c ∈ pre, ¬ P c) ∧ P b := by
  induction chain with
  | nil => simp at h
  | cons b rest ih =>
    by_cases hb : P b
    · exact ⟨[], b, rest, rfl, by simp, hb⟩
    · obtain ⟨c, hc, hPc⟩ := h
      rcases List.mem_cons.mp hc with rfl | hc
      · exact absurd hPc hb
      · obtain ⟨pre, d, post, e, hpre, hd⟩ := ih ⟨c, hc, hPc⟩
        refine ⟨b :: pre, d, post, by simp [e], ?_, hd⟩
        intro x hx
        rcases List.mem_cons.mp hx with rfl | hx
        · exact hb
        · exact hpre x hx

theorem freeChain_not_owned {us a : Int} {chain : List memoryblock}
    (h : ∀ c ∈ chain, ¬ c.owns a) : memorypool.freeChain us a chain = chain := by
  induction chain with
  | nil => rfl
  | cons b rest ih =>
    have hb : ¬ b.owns a := h b (List.mem_cons_self _ _)
    simp only [memorypool.freeChain, hb, if_false]
    rw [ih (fun c hc => h c (List.mem_cons_of_mem _ hc))]

theorem freeChain_split {us a : Int} (pre : List memoryblock) (b : memoryblock)
    (post : List memoryblock) (hpre : ∀ c ∈ pre, ¬ c.owns a) (hb : b.owns a) :
    memorypool.freeChain us a (pre ++ b :: post) =
      pre ++ (if wrap32 ((b.release us a).nfree * us) = (b.release us a).nsize then post
        else b.release us a :: post) := by
  induction pre with
  | nil =>
    simp only [List.nil_append, memorypool.freeChain, hb, if_true]
  | cons c pre ih =>
    have hc : ¬ c.owns a := hpre c (List.mem_cons_self _ _)
    simp only [List.cons_append, memorypool.freeChain, hc, if_false]
    exact congrArg (c :: ·) (ih (fun d hd => hpre d (List.mem_cons_of_mem _ hd)))

theorem pokeChain_split {a : Int} {v : Nat} (pre : List memoryblock) (b : memoryblock)
    (post : List memoryblock) (hpre : ∀ c ∈ pre, ¬ c.owns a) (hb : b.owns a) :
    memorypool.pokeChain a v (pre ++ b :: post) =
      pre ++ { b with data := store8 b.data (a - b.adata) v } :: post := by
  induction pre with
  | nil => simp only [List.nil_append, memorypool.pokeChain, hb, if_true]
  | cons c pre ih =>
    have hc : ¬ c.owns a := hpre c (List.mem_cons_self _ _)
    simp only [List.cons_append, memorypool.pokeChain, hc, if_false]
    exact congrArg (c :: ·) (ih (fun d hd => hpre d (List.mem_cons_of_mem _ hd)))

theorem Linked.congr_data {us : Int} {d d' : Arena} {fl : List Nat}
    (h : ∀ i ∈ fl, load16 d' ((i : Int) * us) = load16 d ((i : Int) * us)) {head : Int}
    (hl : Linked us d head fl) : Linked us d' head fl := by
  induction fl generalizing head with
  | nil => trivial
  | cons i rest ih =>
    obtain ⟨h1, h2⟩ := hl
    refine ⟨h1, ?_⟩
    rw [h i (List.mem_cons_self _ _)]
    exact ih (fun j hj => h j (List.mem_cons_of_mem _ hj)) h2

theorem BlockInv.owns_unit {us : Int} {live : List Int} {b : memoryblock} {cnt : Nat}
    {fl : List Nat} (hb : BlockInv us live b cnt fl) (hus : 0 < us) {i : Nat} (hi : i < cnt) :
    b.owns (b.adata + (i : Int) * us) := by
  have h1 := unit_lt hus hi
  have h2 := unit_nonneg (le_of_lt hus) i
  have h3 := hb.size
  unfold memoryblock.owns
  omega

theorem BlockInv.frame {us : Int} {live live' : List Int} {b : memoryblock} {cnt : Nat}
    {fl : List Nat} (hb : BlockInv us live b cnt fl) (hus : 0 < us)
    (h : ∀ x, b.owns x → (x ∈ live' ↔ x ∈ live)) : BlockInv us live' b cnt fl where
  cnt_pos := hb.cnt_pos
  cnt_le := hb.cnt_le
  size := hb.size
  size_lt := hb.size_lt
  nfree := hb.nfree
  nodup := hb.nodup
  lt := hb.lt
  linked := hb.linked
  held := fun i hi => (h _ (hb.owns_unit hus hi)).trans (hb.held i hi)
  aligned := fun a ha ho => hb.aligned a ((h a ho).mp ha) ho

theorem nodup_length_le {l : List Nat} {n : Nat} (hl : l.Nodup) (h : ∀ x ∈ l, x < n) :
    l.length ≤ n := by
  have hs : l ⊆ List.range n := fun x hx => List.mem_range.mpr (h x hx)
  simpa using (List.subperm_of_subset hl hs).length_le

theorem Linked.head {us : Int} {d : Arena} {fl : List Nat} {h h' : Int}
    (hl : Linked us d h fl) (e : fl ≠ [] → h' = h) : Linked us d h' fl := by
  cases fl with
  | nil => trivial
  | cons i rest => exact ⟨(e (by simp)).trans hl.1, hl.2⟩

theorem BlockInv.after_take {us : Int} {live : List Int} {b : memoryblock} {cnt : Nat}
    {fl : List Nat} (hb : BlockInv us live b cnt fl) (hus : 2 ≤ us) (hne : b.nfree ≠ 0) :
    ∃ i rest, fl = i :: rest ∧ (b.take us).1 = b.adata + (i : Int) * us ∧ i < cnt ∧
      BlockInv us ((b.take us).1 :: live) (b.take us).2 cnt rest := by
  cases fl with
  | nil => exact absurd (by simpa using hb.nfree) hne
  | cons i rest =>
    have hi : i < cnt := hb.lt i (List.mem_cons_self _ _)
    obtain ⟨hfirst, hlink⟩ := hb.linked
    have h1 := unit_lt (by omega : 0 < us) hi
    have h2 := unit_nonneg (by omega : 0 ≤ us) i
    have hsz := hb.size_lt
    have hoff : wrap32 (b.nfirst * us) = (i : Int) * us := by
      rw [hfirst]; exact wrap32_of_range (by omega) (by omega)
    have hp : (b.take us).1 = b.adata + (i : Int) * us := by
      simp only [memoryblock.take, hoff]
    have hnd := List.nodup_cons.mp hb.nodup
    refine ⟨i, rest, rfl, hp, hi, ?_⟩
    rw [hp]
    refine
      { cnt_pos := hb.cnt_pos, cnt_le := hb.cnt_le, size := hb.size, size_lt := hb.size_lt
        nfree := ?_, nodup := hnd.2, lt := fun j hj => hb.lt j (List.mem_cons_of_mem _ hj)
        linked := ?_, held := ?_, aligned := ?_ }
    · have := hb.nfree
      have hc := hb.cnt_le
      have hl := nodup_length_le hb.nodup hb.lt
      simp only [List.length_cons] at hl
      simp only [memoryblock.take, this, List.length_cons]
      rw [wrap32_of_range (by push_cast; omega) (by push_cast; omega)]
      push_cast; omega
    · simpa only [memoryblock.take, hoff] using hlink
    · intro j hj
      have hh := hb.held j hj
      simp only [memoryblock.take, List.mem_cons] at hh ⊢
      constructor
      · rintro (e | e)
        · have : j = i := unit_inj (by omega : 0 < us) (by omega)
          rw [this]; exact hnd.1
        · exact fun hjr => hh.mp e (Or.inr hjr)
      · intro hjr
        by_cases e : j = i
        · left; rw [e]
        · right; exact hh.mpr (by rintro (h | h); exact e h; exact hjr h)
    · intro a ha ho
      rcases List.mem_cons.mp ha with rfl | ha
      · exact ⟨i, hi, rfl⟩
      · exact hb.aligned a ha ho

theorem BlockInv.after_release {us : Int} {live : List Int} {b : memoryblock} {cnt : Nat}
    {fl : List Nat} (hb : BlockInv us live b cnt fl) (hus : 2 ≤ us) (hnd : live.Nodup)
    {a : Int} (ha : a ∈ live) (ho : b.owns a) :
    ∃ i : Nat, a = b.adata + (i : Int) * us ∧ i < cnt ∧ i ∉ fl ∧
      BlockInv us (live.erase a) (b.release us a) cnt (i :: fl) := by
  obtain ⟨i, hi, rfl⟩ := hb.aligned a ha ho
  have hif : i ∉ fl := (hb.held i hi).mp ha
  have hc := hb.cnt_le
  have hl := nodup_length_le hb.nodup hb.lt
  have hus0 : (0 : Int) < us := by omega
  have hoff : b.adata + (i : Int) * us - b.adata = (i : Int) * us := by ring
  refine ⟨i, rfl, hi, hif, ?_⟩
  refine
    { cnt_pos := hb.cnt_pos, cnt_le := hb.cnt_le, size := hb.size, size_lt := hb.size_lt
      nfree := ?_, nodup := List.nodup_cons.mpr ⟨hif, hb.nodup⟩, lt := ?_
      linked := ?_, held := ?_, aligned := ?_ }
  · have := hb.nfree
    simp only [memoryblock.release, this, List.length_cons]
    rw [wrap32_of_range (by omega) (by omega)]
    push_cast; rfl
  · intro j hj
    rcases List.mem_cons.mp hj with rfl | hj
    · exact hi
    · exact hb.lt j hj
  · simp only [memoryblock.release, hoff]
    refine ⟨?_, ?_⟩
    · rw [Int.mul_tdiv_cancel _ (by omega : us ≠ 0)]
      exact wrap32_of_range (by omega) (by omega)
    · rw [load16_store16_same]
      refine Linked.head (Linked.congr_data ?_ hb.linked) ?_
      · intro j hj
        have hji : j ≠ i := fun e => hif (e ▸ hj)
        apply load16_store16_other
        rcases Nat.lt_or_gt_of_ne hji with h | h
        · have := unit_sep (le_of_lt hus0) h; omega
        · have := unit_sep (le_of_lt hus0) h; omega
      · intro hne
        cases fl with
        | nil => exact absurd rfl hne
        | cons j r =>
          have h1 := hb.linked.1
          have h2 := hb.lt j (List.mem_cons_self _ _)
          omega
  · intro j hj
    have hh := hb.held j hj
    simp only [memoryblock.release]
    rw [hnd.mem_erase_iff, List.mem_cons, hh]
    constructor
    · rintro ⟨h1, h2⟩
      rintro (e | e)
      · exact h1 (by rw [e])
      · exact h2 e
    · intro h
      refine ⟨fun e => h (Or.inl ?_), fun e => h (Or.inr e)⟩
      exact unit_inj hus0 (by omega)
  · intro x hx hxo
    exact hb.aligned x (List.mem_of_mem_erase hx) hxo

theorem BlockInv.after_poke {us : Int} {live : List Int} {b : memoryblock} {cnt : Nat}
    {fl : List Nat} (hb : BlockInv us live b cnt fl) (hus : 2 ≤ us)
    {u k : Int} (v : Nat) (hu : u ∈ live) (ho : b.owns u) (hk0 : 0 ≤ k) (hk : k < us) :
    BlockInv us live { b with data := store8 b.data (u + k - b.adata) v } cnt fl := by
  obtain ⟨i, hi, rfl⟩ := hb.aligned u hu ho
  have hif : i ∉ fl := (hb.held i hi).mp hu
  have hus0 : (0 : Int) < us := by omega
  refine
    { cnt_pos := hb.cnt_pos, cnt_le := hb.cnt_le, size := hb.size, size_lt := hb.size_lt
      nfree := hb.nfree, nodup := hb.nodup, lt := hb.lt
      linked := ?_, held := hb.held, aligned := hb.aligned }
  refine Linked.congr_data ?_ hb.linked
  intro j hj
  have hji : j ≠ i := fun e => hif (e ▸ hj)
  apply load16_store8_other
  rcases Nat.lt_or_gt_of_ne hji with h | h
  · have := unit_sep (le_of_lt hus0) h; omega
  · have := unit_sep (le_of_lt hus0) h; omega

theorem thread_linked {us : Int} (hus : 2 ≤ us) (m : Nat) (hm : m < 65536) (raw : Arena)
    (len s : Nat) (hs : s + len ≤ m + 1) :
    Linked us (memoryblock.thread us m 1 0 raw) s (List.range' s len) := by
  induction len generalizing s with
  | zero => trivial
  | succ len ih =>
    rw [List.range'_succ]
    refine ⟨rfl, Linked.head (ih (s + 1) (by omega)) ?_⟩
    intro hne
    have hlen : 0 < len := by
      cases len with
      | zero => simp at hne
      | succ l => omega
    have := thread_load hus m 1 0 raw s (by omega)
    rw [zero_add] at this
    rw [this]; push_cast; omega

theorem BlockInv.of_ctor {us : Int} (hus : 2 ≤ us) {n : Int} (hn1 : 1 ≤ n) (hn2 : n ≤ 65536)
    (hsz : us * n < 2147483648) (a : Int) (raw : Arena) {live : List Int}
    (hfresh : ∀ x ∈ live, ¬ (a ≤ x ∧ x < a + us * n)) :
    BlockInv us (a :: live) (memoryblock.ctor us n a raw) n.toNat
      (List.range' 1 (n.toNat - 1)) := by
  have hus0 : (0 : Int) < us := by omega
  have hn : ((n.toNat : Nat) : Int) = n := Int.toNat_of_nonneg (by omega)
  have hsz0 : 0 ≤ us * n := mul_nonneg (by omega) (by omega)
  refine
    { cnt_pos := by omega, cnt_le := by omega, size := ?_, size_lt := by rw [hn]; exact hsz
      nfree := ?_, nodup := List.nodup_range' _ _, lt := ?_
      linked := ?_, held := ?_, aligned := ?_ }
  · simp only [memoryblock.ctor, hn]
    exact wrap32_of_range (by omega) hsz
  · simp only [memoryblock.ctor, List.length_range']
    rw [wrap32_of_range (by omega) (by omega)]
    omega
  · intro i hi
    rw [List.mem_range'_1] at hi
    omega
  · have e : (n - 1).toNat = n.toNat - 1 := by omega
    simp only [memoryblock.ctor, e]
    exact thread_linked hus _ (by omega) raw _ 1 (by omega)
  · intro i hi
    simp only [memoryblock.ctor, List.mem_cons, List.mem_range'_1]
    have h1 := unit_nonneg (le_of_lt hus0) i
    have h2 := unit_lt hus0 hi
    rw [hn] at h2
    constructor
    · rintro (e | e)
      · have e0 : (i : Int) * us = ((0 : Nat) : Int) * us := by push_cast; omega
        have : i = 0 := unit_inj hus0 e0
        omega
      · exact absurd ⟨by omega, by omega⟩ (hfresh _ e)
    · intro h
      have : i = 0 := by omega
      left; rw [this]; simp
  · intro x hx hxo
    rcases List.mem_cons.mp hx with rfl | hx
    · exact ⟨0, by omega, by simp [memoryblock.ctor]⟩
    · have hs : (memoryblock.ctor us n a raw).nsize = us * n := by
        simp only [memoryblock.ctor]; exact wrap32_of_range (by omega) hsz
      refine absurd ?_ (hfresh _ hx)
      unfold memoryblock.owns at hxo
      rw [hs] at hxo
      simpa [memoryblock.ctor] using hxo

theorem nodup_full {l : List Nat} {n : Nat} (hl : l.Nodup) (h : ∀ x ∈ l, x < n)
    (hlen : l.length = n) {j : Nat} (hj : j < n) : j ∈ l := by
  by_contra hjl
  have h1 : (j :: l).Nodup := List.nodup_cons.mpr ⟨hjl, hl⟩
  have h2 : ∀ x ∈ j :: l, x < n := by
    intro x hx
    rcases List.mem_cons.mp hx with rfl | hx
    · exact hj
    · exact h x hx
  have := nodup_length_le h1 h2
  simp only [List.length_cons] at this
  omega

theorem memoryblock.apart_symm {b c : memoryblock} (h : b.apart c) : c.apart b :=
  Or.symm h

theorem memoryblock.apart_owns {b c : memoryblock} (h : b.apart c) {x : Int} (hb : b.owns x)
    (hc : c.owns x) : False := by
  unfold memoryblock.apart at h
  unfold memoryblock.owns at hb hc
  omega

theorem apart_split {pre post : List memoryblock} {b : memoryblock}
    (h : (pre ++ b :: post).Pairwise memoryblock.apart) :
    ∀ c ∈ pre ++ post, c.apart b := by
  rw [List.pairwise_append, List.pairwise_cons] at h
  intro c hc
  rcases List.mem_append.mp hc with hc | hc
  · exact h.2.2 c hc b (List.mem_cons_self _ _)
  · exact memoryblock.apart_symm (h.2.1.1 c hc)

theorem apart_replace {pre post : List memoryblock} {b b' : memoryblock}
    (h : (pre ++ b :: post).Pairwise memoryblock.apart)
    (h1 : b'.adata = b.adata) (h2 : b'.nsize = b.nsize) :
    (pre ++ b' :: post).Pairwise memoryblock.apart := by
  rw [List.pairwise_append, List.pairwise_cons] at h ⊢
  refine ⟨h.1, ⟨fun c hc => ?_, h.2.1.2⟩, fun c hc d hd => ?_⟩
  · have := h.2.1.1 c hc
    unfold memoryblock.apart at this ⊢
    rw [h1, h2]; exact this
  · rcases List.mem_cons.mp hd with rfl | hd
    · have := h.2.2 c hc b (List.mem_cons_self _ _)
      unfold memoryblock.apart at this ⊢
      rw [h1, h2]; exact this
    · exact h.2.2 c hc d (List.mem_cons_of_mem _ hd)

theorem apart_remove {pre post : List memoryblock} {b : memoryblock}
    (h : (pre ++ b :: post).Pairwise memoryblock.apart) :
    (pre ++ post).Pairwise memoryblock.apart :=
  h.sublist (List.Sublist.append (List.Sublist.refl pre) (List.sublist_cons_self b post))

theorem mem_split_cases {pre post : List memoryblock} {b c : memoryblock}
    (h : c ∈ pre ++ b :: post) : c = b ∨ c ∈ pre ++ post := by
  simp only [List.mem_append, List.mem_cons] at h ⊢
  tauto

/-- The ways a call of `allocate` with a positive count can go. -/
theorem allocate_cases (p : memorypool) {num : Nat} (hnum : 0 < num)
    (heap : Option (Int × Arena)) :
    (heap = none ∧ (∀ c ∈ p.pblock, c.nfree = 0) ∧ p.allocate num heap = (none, p)) ∨
    (∃ a raw, heap = some (a, raw) ∧ p.pblock = [] ∧ p.allocate num heap =
      (some a, { p with pblock := [memoryblock.ctor p.nunitsize p.ninitsize a raw] })) ∨
    (∃ a raw, heap = some (a, raw) ∧ p.pblock ≠ [] ∧ (∀ c ∈ p.pblock, c.nfree = 0) ∧
      p.allocate num heap = (some a, { p with
        pblock := memoryblock.ctor p.nunitsize p.ngrowsize a raw :: p.pblock })) ∨
    (∃ pre b post, p.pblock = pre ++ b :: post ∧ (∀ c ∈ pre, c.nfree = 0) ∧ b.nfree ≠ 0 ∧
      p.allocate num heap =
        (some (b.take p.nunitsize).1, { p with
          pblock := pre ++ (b.take p.nunitsize).2 :: post })) := by
  have hn : num ≠ 0 := by omega
  cases hc : p.pblock with
  | nil =>
    cases heap with
    | none => left; simp [memorypool.allocate, hn, hc]
    | some r =>
      obtain ⟨a, raw⟩ := r
      right; left
      exact ⟨a, raw, rfl, rfl, by simp [memorypool.allocate, hn, hc]⟩
  | cons b bs =>
    cases ht : memorypool.takeUnit p.nunitsize (b :: bs) with
    | none =>
      have hall := takeUnit_none.mp ht
      cases heap with
      | none => left; exact ⟨rfl, hall, by simp [memorypool.allocate, hn, hc, ht]⟩
      | some r =>
        obtain ⟨a, raw⟩ := r
        right; right; left
        exact ⟨a, raw, rfl, by simp, hall, by simp [memorypool.allocate, hn, hc, ht]⟩
    | some r =>
      obtain ⟨pfree, chain'⟩ := r
      obtain ⟨pre, c, post, e, hpre, hcne, hq, hch⟩ := takeUnit_some ht
      right; right; right
      exact ⟨pre, c, post, e, hpre, hcne, by simp [memorypool.allocate, hn, hc, ht, hq, hch]⟩

theorem take_adata (us : Int) (b : memoryblock) : (b.take us).2.adata = b.adata := rfl
theorem take_nsize (us : Int) (b : memoryblock) : (b.take us).2.nsize = b.nsize := rfl
theorem release_adata (us : Int) (b : memoryblock) (a : Int) :
    (b.release us a).adata = b.adata := rfl
theorem release_nsize (us : Int) (b : memoryblock) (a : Int) :
    (b.release us a).nsize = b.nsize := rfl

theorem owns_congr {b b' : memoryblock} (h1 : b'.adata = b.adata) (h2 : b'.nsize = b.nsize)
    (x : Int) : b'.owns x ↔ b.owns x := by
  unfold memoryblock.owns; rw [h1, h2]

theorem memorypool.Fits.transport {p p' : memorypool} (h : p.Fits)
    (h1 : p'.ninitsize = p.ninitsize) (h2 : p'.ngrowsize = p.ngrowsize)
    (h3 : p'.nunitsize = p.nunitsize) : p'.Fits where
  unit := by rw [h3]; exact h.unit
  init_pos := by rw [h1]; exact h.init_pos
  init_le := by rw [h1]; exact h.init_le
  grow_pos := by rw [h2]; exact h.grow_pos
  grow_le := by rw [h2]; exact h.grow_le
  init_size := by rw [h1, h3]; exact h.init_size
  grow_size := by rw [h2, h3]; exact h.grow_size

/-- A new block put in front of the chain keeps the invariant. -/
theorem PoolInv.grow {p : memorypool} {live : List Int} (h : PoolInv p live)
    {n : Int} (hn1 : 1 ≤ n) (hn2 : n ≤ 65536) (hsz : p.nunitsize * n < 2147483648)
    (a : Int) (raw : Arena)
    (hfree : ∀ b ∈ p.pblock, a + p.nunitsize * n ≤ b.adata ∨ b.adata + b.nsize ≤ a) :
    PoolInv { p with pblock := memoryblock.ctor p.nunitsize n a raw :: p.pblock }
      (a :: live) := by
  have hus := h.fits.unit
  have hus0 : 0 < p.nunitsize := by omega
  have hpos : 0 < p.nunitsize * n := mul_pos hus0 (by omega)
  have hns : (memoryblock.ctor p.nunitsize n a raw).nsize = p.nunitsize * n := by
    simp only [memoryblock.ctor]; exact wrap32_of_range (by omega) hsz
  have hfresh : ∀ x ∈ live, ¬ (a ≤ x ∧ x < a + p.nunitsize * n) := by
    intro x hx hr
    obtain ⟨c, hc, hco⟩ := h.owned x hx
    have := hfree c hc
    unfold memoryblock.owns at hco
    omega
  have hnew := BlockInv.of_ctor hus hn1 hn2 hsz a raw hfresh
  refine { fits := h.fits.transport rfl rfl rfl, blocks := ?_, apart := ?_, owned := ?_, nodup := ?_ }
  · intro c hc
    rcases List.mem_cons.mp hc with rfl | hc
    · exact ⟨_, _, hnew, by simp only [List.length_range']; omega⟩
    · obtain ⟨cnt, fl, hci, hlen⟩ := h.blocks c hc
      refine ⟨cnt, fl, hci.frame hus0 ?_, hlen⟩
      intro x hxo
      have := hfree c hc
      have hxa : x ≠ a := by
        unfold memoryblock.owns at hxo
        omega
      simp [hxa]
  · refine List.pairwise_cons.mpr ⟨?_, h.apart⟩
    intro c hc
    have := hfree c hc
    unfold memoryblock.apart
    rw [hns]
    simpa [memoryblock.ctor] using this
  · intro x hx
    rcases List.mem_cons.mp hx with rfl | hx
    · refine ⟨_, List.mem_cons_self _ _, ?_⟩
      unfold memoryblock.owns
      rw [hns]
      simp only [memoryblock.ctor]
      omega
    · obtain ⟨c, hc, hco⟩ := h.owned x hx
      exact ⟨c, List.mem_cons_of_mem _ hc, hco⟩
  · refine List.nodup_cons.mpr ⟨fun ha => hfresh a ha ⟨by omega, by omega⟩, h.nodup⟩

theorem PoolInv.step_allocate {p : memorypool} {live : List Int} (h : PoolInv p live)
    {num : Nat} (hnum : 0 < num) {heap : Option (Int × Arena)} (hheap : p.heapOK heap) :
    PoolInv (p.allocate num heap).2 (liveAfter (p.allocate num heap).1 live) := by
  have hus := h.fits.unit
  have hus0 : 0 < p.nunitsize := by omega
  rcases allocate_cases p hnum heap with
    ⟨_, _, e⟩ | ⟨a, raw, rfl, hnil, e⟩ | ⟨a, raw, rfl, _, _, e⟩ | ⟨pre, b, post, hsplit, _, hne, e⟩
  · rw [e]; exact h
  · rw [e]
    simp only [liveAfter]
    have := h.grow h.fits.init_pos h.fits.init_le h.fits.init_size a raw
      (by rw [hnil]; intro b hb; cases hb)
    rw [hnil] at this
    exact this
  · rw [e]
    simp only [liveAfter]
    refine h.grow h.fits.grow_pos h.fits.grow_le h.fits.grow_size a raw ?_
    intro b hb
    have := hheap a raw rfl b hb
    rwa [wrap32_of_range
      (by have := mul_pos hus0 (by have := h.fits.grow_pos; omega : 0 < p.ngrowsize); omega)
      h.fits.grow_size] at this
  · rw [e]
    simp only [liveAfter]
    have hbmem : b ∈ p.pblock := by rw [hsplit]; simp
    obtain ⟨cnt, fl, hbi, hlen⟩ := h.blocks b hbmem
    obtain ⟨i, rest, rfl, hp, hi, hbi'⟩ := hbi.after_take hus hne
    have hap := h.apart
    rw [hsplit] at hap
    have hbo : b.owns (b.take p.nunitsize).1 := by rw [hp]; exact hbi.owns_unit hus0 hi
    refine { fits := h.fits.transport rfl rfl rfl, blocks := ?_, apart := ?_, owned := ?_, nodup := ?_ }
    · intro c hc
      rcases mem_split_cases hc with rfl | hc
      · exact ⟨cnt, rest, hbi', by simp only [List.length_cons] at hlen; omega⟩
      · have hcm : c ∈ p.pblock := by
          rw [hsplit]; simp only [List.mem_append, List.mem_cons] at hc ⊢; tauto
        obtain ⟨cnt', fl', hci, hlen'⟩ := h.blocks c hcm
        refine ⟨cnt', fl', hci.frame hus0 ?_, hlen'⟩
        intro x hxo
        have hxa : x ≠ (b.take p.nunitsize).1 := by
          rintro rfl
          exact memoryblock.apart_owns (apart_split hap c hc) hxo hbo
        simp [hxa]
    · exact apart_replace hap rfl rfl
    · intro x hx
      have hown : ∃ c ∈ p.pblock, c.owns x := by
        rcases List.mem_cons.mp hx with rfl | hx
        · exact ⟨b, hbmem, hbo⟩
        · exact h.owned x hx
      obtain ⟨c, hc, hco⟩ := hown
      rw [hsplit] at hc
      rcases mem_split_cases hc with rfl | hc
      · exact ⟨(c.take p.nunitsize).2, by simp, hco⟩
      · refine ⟨c, ?_, hco⟩
        simp only [List.mem_append, List.mem_cons] at hc ⊢; tauto
    · refine List.nodup_cons.mpr ⟨?_, h.nodup⟩
      rw [hp]
      intro hmem
      exact (hbi.held i hi).mp hmem (List.mem_cons_self _ _)

/-- What `free` does with an address a caller holds, in a state that satisfies
the invariant: the block found, the unit given back, and whether the block
leaves the chain. -/
theorem PoolInv.cases_of_free {p : memorypool} {live : List Int} (h : PoolInv p live)
    {a : Int} (ha : a ∈ live) :
    ∃ pre b post cnt fl, ∃ i : Nat, p.pblock = pre ++ b :: post ∧ (∀ c ∈ pre, ¬ c.owns a) ∧
      b.owns a ∧ BlockInv p.nunitsize live b cnt fl ∧ fl.length < cnt ∧
      a = b.adata + (i : Int) * p.nunitsize ∧ i < cnt ∧ i ∉ fl ∧
      BlockInv p.nunitsize (live.erase a) (b.release p.nunitsize a) cnt (i :: fl) ∧
      ((fl.length + 1 = cnt ∧ (p.free a).pblock = pre ++ post) ∨
       (fl.length + 1 < cnt ∧ (p.free a).pblock = pre ++ b.release p.nunitsize a :: post)) := by
  have hus := h.fits.unit
  have hus0 : 0 < p.nunitsize := by omega
  obtain ⟨pre, b, post, hsplit, hpre, hbo⟩ := exists_first (fun c => c.owns a) p.pblock (h.owned a ha)
  have hbmem : b ∈ p.pblock := by rw [hsplit]; simp
  obtain ⟨cnt, fl, hbi, hlen⟩ := h.blocks b hbmem
  obtain ⟨i, hai, hi, hif, hbi'⟩ := hbi.after_release hus h.nodup ha hbo
  refine ⟨pre, b, post, cnt, fl, i, hsplit, hpre, hbo, hbi, hlen, hai, hi, hif, hbi', ?_⟩
  have hfc : (p.free a).pblock = pre ++
      (if wrap32 ((b.release p.nunitsize a).nfree * p.nunitsize) = (b.release p.nunitsize a).nsize
        then post else b.release p.nunitsize a :: post) := by
    simp only [memorypool.free, hsplit]
    exact freeChain_split pre b post hpre hbo
  have hnf : (b.release p.nunitsize a).nfree = ((fl.length + 1 : Nat) : Int) := by
    rw [hbi'.nfree]; simp
  have hsz := hbi.size_lt
  have hlt : ((fl.length + 1 : Nat) : Int) * p.nunitsize ≤ p.nunitsize * (cnt : Int) := by
    have : ((fl.length + 1 : Nat) : Int) ≤ (cnt : Int) := by omega
    have := mul_le_mul_of_nonneg_right this (le_of_lt hus0)
    linarith
  have hnn := unit_nonneg (le_of_lt hus0) (fl.length + 1)
  rw [hnf, hbi'.size, wrap32_of_range (by omega) (by omega)] at hfc
  by_cases hfull : fl.length + 1 = cnt
  · left
    refine ⟨hfull, ?_⟩
    rw [hfc, if_pos (by rw [hfull]; ring)]
  · right
    refine ⟨by omega, ?_⟩
    rw [hfc, if_neg]
    intro e
    have e' : ((fl.length + 1 : Nat) : Int) * p.nunitsize = (cnt : Int) * p.nunitsize := by
      rw [e]; ring
    exact hfull (unit_inj hus0 e')

theorem PoolInv.step_free {p : memorypool} {live : List Int} (h : PoolInv p live)
    {a : Int} (ha : a ∈ live) : PoolInv (p.free a) (live.erase a) := by
  have hus := h.fits.unit
  have hus0 : 0 < p.nunitsize := by omega
  obtain ⟨pre, b, post, cnt, fl, i, hsplit, hpre, hbo, hbi, hlen, hai, hi, hif, hbi', hcase⟩ :=
    h.cases_of_free ha
  have hap := h.apart
  rw [hsplit] at hap
  have hframe : ∀ c ∈ pre ++ post, ∃ cnt fl,
      BlockInv (p.free a).nunitsize (live.erase a) c cnt fl ∧ fl.length < cnt := by
    intro c hc
    have hcm : c ∈ p.pblock := by
      rw [hsplit]; simp only [List.mem_append, List.mem_cons] at hc ⊢; tauto
    obtain ⟨cnt', fl', hci, hlen'⟩ := h.blocks c hcm
    refine ⟨cnt', fl', hci.frame hus0 ?_, hlen'⟩
    intro x hxo
    have hxa : x ≠ a := by
      rintro rfl
      exact memoryblock.apart_owns (apart_split hap c hc) hxo hbo
    rw [h.nodup.mem_erase_iff]
    simp [hxa]
  have howner : ∀ x ∈ live.erase a, (b.release p.nunitsize a).owns x ∨
      ∃ c ∈ pre ++ post, c.owns x := by
    intro x hx
    obtain ⟨c, hc, hco⟩ := h.owned x (List.mem_of_mem_erase hx)
    rw [hsplit] at hc
    rcases mem_split_cases hc with rfl | hc
    · left; exact hco
    · right; exact ⟨c, hc, hco⟩
  rcases hcase with ⟨hfull, hch⟩ | ⟨hnfull, hch⟩
  · refine { fits := h.fits.transport rfl rfl rfl, blocks := ?_, apart := ?_, owned := ?_,
             nodup := h.nodup.erase a }
    · rw [hch]; exact hframe
    · rw [hch]; exact apart_remove hap
    · intro x hx
      rw [hch]
      rcases howner x hx with hxo | hxo
      · exfalso
        obtain ⟨j, hj, hxj⟩ := hbi'.aligned x hx hxo
        have hjn : j ∉ i :: fl := by
          have := (hbi'.held j hj).mp
          simp only [release_adata] at this
          exact this (hxj ▸ hx)
        exact hjn (nodup_full hbi'.nodup hbi'.lt (by simp only [List.length_cons]; omega) hj)
      · exact hxo
  · refine { fits := h.fits.transport rfl rfl rfl, blocks := ?_, apart := ?_, owned := ?_,
             nodup := h.nodup.erase a }
    · rw [hch]
      intro c hc
      rcases mem_split_cases hc with rfl | hc
      · exact ⟨cnt, i :: fl, hbi', by simp only [List.length_cons]; omega⟩
      · exact hframe c hc
    · rw [hch]; exact apart_replace hap rfl rfl
    · intro x hx
      rw [hch]
      rcases howner x hx with hxo | ⟨c, hc, hco⟩
      · exact ⟨_, by simp, hxo⟩
      · refine ⟨c, ?_, hco⟩
        simp only [List.mem_append, List.mem_cons] at hc ⊢; tauto

theorem PoolInv.step_poke {p : memorypool} {live : List Int} (h : PoolInv p live)
    {a k : Int} (v : Nat) (ha : a ∈ live) (hk0 : 0 ≤ k) (hk : k < p.nunitsize) :
    PoolInv (p.poke (a + k) v) live := by
  have hus := h.fits.unit
  have hus0 : 0 < p.nunitsize := by omega
  obtain ⟨c, hc, hco⟩ := h.owned a ha
  obtain ⟨cnt, fl, hci, hlen⟩ := h.blocks c hc
  obtain ⟨i, hi, hai⟩ := hci.aligned a ha hco
  have hcok : c.owns (a + k) := by
    have h1 := unit_lt hus0 hi
    have h2 := unit_nonneg (le_of_lt hus0) i
    have h3 := hci.size
    unfold memoryblock.owns
    omega
  obtain ⟨pre, b, post, hsplit, hpre, hbo⟩ :=
    exists_first (fun c => c.owns (a + k)) p.pblock ⟨c, hc, hcok⟩
  have hap := h.apart
  rw [hsplit] at hap
  have hcb : c = b := by
    rw [hsplit] at hc
    rcases mem_split_cases hc with e | hc
    · exact e
    · exact absurd hbo (fun hb => memoryblock.apart_owns (apart_split hap c hc) hcok hb)
  subst hcb
  have hch : (p.poke (a + k) v).pblock =
      pre ++ { c with data := store8 c.data (a + k - c.adata) v } :: post := by
    simp only [memorypool.poke, hsplit]
    exact pokeChain_split pre c post hpre hbo
  refine { fits := h.fits.transport rfl rfl rfl, blocks := ?_, apart := ?_, owned := ?_,
           nodup := h.nodup }
  · rw [hch]
    intro d hd
    rcases mem_split_cases hd with rfl | hd
    · exact ⟨cnt, fl, hci.after_poke hus v ha hco hk0 hk, hlen⟩
    · exact h.blocks d (by
        rw [hsplit]; simp only [List.mem_append, List.mem_cons] at hd ⊢; tauto)
  · rw [hch]; exact apart_replace hap rfl rfl
  · intro x hx
    rw [hch]
    obtain ⟨d, hd, hdo⟩ := h.owned x hx
    rw [hsplit] at hd
    rcases mem_split_cases hd with rfl | hd
    · exact ⟨{ d with data := store8 d.data (a + k - d.adata) v }, by simp, hdo⟩
    · refine ⟨d, ?_, hdo⟩
      simp only [List.mem_append, List.mem_cons] at hd ⊢; tauto

/-- Every state of a run that starts from an empty pool whose parameters fit
satisfies the invariant. -/
theorem Reachable.inv {p0 p : memorypool} {live : List Int} (hr : Reachable p0 p live)
    (h0 : p0.pblock = []) (hf : p0.Fits) : PoolInv p live := by
  induction hr with
  | init =>
    refine { fits := hf, blocks := ?_, apart := ?_, owned := ?_, nodup := List.nodup_nil }
    · rw [h0]; intro b hb; cases hb
    · rw [h0]; exact List.Pairwise.nil
    · intro a ha; cases ha
  | allocate num heap _ hnum hheap ih => exact ih.step_allocate hnum hheap
  | free a _ ha ih => exact ih.step_free ha
  | poke a k v _ ha hk0 hk ih => exact ih.step_poke v ha hk0 hk

theorem heapOK_none (p : memorypool) : p.heapOK none := by
  intro a raw h; cases h

theorem heapOK_of_nil {p : memorypool} (h : p.pblock = []) (heap : Option (Int × Arena)) :
    p.heapOK heap := by
  intro a raw _ b hb
  rw [h] at hb; cases hb

theorem allocRun_reachable (p : memorypool) (heaps : Nat → Option (Int × Arena)) (m : Nat)
    (hok : ∀ j, j < m → (allocRun p heaps j).1.heapOK (heaps j)) :
    Reachable p (allocRun p heaps m).1 (allocRun p heaps m).2 := by
  induction m with
  | zero => exact Reachable.init
  | succ m ih =>
    simp only [allocRun]
    exact Reachable.allocate 1 _ (ih (fun j hj => hok j (by omega))) (by omega) (hok m (by omega))

theorem allocRun_onlyFirst_reachable (p : memorypool) (heap : Option (Int × Arena))
    (hp : p.pblock = []) (m : Nat) :
    Reachable p (allocRun p (onlyFirst heap) m).1 (allocRun p (onlyFirst heap) m).2 := by
  refine allocRun_reachable p _ m ?_
  intro j _
  by_cases hj : j = 0
  · subst hj
    exact heapOK_of_nil hp _
  · simp only [onlyFirst, hj, if_false]
    exact heapOK_none _

/-- The first `m` calls of `allocate` on an empty pool whose first block has
`n` units, `m ≤ n`: they all take their unit in the first block, the call
number `j + 1` the unit `j % 65536`. -/
theorem allocRun_first_block {p : memorypool} (hp : p.pblock = []) (hus : 2 ≤ p.nunitsize)
    (hsz : p.nunitsize * p.ninitsize < 2147483648) (heaps : Nat → Option (Int × Arena))
    (a : Int) (raw : Arena) (h0 : heaps 0 = some (a, raw)) (m : Nat)
    (hm1 : 1 ≤ m) (hmn : (m : Int) ≤ p.ninitsize) :
    ∃ f : Int, allocRun p heaps m =
      ({ p with pblock := [{ nsize := p.nunitsize * p.ninitsize, nfree := p.ninitsize - m,
                             nfirst := f, adata := a,
                             data := memoryblock.thread p.nunitsize (p.ninitsize - 1).toNat 1 0 raw }] },
        firstUnits a p.nunitsize m) ∧
      ((m : Int) < p.ninitsize → f = ((m % 65536 : Nat) : Int)) := by
  have hus0 : 0 < p.nunitsize := by omega
  have hn1 : 1 ≤ p.ninitsize := by omega
  have hpos : 0 < p.nunitsize * p.ninitsize := mul_pos hus0 (by omega)
  have hnle : p.ninitsize ≤ p.nunitsize * p.ninitsize := by nlinarith
  induction m with
  | zero => omega
  | succ m ih =>
    by_cases hm : m = 0
    · subst hm
      refine ⟨1, ?_, fun _ => by norm_num⟩
      simp only [allocRun, h0, memorypool.allocate, hp, if_true, liveAfter, firstUnits,
        memoryblock.ctor]
      rw [wrap32_of_range (by omega) hsz, wrap32_of_range (by omega) (by omega)]
      simp
    · obtain ⟨f, hrun, hf⟩ := ih (by omega) (by omega)
      have hfm := hf (by omega)
      have hmlt : ((m % 65536 : Nat) : Int) < p.ninitsize := by omega
      have hmn' : (m % 65536) < p.ninitsize.toNat := by omega
      have hcast : ((p.ninitsize.toNat : Nat) : Int) = p.ninitsize := Int.toNat_of_nonneg (by omega)
      have h1 := unit_lt hus0 hmn'
      rw [hcast] at h1
      have h2 := unit_nonneg (le_of_lt hus0) (m % 65536)
      have hoff : wrap32 (f * p.nunitsize) = ((m % 65536 : Nat) : Int) * p.nunitsize := by
        rw [hfm]; exact wrap32_of_range (by omega) (by omega)
      have hne : p.ninitsize - (m : Int) ≠ 0 := by omega
      refine ⟨load16 (memoryblock.thread p.nunitsize (p.ninitsize - 1).toNat 1 0 raw)
        (((m % 65536 : Nat) : Int) * p.nunitsize), ?_, ?_⟩
      · simp only [allocRun, hrun, memorypool.allocate, memorypool.takeUnit,
          memoryblock.take, hne, hoff, liveAfter, firstUnits]
        rw [wrap32_of_range (by omega) (by omega)]
        simp
        omega
      · intro hlt
        have := thread_load hus (p.ninitsize - 1).toNat 1 0 raw (m % 65536) (by omega)
        rw [zero_add] at this
        rw [this]
        push_cast
        omega

theorem mem_firstUnits (a us : Int) {j m : Nat} (h : j < m) :
    a + ((j % 65536 : Nat) : Int) * us ∈ firstUnits a us m := by
  induction m with
  | zero => omega
  | succ m ih =>
    simp only [firstUnits, List.mem_cons]
    by_cases e : j = m
    · left; rw [e]
    · right; exact ih (by omega)

theorem demoPool_fits : demoPool.Fits :=
  ⟨by decide, by decide, by decide, by decide, by decide, by decide, by decide⟩

/-! ## C1: uniqueness -/

/-- C1, counterexample: a pool of 8 byte units whose first block has 65537
units.  After 65536 calls of `allocate` the caller holds the address 4096 of
unit 0, and the next call returns 4096 again. -/
theorem uniqueness_fails_with_65537_units :
    bigPool.pblock = [] ∧ 1 ≤ bigPool.ninitsize ∧ 1 ≤ bigPool.ngrowsize ∧
    ∃ p live, Reachable bigPool p live ∧ p.heapOK none ∧
      (p.allocate 1 none).1 = some 4096 ∧ (4096 : Int) ∈ live := by
  refine ⟨rfl, by decide, by decide, (allocRun bigPool (onlyFirst (zeroed 4096)) 65536).1,
    (allocRun bigPool (onlyFirst (zeroed 4096)) 65536).2, allocRun_onlyFirst_reachable _ _ rfl _, heapOK_none _, ?_, ?_⟩
  · obtain ⟨f, hrun, hf⟩ := allocRun_first_block (p := bigPool) rfl (by decide) (by decide)
      (onlyFirst (zeroed 4096)) 4096 (fun _ => 0) rfl 65536 (by omega) (by decide)
    have hf0 : f = 0 := by
      have := hf (by decide)
      simpa using this
    simp only [hrun, hf0]
    decide
  · obtain ⟨f, hrun, _⟩ := allocRun_first_block (p := bigPool) rfl (by decide) (by decide)
      (onlyFirst (zeroed 4096)) 4096 (fun _ => 0) rfl 65536 (by omega) (by decide)
    simp only [hrun]
    have := mem_firstUnits 4096 bigPool.nunitsize (j := 0) (m := 65536) (by omega)
    simpa using this

/-- C1, amended: in a pool whose unit counts are between 1 and 65536 and whose
block sizes in bytes are below 2^31 (unit size at least 2), in every state of
a run from the empty pool, the addresses held are pairwise different and a
call of `allocate` returns an address that is not held. -/
theorem allocate_returns_address_not_held (p0 p : memorypool) (live : List Int) (num : Nat)
    (heap : Option (Int × Arena)) (a : Int) (h0 : p0.pblock = []) (hf : p0.Fits)
    (hr : Reachable p0 p live) (hnum : 0 < num) (hheap : p.heapOK heap)
    (ha : (p.allocate num heap).1 = some a) : a ∉ live ∧ live.Nodup := by
  have hinv := hr.inv h0 hf
  have hnd := (hinv.step_allocate hnum hheap).nodup
  rw [ha] at hnd
  exact ⟨(List.nodup_cons.mp hnd).1, hinv.nodup⟩

/-- C1, witness: the third call of `allocate` on the pool of `main` returns
4112, which the caller does not hold. -/
theorem allocate_returns_address_not_held_witness :
    (4112 : Int) ∉ (allocRun demoPool (onlyFirst (zeroed 4096)) 2).2 ∧
      (allocRun demoPool (onlyFirst (zeroed 4096)) 2).2.Nodup :=
  allocate_returns_address_not_held demoPool (allocRun demoPool (onlyFirst (zeroed 4096)) 2).1
    (allocRun demoPool (onlyFirst (zeroed 4096)) 2).2 1 none 4112 rfl demoPool_fits
    (allocRun_onlyFirst_reachable _ _ rfl 2) (by decide) (heapOK_none _) (by decide)

/-! ## C6: `free` of an address outside every block -/

/-- C6: in any state of a pool, `free` of an address that lies in the arena
of no block of the chain (any address when the chain is empty) leaves the
pool as it was: same chain, same fields and same arena bytes in every block. -/
theorem free_outside_every_block_is_noop (p : memorypool) (pfree : Int)
    (h : ∀ b ∈ p.pblock, ¬ b.owns pfree) : p.free pfree = p := by
  simp only [memorypool.free, freeChain_not_owned h]

/-- C6, witness: after one `allocate` the pool of `main` has a block at
4096 .. 4119, and `free(5000)` changes nothing. -/
theorem free_outside_every_block_is_noop_witness :
    (∀ b ∈ (allocRun demoPool (onlyFirst (zeroed 4096)) 1).1.pblock, ¬ b.owns 5000) ∧
      (allocRun demoPool (onlyFirst (zeroed 4096)) 1).1.free 5000 = (allocRun demoPool (onlyFirst (zeroed 4096)) 1).1 :=
  ⟨by decide, free_outside_every_block_is_noop _ 5000 (by decide)⟩

/-! ## C9: `std::bad_alloc` leaves the pool as it was -/

/-- C9: when `allocate` needs a new block (the chain is empty or every block
has `nfree == 0`) and `::operator new` throws, the exception leaves
`allocate` and the pool is what it was before the call. -/
theorem allocate_bad_alloc_keeps_state (p : memorypool) (num : Nat) (hnum : 0 < num)
    (h : ∀ b ∈ p.pblock, b.nfree = 0) : p.allocate num none = (none, p) := by
  rcases allocate_cases p hnum none with ⟨_, _, e⟩ | ⟨a, raw, e, _⟩ | ⟨a, raw, e, _⟩ |
    ⟨pre, b, post, hsplit, _, hne, _⟩
  · exact e
  · cases e
  · cases e
  · exact absurd (h b (by rw [hsplit]; simp)) hne

/-- C9, witness: the pool of `main` after three calls of `allocate` has one
block with no free unit; a fourth call that gets `std::bad_alloc` changes
nothing. -/
theorem allocate_bad_alloc_keeps_state_witness :
    (∀ b ∈ (allocRun demoPool (onlyFirst (zeroed 4096)) 3).1.pblock, b.nfree = 0) ∧
      (allocRun demoPool (onlyFirst (zeroed 4096)) 3).1.allocate 1 none =
        (none, (allocRun demoPool (onlyFirst (zeroed 4096)) 3).1) :=
  ⟨by decide, allocate_bad_alloc_keeps_state _ 1 (by decide) (by decide)⟩

/-! ## The search of `allocate` along the chain -/

theorem heapOK_some {p : memorypool} {a : Int} {raw : Arena}
    (h : ∀ b ∈ p.pblock, a + wrap32 (p.nunitsize * p.ngrowsize) ≤ b.adata ∨ b.adata + b.nsize ≤ a) :
    p.heapOK (some (a, raw)) := by
  intro a' raw' e b hb
  cases e
  exact h b hb

theorem takeUnit_split {us : Int} (pre : List memoryblock) (b : memoryblock)
    (post : List memoryblock) (hpre : ∀ c ∈ pre, c.nfree = 0) (hb : b.nfree ≠ 0) :
    memorypool.takeUnit us (pre ++ b :: post) =
      some ((b.take us).1, pre ++ (b.take us).2 :: post) := by
  induction pre with
  | nil => simp [memorypool.takeUnit, hb]
  | cons c pre ih =>
    have hc : c.nfree = 0 := hpre c (List.mem_cons_self _ _)
    have := ih (fun d hd => hpre d (List.mem_cons_of_mem _ hd))
    simp only [List.cons_append, memorypool.takeUnit, hc, if_true]
    simp only [List.append_eq] at this ⊢
    rw [this]

theorem allocate_of_takeUnit {p : memorypool} {num : Nat} (hnum : 0 < num)
    (heap : Option (Int × Arena)) {x : Int} {chain' : List memoryblock}
    (h : memorypool.takeUnit p.nunitsize p.pblock = some (x, chain')) :
    p.allocate num heap = (some x, { p with pblock := chain' }) := by
  have hn : num ≠ 0 := by omega
  cases hc : p.pblock with
  | nil => rw [hc] at h; simp [memorypool.takeUnit] at h
  | cons b bs =>
    rw [hc] at h
    simp [memorypool.allocate, hn, hc, h]

theorem demoHeaps_ok (j : Nat) (hj : j < 4) :
    (allocRun demoPool demoHeaps j).1.heapOK (demoHeaps j) := by
  have : j = 0 ∨ j = 1 ∨ j = 2 ∨ j = 3 := by omega
  rcases this with rfl | rfl | rfl | rfl
  · exact heapOK_of_nil rfl _
  · exact heapOK_none _
  · exact heapOK_none _
  · exact heapOK_some (by decide)

theorem length_firstUnits (a us : Int) (m : Nat) : (firstUnits a us m).length = m := by
  induction m with
  | zero => rfl
  | succ m ih => simp [firstUnits, ih]

theorem mem_firstUnits_iff (a us : Int) (m : Nat) (x : Int) :
    x ∈ firstUnits a us m ↔ ∃ j, j < m ∧ x = a + ((j % 65536 : Nat) : Int) * us := by
  induction m with
  | zero => simp [firstUnits]
  | succ m ih =>
    simp only [firstUnits, List.mem_cons, ih]
    constructor
    · rintro (e | ⟨j, hj, e⟩)
      · exact ⟨m, by omega, e⟩
      · exact ⟨j, by omega, e⟩
    · rintro ⟨j, hj, e⟩
      by_cases hjm : j = m
      · left; rw [e, hjm]
      · right; exact ⟨j, by omega, e⟩

/-! ## C5: capacity accounting -/

theorem card_range_not_mem {fl : List Nat} {cnt : Nat} (hnd : fl.Nodup)
    (hlt : ∀ i ∈ fl, i < cnt) :
    ((Finset.range cnt).filter (fun i => i ∉ fl)).card = cnt - fl.length := by
  have hsub : fl.toFinset ⊆ Finset.range cnt := by
    intro i hi
    exact Finset.mem_range.mpr (hlt i (List.mem_toFinset.mp hi))
  have he : (Finset.range cnt).filter (fun i => i ∉ fl) = Finset.range cnt \ fl.toFinset := by
    ext i
    simp [Finset.mem_sdiff]
  rw [he, Finset.card_sdiff hsub, Finset.card_range, List.toFinset_card_of_nodup hnd]

theorem BlockInv.units_eq {us : Int} {live : List Int} {b : memoryblock} {cnt : Nat}
    {fl : List Nat} (hb : BlockInv us live b cnt fl) (hus : 0 < us) : b.units us = cnt := by
  unfold memoryblock.units
  rw [hb.size, Int.mul_ediv_cancel_left _ (by omega : us ≠ 0)]
  simp

theorem BlockInv.heldUnits_eq {us : Int} {live : List Int} {b : memoryblock} {cnt : Nat}
    {fl : List Nat} (hb : BlockInv us live b cnt fl) (hus : 0 < us) :
    b.heldUnits us live = cnt - fl.length := by
  unfold memoryblock.heldUnits
  rw [hb.units_eq hus, ← card_range_not_mem hb.nodup hb.lt]
  congr 1
  apply Finset.filter_congr
  intro i hi
  exact hb.held i (Finset.mem_range.mp hi)

/-- C5, counterexample: the pool whose first block has 65537 units, after
65537 calls of `allocate`.  The block has `nfree == 0`, but only 65536 of its
65537 units are held (unit 0 was handed out twice, unit 65536 never). -/
theorem accounting_fails_with_65537_units :
    ∃ p live b, Reachable bigPool p live ∧ b ∈ p.pblock ∧
      b.nfree ≠ (b.units p.nunitsize : Int) - (b.heldUnits p.nunitsize live : Int) := by
  obtain ⟨f, hrun, _⟩ := allocRun_first_block (p := bigPool) rfl (by decide) (by decide)
    (onlyFirst (zeroed 4096)) 4096 (fun _ => 0) rfl 65537 (by omega) (by decide)
  refine ⟨(allocRun bigPool (onlyFirst (zeroed 4096)) 65537).1,
    (allocRun bigPool (onlyFirst (zeroed 4096)) 65537).2, _,
    allocRun_onlyFirst_reachable _ _ rfl _, by rw [hrun]; exact List.mem_singleton_self _, ?_⟩
  rw [hrun]
  have hus : bigPool.nunitsize = 8 := by decide
  have hn : bigPool.ninitsize = 65537 := rfl
  have hu : ((8 * 65537 : Int) / 8).toNat = 65537 := by decide
  have hset : (Finset.range 65537).filter
      (fun i : Nat => (4096 : Int) + (i : Int) * 8 ∈ firstUnits 4096 8 65537)
        = Finset.range 65536 := by
    ext i
    simp only [Finset.mem_filter, Finset.mem_range, mem_firstUnits_iff]
    constructor
    · rintro ⟨_, j, hj, e⟩
      omega
    · intro hi
      exact ⟨by omega, i, by omega, by omega⟩
  simp only [memoryblock.heldUnits, memoryblock.units, hus, hn, hu, hset, Finset.card_range]
  norm_num

/-- C5, amended: in a pool whose parameters fit (unit size at least 2, counts
between 1 and 65536, block sizes below 2^31), after every run from the empty
pool, every block of the chain has `nfree` equal to its number of units minus
the number of its units that a caller holds (unit 0, handed out when the
block is created, is one of them until it is freed). -/
theorem nfree_counts_units_not_held (p0 p : memorypool) (live : List Int) (b : memoryblock)
    (h0 : p0.pblock = []) (hf : p0.Fits) (hr : Reachable p0 p live) (hb : b ∈ p.pblock) :
    b.nfree = (b.units p.nunitsize : Int) - (b.heldUnits p.nunitsize live : Int) := by
  have hinv := hr.inv h0 hf
  have hus0 : 0 < p.nunitsize := by have := hinv.fits.unit; omega
  obtain ⟨cnt, fl, hbi, hlen⟩ := hinv.blocks b hb
  rw [hbi.units_eq hus0, hbi.heldUnits_eq hus0, hbi.nfree]
  omega

/-- C5, witness: the first block of the pool of `main` after two calls of
`allocate`: 3 units, 2 of them held, `nfree == 1`. -/
theorem nfree_counts_units_not_held_witness :
    ∃ b ∈ (allocRun demoPool demoHeaps 2).1.pblock, b.nfree = 1 ∧
      b.nfree = (b.units (allocRun demoPool demoHeaps 2).1.nunitsize : Int) -
        (b.heldUnits (allocRun demoPool demoHeaps 2).1.nunitsize
          (allocRun demoPool demoHeaps 2).2 : Int) := by
  obtain ⟨b, hb, h1⟩ : ∃ b ∈ (allocRun demoPool demoHeaps 2).1.pblock, b.nfree = 1 := by decide
  exact ⟨b, hb, h1, nfree_counts_units_not_held demoPool (allocRun demoPool demoHeaps 2).1
    (allocRun demoPool demoHeaps 2).2 b rfl demoPool_fits
    (allocRun_reachable _ _ 2 (fun j hj => demoHeaps_ok j (by omega))) hb⟩

theorem freeRun_cons (p : memorypool) (a : Int) (l : List Int) :
    freeRun p (a :: l) = freeRun (p.free a) l := rfl

theorem BlockInv.nsize_pos {us : Int} {live : List Int} {b : memoryblock} {cnt : Nat}
    {fl : List Nat} (hb : BlockInv us live b cnt fl) (hus : 0 < us) : 0 < b.nsize := by
  rw [hb.size]
  exact mul_pos hus (by have := hb.cnt_pos; omega)

theorem byteAt_replace (x : Int) (pre : List memoryblock) (b b' : memoryblock)
    (post : List memoryblock) (h1 : b'.adata = b.adata) (h2 : b'.nsize = b.nsize)
    (hd : b.owns x → b'.data (x - b.adata) = b.data (x - b.adata)) :
    byteAt (pre ++ b' :: post) x = byteAt (pre ++ b :: post) x := by
  induction pre with
  | nil =>
    simp only [List.nil_append, byteAt, owns_congr h1 h2 x, h1]
    by_cases hb : b.owns x
    · simp only [hb, if_true, hd hb]
    · simp only [hb, if_false]
  | cons c pre ih => simp only [List.cons_append, byteAt, List.append_eq, ih]

theorem byteAt_remove (x : Int) (pre : List memoryblock) (b : memoryblock)
    (post : List memoryblock) (hn : ¬ b.owns x) :
    byteAt (pre ++ post) x = byteAt (pre ++ b :: post) x := by
  induction pre with
  | nil => simp only [List.nil_append, byteAt, hn, if_false]
  | cons c pre ih => simp only [List.cons_append, byteAt, List.append_eq, ih]

/-- A call of `allocate` changes no byte of the arena of a block that is in
the chain before the call. -/
theorem byteAt_allocate (p : memorypool) {num : Nat} (hnum : 0 < num)
    {heap : Option (Int × Arena)} (hheap : p.heapOK heap) (x : Int)
    (hx : ∃ b ∈ p.pblock, b.owns x) :
    byteAt (p.allocate num heap).2.pblock x = byteAt p.pblock x := by
  rcases allocate_cases p hnum heap with
    ⟨_, _, e⟩ | ⟨a, raw, rfl, hnil, e⟩ | ⟨a, raw, rfl, _, _, e⟩ | ⟨pre, b, post, hsplit, _, hne, e⟩
  · rw [e]
  · obtain ⟨b, hb, _⟩ := hx
    rw [hnil] at hb
    cases hb
  · rw [e]
    obtain ⟨c, hc, hco⟩ := hx
    have hap := hheap a raw rfl c hc
    have hno : ¬ (memoryblock.ctor p.nunitsize p.ngrowsize a raw).owns x := by
      unfold memoryblock.owns at hco ⊢
      simp only [memoryblock.ctor]
      omega
    simp only [byteAt, hno, if_false]
  · rw [e, hsplit]
    exact byteAt_replace x pre b _ post rfl rfl (fun _ => rfl)

/-- A call of `free` on an address that is held changes no byte of a unit
that is still held after the call. -/
theorem PoolInv.byteAt_free {p : memorypool} {live : List Int} (h : PoolInv p live)
    {a : Int} (ha : a ∈ live) {u k : Int} (hu : u ∈ live.erase a) (hk0 : 0 ≤ k)
    (hk : k < p.nunitsize) :
    byteAt (p.free a).pblock (u + k) = byteAt p.pblock (u + k) := by
  have hus := h.fits.unit
  have hus0 : 0 < p.nunitsize := by omega
  obtain ⟨pre, b, post, cnt, fl, i, hsplit, hpre, hbo, hbi, hlen, hai, hi, hif, hbi', hcase⟩ :=
    h.cases_of_free ha
  have hap := h.apart
  rw [hsplit] at hap
  have hul : u ∈ live := List.mem_of_mem_erase hu
  have hua : u ≠ a := ((h.nodup.mem_erase_iff).mp hu).1
  obtain ⟨c, hc, hco⟩ := h.owned u hul
  obtain ⟨cnt', fl', hci, _⟩ := h.blocks c hc
  obtain ⟨j, hj, huj⟩ := hci.aligned u hul hco
  have hjf : j ∉ fl' := (hci.held j hj).mp (huj ▸ hul)
  have hcok : c.owns (u + k) := by
    have h1 := unit_lt hus0 hj
    have h2 := unit_nonneg (le_of_lt hus0) j
    have h3 := hci.size
    unfold memoryblock.owns
    omega
  rw [hsplit] at hc
  rcases hcase with ⟨hfull, hch⟩ | ⟨hnfull, hch⟩
  · rw [hch, hsplit]
    apply byteAt_remove
    intro hbk
    rcases mem_split_cases hc with e | hc'
    · subst e
      have hjn : j ∉ i :: fl := by
        have := (hbi'.held j (by
          have := hbi.units_eq hus0
          have := hci.units_eq hus0
          omega)).mp
        simp only [release_adata] at this
        exact this (huj ▸ hu)
      have hcc : cnt' = cnt := by
        have := hbi.units_eq hus0
        have := hci.units_eq hus0
        omega
      exact hjn (nodup_full hbi'.nodup hbi'.lt (by simp only [List.length_cons]; omega)
        (hcc ▸ hj))
    · exact memoryblock.apart_owns (apart_split hap c hc') hcok hbk
  · rw [hch, hsplit]
    refine byteAt_replace (u + k) pre b _ post rfl rfl (fun hbk => ?_)
    rcases mem_split_cases hc with e | hc'
    · subst e
      simp only [memoryblock.release]
      apply store16_other
      have hji : j ≠ i := fun e => hua (by rw [huj, hai, e])
      rcases Nat.lt_or_gt_of_ne hji with hlt | hlt
      · have := unit_sep (le_of_lt hus0) hlt; omega
      · have := unit_sep (le_of_lt hus0) hlt; omega
    · exact absurd hbk (fun hb' => memoryblock.apart_owns (apart_split hap c hc') hcok hb')

theorem thread_first_byte {us : Int} (hus : 2 ≤ us) (k : Nat) (i : Int) (m : Arena) :
    memoryblock.thread us (k + 1) i 0 m 0 = ((i % 65536) % 256).toNat := by
  rw [memoryblock.thread, thread_frame (by omega) k _ _ _ 0 (by omega)]
  simp [store16]

theorem firstUnits_succ (a us : Int) (m : Nat) :
    firstUnits a us (m + 1) = (a + ((m % 65536 : Nat) : Int) * us) :: firstUnits a us m := rfl

theorem byteAt_none_of_not_owned {chain : List memoryblock} {x : Int}
    (h : ∀ c ∈ chain, ¬ c.owns x) : byteAt chain x = none := by
  induction chain with
  | nil => rfl
  | cons b rest ih =>
    simp only [byteAt, h b (List.mem_cons_self _ _), if_false]
    exact ih (fun c hc => h c (List.mem_cons_of_mem _ hc))

theorem byteAt_some_of_owned {chain : List memoryblock} {x : Int}
    (h : ∃ c ∈ chain, c.owns x) : ∃ v, byteAt chain x = some v := by
  induction chain with
  | nil => obtain ⟨c, hc, _⟩ := h; cases hc
  | cons b rest ih =>
    by_cases hb : b.owns x
    · exact ⟨b.data (x - b.adata), by simp only [byteAt, hb, if_true]⟩
    · obtain ⟨c, hc, hco⟩ := h
      rcases List.mem_cons.mp hc with rfl | hc
      · exact absurd hco hb
      · obtain ⟨v, hv⟩ := ih ⟨c, hc, hco⟩
        exact ⟨v, by simp only [byteAt, hb, if_false, hv]⟩

/-- A call of `free` on an address `a` that is held changes, in the arenas of
the blocks that stay in the chain, the two bytes at `a` and `a + 1` only. -/
theorem PoolInv.byteAt_free_other {p : memorypool} {live : List Int} (h : PoolInv p live)
    {a : Int} (ha : a ∈ live) {x : Int} (hx0 : x ≠ a) (hx1 : x ≠ a + 1) :
    byteAt (p.free a).pblock x = byteAt p.pblock x ∨ byteAt (p.free a).pblock x = none := by
  obtain ⟨pre, b, post, cnt, fl, i, hsplit, hpre, hbo, hbi, hlen, hai, hi, hif, hbi', hcase⟩ :=
    h.cases_of_free ha
  have hap := h.apart
  rw [hsplit] at hap
  rcases hcase with ⟨_, hch⟩ | ⟨_, hch⟩
  · rw [hch, hsplit]
    by_cases hb : b.owns x
    · right
      apply byteAt_none_of_not_owned
      intro c hc hco
      exact memoryblock.apart_owns (apart_split hap c hc) hco hb
    · left
      exact byteAt_remove x pre b post hb
  · left
    rw [hch, hsplit]
    refine byteAt_replace x pre b _ post rfl rfl (fun _ => ?_)
    simp only [memoryblock.release]
    apply store16_other
    omega

/-! ## C10: the units a caller holds are not written -/

/-- C10, counterexample: the pool whose first block has 65537 units, after
65537 calls of `allocate` (two of them returned 4096, so two callers hold
unit 0) and `free(4136)`.  Now `free(4096)` by one of the two callers stores
the link 5 in the first two bytes of unit 0, which the other caller still
holds: the byte at 4096 changes from 1 to 5. -/
theorem free_writes_held_unit_with_65537_units :
    ∃ p live, Reachable bigPool p live ∧ (4096 : Int) ∈ live ∧
      (4096 : Int) ∈ live.erase 4096 ∧ (0 : Int) < p.nunitsize ∧
      byteAt p.pblock (4096 + 0) = some 1 ∧
      byteAt (p.free 4096).pblock (4096 + 0) = some 5 := by
  obtain ⟨f, hrun, _⟩ := allocRun_first_block (p := bigPool) rfl (by decide) (by decide)
    (onlyFirst (zeroed 4096)) 4096 (fun _ => 0) rfl 65537 (by omega) (by decide)
  have hus : bigPool.nunitsize = 8 := by decide
  have hn : bigPool.ninitsize = 65537 := rfl
  have hg : bigPool.ngrowsize = 10 := rfl
  have he : (bigPool.ninitsize - 1).toNat = 65535 + 1 := by decide
  have hd : memoryblock.thread bigPool.nunitsize (bigPool.ninitsize - 1).toNat 1 0
      (fun _ => 0) 0 = 1 := by
    rw [he, thread_first_byte (by decide) 65535 1]; decide
  have hl : firstUnits 4096 bigPool.nunitsize 65537 = 4096 :: firstUnits 4096 8 65536 := by
    rw [hus, show (65537 : Nat) = 65536 + 1 from rfl, firstUnits_succ]
    norm_num
  rw [hl] at hrun
  generalize memoryblock.thread bigPool.nunitsize (bigPool.ninitsize - 1).toNat 1 0
      (fun _ => 0) = D at hd hrun
  rw [hus, hn, hg] at hrun
  have h0 : (4096 : Int) ∈ firstUnits 4096 8 65536 := by
    have := mem_firstUnits 4096 8 (j := 0) (m := 65536) (by omega)
    simpa using this
  have h5 : (4136 : Int) ∈ firstUnits 4096 8 65536 := by
    have := mem_firstUnits 4096 8 (j := 5) (m := 65536) (by omega)
    simpa using this
  refine ⟨(allocRun bigPool (onlyFirst (zeroed 4096)) 65537).1.free 4136,
    (allocRun bigPool (onlyFirst (zeroed 4096)) 65537).2.erase 4136,
    Reachable.free 4136 (allocRun_onlyFirst_reachable _ _ rfl _) ?_, ?_, ?_, ?_, ?_, ?_⟩
  · rw [hrun]; exact List.mem_cons_of_mem _ h5
  · rw [hrun]
    simp
  · rw [hrun]
    have e1 : ((4096 : Int) :: firstUnits 4096 8 65536).erase 4136 =
        4096 :: (firstUnits 4096 8 65536).erase 4136 := by
      rw [List.erase_cons_tail]; simp
    simp only [e1, List.erase_cons_head]
    exact (List.mem_erase_of_ne (by norm_num)).mpr h0
  · rw [hrun]; simp [memorypool.free]
  · rw [hrun]
    simp [memorypool.free, memorypool.freeChain, memoryblock.owns, memoryblock.release,
      wrap32, byteAt, store16, hd]
  · rw [hrun]
    simp [memorypool.free, memorypool.freeChain, memoryblock.owns, memoryblock.release,
      wrap32, byteAt, store16, hd]
    decide

/-- C10, amended: in a pool whose parameters fit (unit size at least 2, counts
between 1 and 65536, block sizes below 2^31), in every state of a run from the
empty pool, every byte `u + k` of a unit held at `u` is a byte of an arena, a
call of `allocate` leaves it as it is (and so every byte of the blocks that
were in the chain), and so does a call of `free` on a held address `a` after
which `u` is still held (`free` changes the two bytes at `a` and `a + 1` only,
in the blocks that stay in the chain). -/
theorem held_units_are_not_written (p0 p : memorypool) (live : List Int) (u k : Int)
    (h0 : p0.pblock = []) (hf : p0.Fits) (hr : Reachable p0 p live) (hu : u ∈ live)
    (hk0 : 0 ≤ k) (hk : k < p.nunitsize) :
    (∃ v, byteAt p.pblock (u + k) = some v) ∧
    (∀ num heap, 0 < num → p.heapOK heap →
      byteAt (p.allocate num heap).2.pblock (u + k) = byteAt p.pblock (u + k) ∧
      ∀ x, (∃ b ∈ p.pblock, b.owns x) →
        byteAt (p.allocate num heap).2.pblock x = byteAt p.pblock x) ∧
    (∀ a ∈ live, (u ∈ live.erase a →
        byteAt (p.free a).pblock (u + k) = byteAt p.pblock (u + k)) ∧
      ∀ x, x ≠ a → x ≠ a + 1 →
        byteAt (p.free a).pblock x = byteAt p.pblock x ∨ byteAt (p.free a).pblock x = none) := by
  have hinv := hr.inv h0 hf
  have hus0 : 0 < p.nunitsize := by have := hinv.fits.unit; omega
  have hown : ∃ b ∈ p.pblock, b.owns (u + k) := by
    obtain ⟨c, hc, hco⟩ := hinv.owned u hu
    obtain ⟨cnt, fl, hci, _⟩ := hinv.blocks c hc
    obtain ⟨j, hj, huj⟩ := hci.aligned u hu hco
    have h1 := unit_lt hus0 hj
    have h2 := unit_nonneg (le_of_lt hus0) j
    have h3 := hci.size
    refine ⟨c, hc, ?_⟩
    unfold memoryblock.owns
    omega
  refine ⟨byteAt_some_of_owned hown, ?_, ?_⟩
  · intro num heap hnum hheap
    exact ⟨byteAt_allocate p hnum hheap _ hown, fun x hx => byteAt_allocate p hnum hheap x hx⟩
  · intro a ha
    exact ⟨fun hua => hinv.byteAt_free ha hua hk0 hk, fun x hx0 hx1 =>
      hinv.byteAt_free_other ha hx0 hx1⟩

/-- C10, witness: the pool of `main` after three calls of `allocate`, and the
byte at offset 3 of the unit held at 4104. -/
theorem held_units_are_not_written_witness :
    (∃ v, byteAt (allocRun demoPool demoHeaps 3).1.pblock (4104 + 3) = some v) ∧
    (∀ num heap, 0 < num → (allocRun demoPool demoHeaps 3).1.heapOK heap →
      byteAt ((allocRun demoPool demoHeaps 3).1.allocate num heap).2.pblock (4104 + 3) =
        byteAt (allocRun demoPool demoHeaps 3).1.pblock (4104 + 3) ∧
      ∀ x, (∃ b ∈ (allocRun demoPool demoHeaps 3).1.pblock, b.owns x) →
        byteAt ((allocRun demoPool demoHeaps 3).1.allocate num heap).2.pblock x =
          byteAt (allocRun demoPool demoHeaps 3).1.pblock x) ∧
    (∀ a ∈ (allocRun demoPool demoHeaps 3).2,
      ((4104 : Int) ∈ (allocRun demoPool demoHeaps 3).2.erase a →
        byteAt ((allocRun demoPool demoHeaps 3).1.free a).pblock (4104 + 3) =
          byteAt (allocRun demoPool demoHeaps 3).1.pblock (4104 + 3)) ∧
      ∀ x, x ≠ a → x ≠ a + 1 →
        byteAt ((allocRun demoPool demoHeaps 3).1.free a).pblock x =
          byteAt (allocRun demoPool demoHeaps 3).1.pblock x ∨
        byteAt ((allocRun demoPool demoHeaps 3).1.free a).pblock x = none) :=
  held_units_are_not_written demoPool (allocRun demoPool demoHeaps 3).1
    (allocRun demoPool demoHeaps 3).2 4104 3 rfl demoPool_fits
    (allocRun_reachable _ _ 3 (fun j hj => demoHeaps_ok j (by omega))) (by decide) (by decide)
    (by decide)

/-! ## C16: the requested count -/

/-- C16: in any state of a pool, `allocate(num)` with `num ≥ 1` returns the
same pointer and leaves the same pool as `allocate(1)`, whatever `num` is
(one unit is handed out), and `allocate(0)` returns `nullptr` and leaves the
pool as it was. -/
theorem allocate_ignores_count (p : memorypool) (num : Nat) (heap : Option (Int × Arena))
    (hnum : 1 ≤ num) :
    p.allocate num heap = p.allocate 1 heap ∧ p.allocate 0 heap = (some 0, p) := by
  have hn : num ≠ 0 := by omega
  constructor
  · simp only [memorypool.allocate, hn, if_false, one_ne_zero]
  · simp only [memorypool.allocate, if_true]

/-- C16, witness: `allocate(5)` on the pool of `main` after two calls. -/
theorem allocate_ignores_count_witness :
    (allocRun demoPool demoHeaps 2).1.allocate 5 none =
        (allocRun demoPool demoHeaps 2).1.allocate 1 none ∧
      (allocRun demoPool demoHeaps 2).1.allocate 0 none =
        (some 0, (allocRun demoPool demoHeaps 2).1) :=
  allocate_ignores_count (allocRun demoPool demoHeaps 2).1 5 none (by decide)

/-! ## C15: what `free` does to the chain -/

/-- C15: in any state of a pool, let `b` be the block that `free(a)` finds
(the first block of the chain whose arena holds `a`; `pre` are the blocks in
front of it and `post` those behind).  If the update makes the block
completely free (`nfree * nunitsize == nsize`), the chain after the call is
the chain before without `b`: the blocks of `pre` and `post` are there, in
the same order, with the same fields and arena bytes, wherever `b` was (head,
middle or last).  If it does not, the chain holds the same blocks in the same
order: `pre`, the block `b` updated (same arena address and size), `post`. -/
theorem free_removes_exactly_the_freed_block (p : memorypool) (a : Int)
    (pre : List memoryblock) (b : memoryblock) (post : List memoryblock)
    (hsplit : p.pblock = pre ++ b :: post) (hpre : ∀ c ∈ pre, ¬ c.owns a) (hb : b.owns a) :
    (wrap32 ((b.release p.nunitsize a).nfree * p.nunitsize) = (b.release p.nunitsize a).nsize →
      (p.free a).pblock = pre ++ post) ∧
    (wrap32 ((b.release p.nunitsize a).nfree * p.nunitsize) ≠ (b.release p.nunitsize a).nsize →
      (p.free a).pblock = pre ++ b.release p.nunitsize a :: post ∧
      (b.release p.nunitsize a).adata = b.adata ∧ (b.release p.nunitsize a).nsize = b.nsize) := by
  have h := @freeChain_split p.nunitsize a pre b post hpre hb
  constructor
  · intro ht
    simp only [memorypool.free, hsplit, h, if_pos ht]
  · intro ht
    exact ⟨by simp only [memorypool.free, hsplit, h, if_neg ht], rfl, rfl⟩

/-- C15, witness: the pool of `main` after four calls of `allocate` has the
growth block at 8192 in front of the first block; `free(8192)` gives back the
only unit held in the growth block, which leaves the chain. -/
theorem free_removes_exactly_the_freed_block_witness :
    ∃ b c, (allocRun demoPool demoHeaps 4).1.pblock = [] ++ b :: [c] ∧ b.owns 8192 ∧
      wrap32 ((b.release (allocRun demoPool demoHeaps 4).1.nunitsize 8192).nfree *
        (allocRun demoPool demoHeaps 4).1.nunitsize) =
          (b.release (allocRun demoPool demoHeaps 4).1.nunitsize 8192).nsize ∧
      ((wrap32 ((b.release (allocRun demoPool demoHeaps 4).1.nunitsize 8192).nfree *
          (allocRun demoPool demoHeaps 4).1.nunitsize) =
            (b.release (allocRun demoPool demoHeaps 4).1.nunitsize 8192).nsize →
        ((allocRun demoPool demoHeaps 4).1.free 8192).pblock = [] ++ [c]) ∧
      (wrap32 ((b.release (allocRun demoPool demoHeaps 4).1.nunitsize 8192).nfree *
          (allocRun demoPool demoHeaps 4).1.nunitsize) ≠
            (b.release (allocRun demoPool demoHeaps 4).1.nunitsize 8192).nsize →
        ((allocRun demoPool demoHeaps 4).1.free 8192).pblock =
            [] ++ b.release (allocRun demoPool demoHeaps 4).1.nunitsize 8192 :: [c] ∧
          (b.release (allocRun demoPool demoHeaps 4).1.nunitsize 8192).adata = b.adata ∧
          (b.release (allocRun demoPool demoHeaps 4).1.nunitsize 8192).nsize = b.nsize)) :=
  ⟨_, _, rfl, by decide, by decide,
    free_removes_exactly_the_freed_block (allocRun demoPool demoHeaps 4).1 8192 [] _ [_] rfl
      (by intro c hc; cases hc) (by decide)⟩

/-! ## C11: `align_size` -/

theorem land_mask (x : Nat) (hx : x < 2 ^ 64) : x &&& (2 ^ 64 - 1 - 7) = x / 8 * 8 := by
  apply Nat.eq_of_testBit_eq
  intro i
  rw [Nat.testBit_land]
  have e1 : x / 8 * 8 = (x >>> 3) <<< 3 := by
    rw [Nat.shiftRight_eq_div_pow, Nat.shiftLeft_eq]
  have e2 : (2 ^ 64 - 1 - 7 : Nat) = (2 ^ 61 - 1) <<< 3 := by decide
  rw [e1, e2, Nat.testBit_shiftLeft, Nat.testBit_shiftLeft, Nat.testBit_shiftRight,
    Nat.testBit_two_pow_sub_one]
  by_cases h3 : 3 ≤ i
  · have : 3 + (i - 3) = i := by omega
    simp only [this, ge_iff_le, h3, decide_True, Bool.true_and]
    by_cases h64 : i < 64
    · have : i - 3 < 61 := by omega
      simp [this]
    · have hf : x.testBit i = false := by
        apply Nat.testBit_eq_false_of_lt
        exact lt_of_lt_of_le hx (Nat.pow_le_pow_right (by omega) (by omega))
      simp [hf]
  · simp [h3]

theorem align_size_eq (size : Nat) (h : size + 7 < 2 ^ 64) :
    memorypool.align_size size = (size + 7) / 8 * 8 := by
  unfold memorypool.align_size MEMPOOL_ALIGNMENT
  rw [Nat.mod_eq_of_lt h]
  exact land_mask _ h

/-- C11: for every `size` with `size + 7 < 2^64`, `align_size(size)` is the
least multiple of 8 that is at least `size`; it is `size` itself when `size`
is a multiple of 8, and lies in `size .. size + 7` otherwise. -/
theorem align_size_is_least_multiple_of_8 (size : Nat) (h : size + 7 < 2 ^ 64) :
    8 ∣ memorypool.align_size size ∧ size ≤ memorypool.align_size size ∧
    (∀ m, 8 ∣ m → size ≤ m → memorypool.align_size size ≤ m) ∧
    (8 ∣ size → memorypool.align_size size = size) ∧
    (¬ 8 ∣ size → size ≤ memorypool.align_size size ∧ memorypool.align_size size < size + 8) := by
  rw [align_size_eq size h]
  refine ⟨by omega, by omega, ?_, ?_, ?_⟩
  · intro m hm hle
    omega
  · intro hd
    omega
  · intro _
    omega

/-- C11, witness: `align_size(4)`, the unit size of the pool of `main`, is 8. -/
theorem align_size_is_least_multiple_of_8_witness :
    memorypool.align_size 4 = 8 ∧
    (8 ∣ memorypool.align_size 4 ∧ 4 ≤ memorypool.align_size 4 ∧
    (∀ m, 8 ∣ m → 4 ≤ m → memorypool.align_size 4 ≤ m) ∧
    (8 ∣ 4 → memorypool.align_size 4 = 4) ∧
    (¬ 8 ∣ 4 → 4 ≤ memorypool.align_size 4 ∧ memorypool.align_size 4 < 4 + 8)) :=
  ⟨by decide, align_size_is_least_multiple_of_8 4 (by decide)⟩

/-! ## C14: the constructor of a block -/

/-- C14, counterexample: a block of 65537 units of 8 bytes, built on zeroed
storage at 4096.  For `i = 65535` (which is `unit_count - 2`) the two bytes at
the start of unit `i` hold 0, not `i + 1 = 65536`.  And a block of 65536
units of 65536 bytes has `nsize == 0`, not the product 2^32. -/
theorem constructor_link_wraps_at_65536 :
    (2 : Int) ≤ 8 ∧ (1 : Int) ≤ 65537 ∧ (1 : Int) ≤ 65535 ∧ (65535 : Int) ≤ 65537 - 2 ∧
    load16 (memoryblock.ctor 8 65537 4096 (fun _ => 0)).data (65535 * 8) ≠ 65535 + 1 ∧
    (memoryblock.ctor 65536 65536 4096 (fun _ => 0)).nsize ≠ 65536 * 65536 := by
  refine ⟨by decide, by decide, by decide, by decide, ?_, by decide⟩
  have := @thread_load 8 (by decide) 65536 1 0 (fun _ => 0) 65535 (by decide)
  simp only [memoryblock.ctor]
  rw [show ((65537 : Int) - 1).toNat = 65536 from by decide]
  rw [show (65535 * 8 : Int) = 0 + ((65535 : Nat) : Int) * 8 from by norm_num, this]
  decide

/-- C14, amended: for every unit size of at least 2 and every unit count
`n ≥ 1` with `unit_size * n < 2^31`, the constructed block has `nsize =
unit_size * n`, `nfree = n - 1` and `nfirst = 1`, and for every index `i` with
`1 ≤ i ≤ n - 2` the two bytes at the start of unit `i` hold `(i + 1) mod
65536`, which is `i + 1` when `n ≤ 65536`. -/
theorem constructor_threads_free_list (us n a : Int) (raw : Arena) (hus : 2 ≤ us) (hn : 1 ≤ n)
    (hsz : us * n < 2147483648) :
    (memoryblock.ctor us n a raw).nsize = us * n ∧
    (memoryblock.ctor us n a raw).nfree = n - 1 ∧
    (memoryblock.ctor us n a raw).nfirst = 1 ∧
    ∀ i : Nat, 1 ≤ i → (i : Int) ≤ n - 2 →
      load16 (memoryblock.ctor us n a raw).data ((i : Int) * us) = ((i : Int) + 1) % 65536 ∧
      (n ≤ 65536 → load16 (memoryblock.ctor us n a raw).data ((i : Int) * us) = (i : Int) + 1) := by
  have hle : n ≤ us * n := by nlinarith
  have hpos : 0 ≤ us * n := by nlinarith
  refine ⟨wrap32_of_range (by omega) hsz, wrap32_of_range (by omega) (by omega), rfl, ?_⟩
  intro i hi1 hi2
  have := thread_load hus (n - 1).toNat 1 0 raw i (by omega)
  rw [zero_add] at this
  have e : load16 (memoryblock.ctor us n a raw).data ((i : Int) * us) = ((i : Int) + 1) % 65536 := by
    simp only [memoryblock.ctor]
    rw [this]; congr 1; ring
  exact ⟨e, fun hn2 => by rw [e]; omega⟩

/-- C14, witness: a block of 3 units of 8 bytes (the first block of the pool
of `main`): unit 1 holds the link 2. -/
theorem constructor_threads_free_list_witness :
    (memoryblock.ctor 8 3 4096 (fun _ => 0)).nsize = 8 * 3 ∧
    (memoryblock.ctor 8 3 4096 (fun _ => 0)).nfree = 3 - 1 ∧
    (memoryblock.ctor 8 3 4096 (fun _ => 0)).nfirst = 1 ∧
    ∀ i : Nat, 1 ≤ i → (i : Int) ≤ 3 - 2 →
      load16 (memoryblock.ctor 8 3 4096 (fun _ => 0)).data ((i : Int) * 8) = ((i : Int) + 1) % 65536 ∧
      ((3 : Int) ≤ 65536 →
        load16 (memoryblock.ctor 8 3 4096 (fun _ => 0)).data ((i : Int) * 8) = (i : Int) + 1) :=
  constructor_threads_free_list 8 3 4096 (fun _ => 0) (by decide) (by decide) (by decide)

theorem mem_pokeChain {addr : Int} {v : Nat} {chain : List memoryblock} {b' : memoryblock}
    (h : b' ∈ memorypool.pokeChain addr v chain) :
    ∃ b ∈ chain, b'.nsize = b.nsize ∧ b'.nfree = b.nfree ∧ b'.nfirst = b.nfirst ∧
      b'.adata = b.adata := by
  induction chain with
  | nil => cases h
  | cons c rest ih =>
    simp only [memorypool.pokeChain] at h
    split at h
    · rcases List.mem_cons.mp h with rfl | h
      · exact ⟨c, List.mem_cons_self _ _, rfl, rfl, rfl, rfl⟩
      · exact ⟨b', List.mem_cons_of_mem _ h, rfl, rfl, rfl, rfl⟩
    · rcases List.mem_cons.mp h with rfl | h
      · exact ⟨b', List.mem_cons_self _ _, rfl, rfl, rfl, rfl⟩
      · obtain ⟨b, hb, hh⟩ := ih h
        exact ⟨b, List.mem_cons_of_mem _ hb, hh⟩

/-! ## The free list read along the links -/

theorem walk_of_linked {us : Int} {data : Arena} {fl : List Nat} {head : Int}
    (h : Linked us data head fl) :
    walk us data head fl.length = fl.map (fun i : Nat => (i : Int)) := by
  induction fl generalizing head with
  | nil => rfl
  | cons i rest ih =>
    obtain ⟨h1, h2⟩ := h
    simp only [List.length_cons, walk, List.map_cons, h1]
    rw [ih h2]

theorem BlockInv.freeList_eq {us : Int} {live : List Int} {b : memoryblock} {cnt : Nat}
    {fl : List Nat} (hb : BlockInv us live b cnt fl) :
    b.freeList us = fl.map (fun i : Nat => (i : Int)) := by
  unfold memoryblock.freeList
  rw [hb.nfree, Int.toNat_ofNat]
  exact walk_of_linked hb.linked

/-! ## C19: the free list of a block is well formed -/

/-- C19, amended: in a pool whose parameters fit (unit size at least 2, unit counts
between 1 and 65536, block sizes below 2^31), in every state of a run from
the empty pool and for every block of the chain, the first `nfree` units
reached from `nfirst` along the stored two byte links are pairwise different,
have an index from 0 to `unit_count - 1` (so the two bytes of every link that
`allocate` reads lie in the arena), and are exactly the units of the block
whose address no caller holds. -/
theorem free_list_is_well_formed (p0 p : memorypool) (live : List Int) (b : memoryblock)
    (h0 : p0.pblock = []) (hf : p0.Fits) (hr : Reachable p0 p live) (hb : b ∈ p.pblock) :
    ((b.freeList p.nunitsize).length : Int) = b.nfree ∧
    (b.freeList p.nunitsize).Nodup ∧
    (∀ i ∈ b.freeList p.nunitsize, 0 ≤ i ∧ i < (b.units p.nunitsize : Int) ∧
      0 ≤ i * p.nunitsize ∧ i * p.nunitsize + 1 < b.nsize) ∧
    (∀ i : Nat, i < b.units p.nunitsize →
      ((i : Int) ∈ b.freeList p.nunitsize ↔ b.adata + (i : Int) * p.nunitsize ∉ live)) := by
  have hinv := hr.inv h0 hf
  have hus := hinv.fits.unit
  have hus0 : 0 < p.nunitsize := by omega
  obtain ⟨cnt, fl, hbi, hlen⟩ := hinv.blocks b hb
  have hinj : Function.Injective (fun i : Nat => (i : Int)) := fun x y h => by
    simpa using h
  rw [hbi.freeList_eq, hbi.units_eq hus0]
  refine ⟨by rw [List.length_map, hbi.nfree], hbi.nodup.map hinj, ?_, ?_⟩
  · intro i hi
    obtain ⟨j, hj, rfl⟩ := List.mem_map.mp hi
    have hjc := hbi.lt j hj
    have h1 := unit_lt hus0 hjc
    have h2 := unit_nonneg (le_of_lt hus0) j
    have h3 := hbi.size
    refine ⟨by omega, by omega, h2, by omega⟩
  · intro i hi
    rw [hbi.held i hi]
    simp only [List.mem_map, Nat.cast_inj, exists_eq_right, not_not]

/-- C19, witness: the first block of the pool of `main` after two calls of
`allocate` and `free(4096)`: its free list is unit 0, then unit 2. -/
theorem free_list_is_well_formed_witness :
    ∃ b ∈ ((allocRun demoPool demoHeaps 2).1.free 4096).pblock,
      b.freeList ((allocRun demoPool demoHeaps 2).1.free 4096).nunitsize = [0, 2] ∧
      (((b.freeList ((allocRun demoPool demoHeaps 2).1.free 4096).nunitsize).length : Int) =
        b.nfree ∧
      (b.freeList ((allocRun demoPool demoHeaps 2).1.free 4096).nunitsize).Nodup ∧
      (∀ i ∈ b.freeList ((allocRun demoPool demoHeaps 2).1.free 4096).nunitsize,
        0 ≤ i ∧ i < (b.units ((allocRun demoPool demoHeaps 2).1.free 4096).nunitsize : Int) ∧
        0 ≤ i * ((allocRun demoPool demoHeaps 2).1.free 4096).nunitsize ∧
        i * ((allocRun demoPool demoHeaps 2).1.free 4096).nunitsize + 1 < b.nsize) ∧
      (∀ i : Nat, i < b.units ((allocRun demoPool demoHeaps 2).1.free 4096).nunitsize →
        ((i : Int) ∈ b.freeList ((allocRun demoPool demoHeaps 2).1.free 4096).nunitsize ↔
          b.adata + (i : Int) * ((allocRun demoPool demoHeaps 2).1.free 4096).nunitsize ∉
            (allocRun demoPool demoHeaps 2).2.erase 4096))) := by
  obtain ⟨b, hb, h1⟩ : ∃ b ∈ ((allocRun demoPool demoHeaps 2).1.free 4096).pblock,
      b.freeList ((allocRun demoPool demoHeaps 2).1.free 4096).nunitsize = [0, 2] := by decide
  exact ⟨b, hb, h1, free_list_is_well_formed demoPool ((allocRun demoPool demoHeaps 2).1.free 4096)
    ((allocRun demoPool demoHeaps 2).2.erase 4096) b rfl demoPool_fits
    (Reachable.free 4096 (allocRun_reachable _ _ 2 (fun j hj => demoHeaps_ok j (by omega)))
      (by decide)) hb⟩

/-- In every state of a run of a pool whose parameters fit, `nfirst` of every
block is a value that an `unsigned short` holds. -/
theorem Reachable.first_in_range {p0 p : memorypool} {live : List Int}
    (hr : Reachable p0 p live) (h0 : p0.pblock = []) (hf : p0.Fits) :
    ∀ b ∈ p.pblock, 0 ≤ b.nfirst ∧ b.nfirst < 65536 := by
  induction hr with
  | init => rw [h0]; intro b hb; cases hb
  | @allocate p live num heap hr' hnum hheap ih =>
    rcases allocate_cases p hnum heap with
      ⟨_, _, e⟩ | ⟨a, raw, rfl, hnil, e⟩ | ⟨a, raw, rfl, _, _, e⟩ |
      ⟨pre, b, post, hsplit, _, hne, e⟩
    · rw [e]; exact ih
    · rw [e]
      intro b hb
      rw [List.mem_singleton.mp hb]
      simp [memoryblock.ctor]
    · rw [e]
      intro b hb
      rcases List.mem_cons.mp hb with rfl | hb
      · simp [memoryblock.ctor]
      · exact ih b hb
    · rw [e]
      intro c hc
      rcases mem_split_cases hc with rfl | hc
      · exact ⟨load16_nonneg _ _, load16_lt _ _⟩
      · exact ih c (by rw [hsplit]; simp only [List.mem_append, List.mem_cons] at hc ⊢; tauto)
  | @free p live a hr' ha ih =>
    have hinv := hr'.inv h0 hf
    obtain ⟨pre, b, post, cnt, fl, i, hsplit, hpre, hbo, hbi, hlen, hai, hi, hif, hbi', hcase⟩ :=
      hinv.cases_of_free ha
    have hold : ∀ d ∈ pre ++ post, 0 ≤ d.nfirst ∧ d.nfirst < 65536 := by
      intro d hd
      exact ih d (by rw [hsplit]; simp only [List.mem_append, List.mem_cons] at hd ⊢; tauto)
    intro c hc
    rcases hcase with ⟨_, hch⟩ | ⟨_, hch⟩
    · rw [hch] at hc
      exact hold c hc
    · rw [hch] at hc
      rcases mem_split_cases hc with rfl | hc
      · have h1 : (b.release p.nunitsize a).nfirst = (i : Int) := hbi'.linked.1
        have h2 := hbi.cnt_le
        rw [h1]; omega
      · exact hold c hc
  | @poke p live a k v hr' ha hk0 hk ih =>
    intro c hc
    obtain ⟨b, hb, _, _, h3, _⟩ := mem_pokeChain hc
    rw [h3]; exact ih b hb

/-! ## C20: conditional reuse of the freed unit -/

/-- C20, amended: in a pool whose parameters fit (unit size at least 2, unit counts
between 1 and 65536, block sizes below 2^31), in every state of a run from
the empty pool and for every address `a` held, let `b` be the block of `a`,
`pre` the blocks in front of it and `post` those behind.  If after `free(a)`
the block is still in the chain and every block of `pre` has `nfree == 0`,
then the next `allocate` returns `a`, creates no block, and leaves the block
of `a` with the `nfirst` and `nfree` it had before the `free`. -/
theorem free_then_allocate_restores_block (p0 p : memorypool) (live : List Int) (a : Int)
    (num : Nat) (heap : Option (Int × Arena)) (h0 : p0.pblock = []) (hf : p0.Fits)
    (hr : Reachable p0 p live) (ha : a ∈ live) (hnum : 0 < num)
    (hkept : ∃ b ∈ (p.free a).pblock, b.owns a)
    (hfront : ∀ pre b post, p.pblock = pre ++ b :: post → b.owns a → ∀ c ∈ pre, c.nfree = 0) :
    ∃ pre b post b2, p.pblock = pre ++ b :: post ∧ b.owns a ∧ (∀ c ∈ pre, ¬ c.owns a) ∧
      (p.free a).allocate num heap = (some a, { p.free a with pblock := pre ++ b2 :: post }) ∧
      b2.nfirst = b.nfirst ∧ b2.nfree = b.nfree ∧ b2.adata = b.adata ∧ b2.nsize = b.nsize := by
  have hinv := hr.inv h0 hf
  have hus := hinv.fits.unit
  have hus0 : 0 < p.nunitsize := by omega
  obtain ⟨pre, b, post, cnt, fl, i, hsplit, hpre, hbo, hbi, hlen, hai, hi, hif, hbi', hcase⟩ :=
    hinv.cases_of_free ha
  have hap := hinv.apart
  rw [hsplit] at hap
  rcases hcase with ⟨_, hch⟩ | ⟨hnfull, hch⟩
  · exfalso
    obtain ⟨c, hc, hco⟩ := hkept
    rw [hch] at hc
    rcases List.mem_append.mp hc with hc' | hc'
    · exact hpre c hc' hco
    · exact memoryblock.apart_owns (apart_split hap c hc) hco hbo
  · have hz := hfront pre b post hsplit hbo
    have hne : (b.release p.nunitsize a).nfree ≠ 0 := by
      rw [hbi'.nfree]; simp only [List.length_cons]; push_cast; omega
    have ht : memorypool.takeUnit (p.free a).nunitsize (p.free a).pblock =
        some (((b.release p.nunitsize a).take p.nunitsize).1,
          pre ++ ((b.release p.nunitsize a).take p.nunitsize).2 :: post) := by
      rw [hch]; exact takeUnit_split pre _ post hz hne
    have h1 := unit_lt hus0 hi
    have h2 := unit_nonneg (le_of_lt hus0) i
    have hsz := hbi.size_lt
    have hcl := hbi.cnt_le
    have hll := nodup_length_le hbi.nodup hbi.lt
    have hfirst : (b.release p.nunitsize a).nfirst = (i : Int) := hbi'.linked.1
    have hoff : wrap32 ((b.release p.nunitsize a).nfirst * p.nunitsize) =
        (i : Int) * p.nunitsize := by
      rw [hfirst]; exact wrap32_of_range (by omega) (by omega)
    have hrange := hr.first_in_range h0 hf b (by rw [hsplit]; simp)
    refine ⟨pre, b, post, ((b.release p.nunitsize a).take p.nunitsize).2, hsplit, hbo, hpre,
      ?_, ?_, ?_, rfl, rfl⟩
    · rw [allocate_of_takeUnit hnum heap ht]
      simp only [memoryblock.take, hoff, Prod.mk.injEq, Option.some.injEq, and_true]
      rw [hai]; rfl
    · simp only [memoryblock.take, hoff]
      simp only [memoryblock.release]
      have e : a - b.adata = (i : Int) * p.nunitsize := by rw [hai]; ring
      rw [e, load16_store16_same]
      omega
    · simp only [memoryblock.take]
      simp only [memoryblock.release]
      have hn := hbi.nfree
      have hw : wrap32 (b.nfree + 1) = b.nfree + 1 := wrap32_of_range (by omega) (by omega)
      rw [hw, wrap32_of_range (by omega) (by omega)]
      ring

/-- C20, witness: the pool of `main` after three calls of `allocate`, with
4104 freed and allocated again. -/
theorem free_then_allocate_restores_block_witness :
    ∃ pre b post b2, (allocRun demoPool demoHeaps 3).1.pblock = pre ++ b :: post ∧
      b.owns 4104 ∧ (∀ c ∈ pre, ¬ c.owns 4104) ∧
      ((allocRun demoPool demoHeaps 3).1.free 4104).allocate 1 none =
        (some 4104, { (allocRun demoPool demoHeaps 3).1.free 4104 with
          pblock := pre ++ b2 :: post }) ∧
      b2.nfirst = b.nfirst ∧ b2.nfree = b.nfree ∧ b2.adata = b.adata ∧ b2.nsize = b.nsize :=
  free_then_allocate_restores_block demoPool (allocRun demoPool demoHeaps 3).1
    (allocRun demoPool demoHeaps 3).2 4104 1 none rfl demoPool_fits
    (allocRun_reachable _ _ 3 (fun j hj => demoHeaps_ok j (by omega))) (by decide) (by decide)
    (by decide)
    (by
      intro pre b post hsplit hbo c hc
      have hl : ((allocRun demoPool demoHeaps 3).1.pblock).length = 1 := by decide
      rw [hsplit] at hl
      cases pre with
      | nil => cases hc
      | cons d pre =>
        simp only [List.length_append, List.length_cons] at hl
        omega)

/-! ## Two chains compared block by block -/

theorem map_split {β : Type} (f : memoryblock → β) {P Q : List memoryblock}
    (h : P.map f = Q.map f) {pre : List memoryblock} {b : memoryblock} {post : List memoryblock}
    (hP : P = pre ++ b :: post) :
    ∃ pre' b' post', Q = pre' ++ b' :: post' ∧ pre'.map f = pre.map f ∧ f b' = f b ∧
      post'.map f = post.map f := by
  subst hP
  induction pre generalizing Q with
  | nil =>
    cases Q with
    | nil => simp at h
    | cons b' post' =>
      simp only [List.nil_append, List.map_cons, List.cons.injEq] at h
      exact ⟨[], b', post', rfl, rfl, h.1.symm, h.2.symm⟩
  | cons c pre ih =>
    cases Q with
    | nil => simp at h
    | cons c' Q' =>
      simp only [List.cons_append, List.map_cons, List.cons.injEq] at h
      obtain ⟨pre', b', post', e, h1, h2, h3⟩ := ih h.2
      exact ⟨c' :: pre', b', post', by simp [e], by simp [h1, h.1], h2, h3⟩

theorem exists_of_map_eq {β : Type} (f : memoryblock → β) {P Q : List memoryblock}
    (h : Q.map f = P.map f) {c' : memoryblock} (hc : c' ∈ Q) : ∃ c ∈ P, f c = f c' := by
  have : f c' ∈ P.map f := by rw [← h]; exact List.mem_map_of_mem f hc
  obtain ⟨c, hc1, hc2⟩ := List.mem_map.mp this
  exact ⟨c, hc1, hc2⟩

theorem shape_nsize {us : Int} {b b' : memoryblock} (h : b'.shape us = b.shape us) :
    b'.nsize = b.nsize := congrArg (fun s => s.2.1) h

theorem shape_freeList {us : Int} {b b' : memoryblock} (h : b'.shape us = b.shape us) :
    b'.freeList us = b.freeList us := congrArg (fun s => s.2.2.2) h

theorem shape_of_fields {us : Int} {b b' : memoryblock} (h1 : b'.adata = b.adata)
    (h2 : b'.nsize = b.nsize) (h3 : b'.nfree = b.nfree)
    (h4 : b'.freeList us = b.freeList us) : b'.shape us = b.shape us := by
  unfold memoryblock.shape
  rw [h1, h2, h3, h4]

theorem cast_map_inj {l l' : List Nat}
    (h : l'.map (fun i : Nat => (i : Int)) = l.map (fun i : Nat => (i : Int))) : l' = l :=
  List.map_injective_iff.mpr (fun x y hxy => by simpa using hxy) h

/-- Two blocks with the same shape that satisfy the invariant have the same
count and the same free list. -/
theorem BlockInv.same_list {us : Int} {live : List Int} {b b' : memoryblock} {cnt cnt' : Nat}
    {fl fl' : List Nat} (hb : BlockInv us live b cnt fl) (hb' : BlockInv us live b' cnt' fl')
    (hus : 0 < us) (h : b'.shape us = b.shape us) : cnt' = cnt ∧ fl' = fl := by
  constructor
  · have h1 := hb.units_eq hus
    have h2 := hb'.units_eq hus
    unfold memoryblock.units at h1 h2
    rw [shape_nsize h] at h2
    omega
  · apply cast_map_inj
    rw [← hb.freeList_eq, ← hb'.freeList_eq]
    exact shape_freeList h

theorem freeList_ctor {us : Int} (hus : 2 ≤ us) {n : Int} (hn1 : 1 ≤ n) (hn2 : n ≤ 65536)
    (a : Int) (raw : Arena) :
    (memoryblock.ctor us n a raw).freeList us =
      (List.range' 1 (n.toNat - 1)).map (fun i : Nat => (i : Int)) := by
  have e : (n - 1).toNat = n.toNat - 1 := by omega
  have hl := thread_linked hus (n.toNat - 1) (by omega) raw (n.toNat - 1) 1 (by omega)
  have hw := walk_of_linked hl
  rw [List.length_range'] at hw
  unfold memoryblock.freeList
  simp only [memoryblock.ctor]
  rw [wrap32_of_range (by omega) (by omega), e]
  exact hw

theorem allocate_full_none {p : memorypool} {num : Nat} (hnum : 0 < num)
    (h : ∀ b ∈ p.pblock, b.nfree = 0) : p.allocate num none = (none, p) := by
  rcases allocate_cases p hnum none with ⟨_, _, e⟩ | ⟨a, raw, e, _⟩ | ⟨a, raw, e, _⟩ |
    ⟨pre, b, post, hsplit, _, hne, _⟩
  · exact e
  · cases e
  · cases e
  · exact absurd (h b (by rw [hsplit]; simp)) hne

theorem allocate_full_grow {p : memorypool} {num : Nat} (hnum : 0 < num)
    (hne : p.pblock ≠ []) (h : ∀ b ∈ p.pblock, b.nfree = 0) (a : Int) (raw : Arena) :
    p.allocate num (some (a, raw)) = (some a, { p with
      pblock := memoryblock.ctor p.nunitsize p.ngrowsize a raw :: p.pblock }) := by
  rcases allocate_cases p hnum (some (a, raw)) with ⟨e, _⟩ | ⟨a', raw', _, hnil, _⟩ |
    ⟨a', raw', e1, _, _, e⟩ | ⟨pre, b, post, hsplit, _, hb, _⟩
  · cases e
  · exact absurd hnil hne
  · cases e1; exact e
  · exact absurd (h b (by rw [hsplit]; simp)) hb

theorem allocate_first {p : memorypool} {num : Nat} (hnum : 0 < num)
    (hnil : p.pblock = []) (a : Int) (raw : Arena) :
    p.allocate num (some (a, raw)) = (some a, { p with
      pblock := [memoryblock.ctor p.nunitsize p.ninitsize a raw] }) := by
  have hn : num ≠ 0 := by omega
  simp [memorypool.allocate, hn, hnil]

theorem split_unique {β : Type} (f : memoryblock → β) (R : memoryblock → Prop)
    (hR : ∀ c c', f c' = f c → (R c' ↔ R c))
    {pre : List memoryblock} {b : memoryblock} {post pre' : List memoryblock}
    {b' : memoryblock} {post' : List memoryblock}
    (h : (pre' ++ b' :: post').map f = (pre ++ b :: post).map f)
    (hpre : ∀ c ∈ pre, ¬ R c) (hb : R b) (hpre' : ∀ c ∈ pre', ¬ R c) (hb' : R b') :
    pre'.map f = pre.map f ∧ f b' = f b ∧ post'.map f = post.map f := by
  induction pre generalizing pre' with
  | nil =>
    cases pre' with
    | nil =>
      simp only [List.nil_append, List.map_cons, List.cons.injEq] at h
      exact ⟨rfl, h.1, h.2⟩
    | cons c' pre'' =>
      simp only [List.nil_append, List.cons_append, List.map_cons, List.cons.injEq] at h
      exact absurd ((hR b c' h.1).mpr hb) (hpre' c' (List.mem_cons_self _ _))
  | cons c pre ih =>
    cases pre' with
    | nil =>
      simp only [List.nil_append, List.cons_append, List.map_cons, List.cons.injEq] at h
      exact absurd ((hR c b' h.1).mp hb') (hpre c (List.mem_cons_self _ _))
    | cons c' pre'' =>
      simp only [List.cons_append, List.map_cons, List.cons.injEq] at h
      obtain ⟨h1, h2, h3⟩ := ih h.2 (fun d hd => hpre d (List.mem_cons_of_mem _ hd))
        (fun d hd => hpre' d (List.mem_cons_of_mem _ hd))
      exact ⟨by simp [h1, h.1], h2, h3⟩

/-- The first block of the chain whose arena holds a byte of a unit that a
caller holds is the block of the unit. -/
theorem PoolInv.byte_owner {p : memorypool} {live : List Int} (h : PoolInv p live)
    {a k : Int} (v : Nat) (ha : a ∈ live) (hk0 : 0 ≤ k) (hk : k < p.nunitsize) :
    ∃ pre b post cnt fl, p.pblock = pre ++ b :: post ∧ (∀ c ∈ pre, ¬ c.owns (a + k)) ∧
      b.owns (a + k) ∧ BlockInv p.nunitsize live b cnt fl ∧
      BlockInv p.nunitsize live { b with data := store8 b.data (a + k - b.adata) v } cnt fl ∧
      (p.poke (a + k) v).pblock =
        pre ++ { b with data := store8 b.data (a + k - b.adata) v } :: post := by
  have hus := h.fits.unit
  have hus0 : 0 < p.nunitsize := by omega
  obtain ⟨c, hc, hco⟩ := h.owned a ha
  obtain ⟨cnt, fl, hci, hlen⟩ := h.blocks c hc
  obtain ⟨i, hi, hai⟩ := hci.aligned a ha hco
  have hcok : c.owns (a + k) := by
    have h1 := unit_lt hus0 hi
    have h2 := unit_nonneg (le_of_lt hus0) i
    have h3 := hci.size
    unfold memoryblock.owns
    omega
  obtain ⟨pre, b, post, hsplit, hpre, hbo⟩ :=
    exists_first (fun c => c.owns (a + k)) p.pblock ⟨c, hc, hcok⟩
  have hap := h.apart
  rw [hsplit] at hap
  have hcb : c = b := by
    rw [hsplit] at hc
    rcases mem_split_cases hc with e | hc
    · exact e
    · exact absurd hbo (fun hb => memoryblock.apart_owns (apart_split hap c hc) hcok hb)
  subst hcb
  refine ⟨pre, c, post, cnt, fl, hsplit, hpre, hbo, hci, hci.after_poke hus v ha hco hk0 hk, ?_⟩
  simp only [memorypool.poke, hsplit]
  exact pokeChain_split pre c post hpre hbo

theorem BlockInv.head_eq {us : Int} {live : List Int} {b : memoryblock} {cnt : Nat}
    {fl : List Nat} (hb : BlockInv us live b cnt fl) : b.head = (b.shape us).2.2.2.head? := by
  show b.head = (b.freeList us).head?
  unfold memoryblock.head memoryblock.freeList
  rw [hb.nfree, Int.toNat_ofNat]
  cases fl with
  | nil => simp [walk]
  | cons i rest =>
    have : ((List.length (i :: rest) : Nat) : Int) ≠ 0 := by
      simp only [List.length_cons]; omega
    rw [if_neg this]
    simp [walk]

/-! ## Blocks of any number of units -/

theorem mem_heldIn {b : memoryblock} {live : List Int} {a : Int} :
    a ∈ b.heldIn live ↔ a ∈ live ∧ b.owns a := by
  simp [memoryblock.heldIn]

theorem heldIn_cons_pos {b : memoryblock} {a : Int} (h : b.owns a) (live : List Int) :
    b.heldIn (a :: live) = a :: b.heldIn live := by
  simp [memoryblock.heldIn, h]

theorem heldIn_cons_neg {b : memoryblock} {a : Int} (h : ¬ b.owns a) (live : List Int) :
    b.heldIn (a :: live) = b.heldIn live := by
  simp [memoryblock.heldIn, h]

theorem heldIn_erase_pos {b : memoryblock} {a : Int} (h : b.owns a) (live : List Int) :
    b.heldIn (live.erase a) = (b.heldIn live).erase a := by
  induction live with
  | nil => rfl
  | cons x l ih =>
    by_cases hx : x = a
    · subst hx
      rw [List.erase_cons_head, heldIn_cons_pos h, List.erase_cons_head]
    · rw [List.erase_cons_tail (by simpa using hx)]
      by_cases ho : b.owns x
      · rw [heldIn_cons_pos ho, heldIn_cons_pos ho, List.erase_cons_tail (by simpa using hx), ih]
      · rw [heldIn_cons_neg ho, heldIn_cons_neg ho, ih]

theorem heldIn_erase_neg {b : memoryblock} {a : Int} (h : ¬ b.owns a) (live : List Int) :
    b.heldIn (live.erase a) = b.heldIn live := by
  induction live with
  | nil => rfl
  | cons x l ih =>
    by_cases hx : x = a
    · subst hx
      rw [List.erase_cons_head, heldIn_cons_neg h]
    · rw [List.erase_cons_tail (by simpa using hx)]
      by_cases ho : b.owns x
      · rw [heldIn_cons_pos ho, heldIn_cons_pos ho, ih]
      · rw [heldIn_cons_neg ho, heldIn_cons_neg ho, ih]

theorem heldIn_congr {b b' : memoryblock} (h1 : b'.adata = b.adata) (h2 : b'.nsize = b.nsize)
    (live : List Int) : b'.heldIn live = b.heldIn live := by
  unfold memoryblock.heldIn
  apply List.filter_congr
  intro x _
  exact decide_eq_decide.mpr (owns_congr h1 h2 x)

theorem memorypool.Fits.sized {p : memorypool} (h : p.Fits) : p.Sized :=
  ⟨h.unit, h.init_pos, h.grow_pos, h.init_size, h.grow_size⟩

theorem memorypool.Sized.keep {p p' : memorypool} (h : p.Sized)
    (h1 : p'.ninitsize = p.ninitsize) (h2 : p'.ngrowsize = p.ngrowsize)
    (h3 : p'.nunitsize = p.nunitsize) : p'.Sized where
  unit := by rw [h3]; exact h.unit
  init_pos := by rw [h1]; exact h.init_pos
  grow_pos := by rw [h2]; exact h.grow_pos
  init_size := by rw [h1, h3]; exact h.init_size
  grow_size := by rw [h2, h3]; exact h.grow_size

theorem GenBlock.cnt_pos {us : Int} {L : List Int} {b : memoryblock} {cnt : Nat}
    (h : GenBlock us L b cnt) : 1 ≤ cnt := by
  have h1 := h.acc
  have h2 := h.nfree_nonneg
  have h3 : 0 < L.length := List.length_pos.mpr h.some_held
  omega

theorem GenBlock.nfree_lt {us : Int} {L : List Int} {b : memoryblock} {cnt : Nat}
    (h : GenBlock us L b cnt) : b.nfree < cnt := by
  have h1 := h.acc
  have h3 : 0 < L.length := List.length_pos.mpr h.some_held
  omega

theorem GenBlock.nsize_pos_gen {us : Int} {L : List Int} {b : memoryblock} {cnt : Nat}
    (h : GenBlock us L b cnt) (hus : 0 < us) : 0 < b.nsize := by
  rw [h.size]
  exact mul_pos hus (by have := h.cnt_pos; omega)

theorem GenBlock.owns_unit_gen {us : Int} {L : List Int} {b : memoryblock} {cnt : Nat}
    (h : GenBlock us L b cnt) (hus : 0 < us) {i : Nat} (hi : i < cnt) :
    b.owns (b.adata + (i : Int) * us) := by
  have h1 := unit_lt hus hi
  have h2 := unit_nonneg (le_of_lt hus) i
  have h3 := h.size
  unfold memoryblock.owns
  omega

/-- Every address held in a block is the address of one of its units. -/
theorem GenBlock.aligned {us : Int} {L : List Int} {b : memoryblock} {cnt : Nat}
    (h : GenBlock us L b cnt) {a : Int} (ha : a ∈ L) :
    ∃ i : Nat, i < cnt ∧ a = b.adata + (i : Int) * us := by
  rcases h.regime with ⟨fl, hbi, _⟩ | hbig
  · exact hbi.aligned a ha (h.held_owned a ha)
  · obtain ⟨i, hi, e⟩ := hbig.aligned a ha
    exact ⟨i, by have := hbig.big; omega, e⟩

/-- The unit that `allocate` hands out next is a unit of the block. -/
theorem GenBlock.first_lt {us : Int} {L : List Int} {b : memoryblock} {cnt : Nat}
    (h : GenBlock us L b cnt) (hne : b.nfree ≠ 0) :
    ∃ i : Nat, i < cnt ∧ b.nfirst = (i : Int) := by
  rcases h.regime with ⟨fl, hbi, _⟩ | hbig
  · cases fl with
    | nil => exact absurd (by simpa using hbi.nfree) hne
    | cons i rest =>
      exact ⟨i, hbi.lt i (List.mem_cons_self _ _), hbi.linked.1⟩
  · refine ⟨b.nfirst.toNat, ?_, ?_⟩
    · have := hbig.big
      have := hbig.first_lt
      have := hbig.first_nonneg
      omega
    · have := hbig.first_nonneg
      omega

theorem GenBlock.units_eq_gen {us : Int} {L : List Int} {b : memoryblock} {cnt : Nat}
    (h : GenBlock us L b cnt) (hus : 0 < us) : b.units us = cnt := by
  unfold memoryblock.units
  rw [h.size, Int.mul_ediv_cancel_left _ (by omega : us ≠ 0)]
  simp

theorem GenBlock.of_ctor_gen {us : Int} (hus : 2 ≤ us) {n : Int} (hn1 : 1 ≤ n)
    (hsz : us * n < 2147483648) (a : Int) (raw : Arena) :
    GenBlock us [a] (memoryblock.ctor us n a raw) n.toNat := by
  have hus0 : (0 : Int) < us := by omega
  have hn : ((n.toNat : Nat) : Int) = n := Int.toNat_of_nonneg (by omega)
  have hnle : n ≤ us * n := by nlinarith
  have hs : (memoryblock.ctor us n a raw).nsize = us * n := by
    simp only [memoryblock.ctor]; exact wrap32_of_range (by omega) hsz
  have hf : (memoryblock.ctor us n a raw).nfree = n - 1 := by
    simp only [memoryblock.ctor]; exact wrap32_of_range (by omega) (by omega)
  refine
    { size := by rw [hs, hn], size_lt := by rw [hn]; exact hsz, nfree_nonneg := by rw [hf]; omega
      acc := by rw [hf]; simp only [List.length_singleton]; omega
      some_held := by simp, held_owned := ?_, regime := ?_ }
  · intro x hx
    rw [List.mem_singleton] at hx
    subst hx
    unfold memoryblock.owns
    rw [hs]
    simp only [memoryblock.ctor]
    omega
  · by_cases hle : n ≤ 65536
    · left
      exact ⟨_, BlockInv.of_ctor hus hn1 hle hsz a raw (fun x hx => by cases hx),
        List.nodup_singleton a⟩
    · right
      exact
        { big := by omega, first_nonneg := by simp [memoryblock.ctor]
          first_lt := by simp [memoryblock.ctor]
          aligned := fun x hx => ⟨0, by omega, by
            rw [List.mem_singleton] at hx
            simp [memoryblock.ctor, hx]⟩ }

theorem GenBlock.cnt_lt {us : Int} {L : List Int} {b : memoryblock} {cnt : Nat}
    (h : GenBlock us L b cnt) (hus : 2 ≤ us) : (cnt : Int) < 2147483648 := by
  have := h.size_lt
  have hc : (0 : Int) ≤ cnt := by omega
  nlinarith

theorem GenBlock.after_take_gen {us : Int} {L : List Int} {b : memoryblock} {cnt : Nat}
    (h : GenBlock us L b cnt) (hus : 2 ≤ us) (hne : b.nfree ≠ 0) :
    ∃ i : Nat, i < cnt ∧ (b.take us).1 = b.adata + (i : Int) * us ∧
      GenBlock us ((b.take us).1 :: L) (b.take us).2 cnt := by
  have hus0 : (0 : Int) < us := by omega
  have hc := h.cnt_lt hus
  have hlt := h.nfree_lt
  have h0 := h.nfree_nonneg
  have hf : (b.take us).2.nfree = b.nfree - 1 := by
    simp only [memoryblock.take]
    exact wrap32_of_range (by omega) (by omega)
  obtain ⟨i, hi, hfi⟩ := h.first_lt hne
  have h1 := unit_lt hus0 hi
  have h2 := unit_nonneg (le_of_lt hus0) i
  have hsz := h.size_lt
  have hoff : wrap32 (b.nfirst * us) = (i : Int) * us := by
    rw [hfi]; exact wrap32_of_range (by omega) (by omega)
  have hp : (b.take us).1 = b.adata + (i : Int) * us := by
    simp only [memoryblock.take, hoff]
  have hown : b.owns (b.take us).1 := by rw [hp]; exact h.owns_unit_gen hus0 hi
  refine ⟨i, hi, hp, ?_⟩
  refine
    { size := h.size, size_lt := h.size_lt, nfree_nonneg := by rw [hf]; omega
      acc := by rw [hf]; simp only [List.length_cons]; have := h.acc; push_cast; omega
      some_held := by simp
      held_owned := ?_, regime := ?_ }
  · intro x hx
    rcases List.mem_cons.mp hx with rfl | hx
    · exact hown
    · exact h.held_owned x hx
  · rcases h.regime with ⟨fl, hbi, hnd⟩ | hbig
    · left
      obtain ⟨j, rest, hfl, hpj, hj, hbi'⟩ := hbi.after_take hus hne
      refine ⟨rest, hbi', List.nodup_cons.mpr ⟨?_, hnd⟩⟩
      rw [hpj]
      intro hmem
      exact (hbi.held j hj).mp hmem (by rw [hfl]; exact List.mem_cons_self _ _)
    · right
      exact
        { big := hbig.big
          first_nonneg := load16_nonneg _ _
          first_lt := load16_lt _ _
          aligned := fun x hx => by
            rcases List.mem_cons.mp hx with rfl | hx
            · refine ⟨i, ?_, hp⟩
              have := hbig.first_lt
              omega
            · exact hbig.aligned x hx }

theorem GenBlock.after_release_gen {us : Int} {L : List Int} {b : memoryblock} {cnt : Nat}
    (h : GenBlock us L b cnt) (hus : 2 ≤ us) {a : Int} (ha : a ∈ L) :
    ∃ i : Nat, i < cnt ∧ a = b.adata + (i : Int) * us ∧ (b.release us a).nfirst = i ∧
      (b.release us a).nfree = b.nfree + 1 ∧ (b.nfree + 1 = cnt ↔ L.erase a = []) ∧
      (L.erase a ≠ [] → GenBlock us (L.erase a) (b.release us a) cnt) := by
  have hus0 : (0 : Int) < us := by omega
  have hc := h.cnt_lt hus
  have hlt := h.nfree_lt
  have h0 := h.nfree_nonneg
  have hf : (b.release us a).nfree = b.nfree + 1 := by
    simp only [memoryblock.release]
    exact wrap32_of_range (by omega) (by omega)
  obtain ⟨i, hi, hai⟩ := h.aligned ha
  have h1 := unit_lt hus0 hi
  have h2 := unit_nonneg (le_of_lt hus0) i
  have hsz := h.size_lt
  have hfirst : (b.release us a).nfirst = i := by
    simp only [memoryblock.release]
    rw [hai, show b.adata + (i : Int) * us - b.adata = (i : Int) * us from by ring,
      Int.mul_tdiv_cancel _ (by omega : us ≠ 0)]
    exact wrap32_of_range (by omega) (by omega)
  have hlen : (L.erase a).length = L.length - 1 := List.length_erase_of_mem ha
  have hLpos : 0 < L.length := List.length_pos.mpr h.some_held
  have hacc := h.acc
  refine ⟨i, hi, hai, hfirst, hf, ?_, ?_⟩
  · rw [← List.length_eq_zero]
    omega
  · intro hne
    have hpos : 0 < (L.erase a).length := List.length_pos.mpr hne
    refine
      { size := h.size, size_lt := h.size_lt, nfree_nonneg := by rw [hf]; omega
        acc := by rw [hf, hlen]; omega
        some_held := hne
        held_owned := fun x hx => h.held_owned x (List.mem_of_mem_erase hx)
        regime := ?_ }
    rcases h.regime with ⟨fl, hbi, hnd⟩ | hbig
    · left
      obtain ⟨j, _, _, _, hbi'⟩ := hbi.after_release hus hnd ha (h.held_owned a ha)
      exact ⟨_, hbi', hnd.erase a⟩
    · right
      exact
        { big := hbig.big
          first_nonneg := by rw [hfirst]; omega
          first_lt := by
            rw [hfirst]
            obtain ⟨j, hj, haj⟩ := hbig.aligned a ha
            have : i = j := unit_inj hus0 (by rw [hai] at haj; omega)
            omega
          aligned := fun x hx => hbig.aligned x (List.mem_of_mem_erase hx) }

theorem GenBlock.after_poke_gen {us : Int} {L : List Int} {b : memoryblock} {cnt : Nat}
    (h : GenBlock us L b cnt) (hus : 2 ≤ us) {u k : Int} (v : Nat) (hu : u ∈ L)
    (hk0 : 0 ≤ k) (hk : k < us) :
    GenBlock us L { b with data := store8 b.data (u + k - b.adata) v } cnt where
  size := h.size
  size_lt := h.size_lt
  nfree_nonneg := h.nfree_nonneg
  acc := h.acc
  some_held := h.some_held
  held_owned := h.held_owned
  regime := by
    rcases h.regime with ⟨fl, hbi, hnd⟩ | hbig
    · left
      exact ⟨fl, hbi.after_poke hus v hu (h.held_owned u hu) hk0 hk, hnd⟩
    · right
      exact { big := hbig.big, first_nonneg := hbig.first_nonneg, first_lt := hbig.first_lt
              aligned := hbig.aligned }

theorem heldIn_eq_nil {b : memoryblock} {live : List Int} (h : ∀ x ∈ live, ¬ b.owns x) :
    b.heldIn live = [] := by
  unfold memoryblock.heldIn
  rw [List.filter_eq_nil_iff]
  intro x hx
  simpa using h x hx

theorem GenInv.grow_gen {p : memorypool} {live : List Int} (h : GenInv p live)
    {n : Int} (hn1 : 1 ≤ n) (hsz : p.nunitsize * n < 2147483648)
    (a : Int) (raw : Arena)
    (hfree : ∀ b ∈ p.pblock, a + p.nunitsize * n ≤ b.adata ∨ b.adata + b.nsize ≤ a) :
    GenInv { p with pblock := memoryblock.ctor p.nunitsize n a raw :: p.pblock }
      (a :: live) := by
  have hus := h.sized.unit
  have hus0 : 0 < p.nunitsize := by omega
  have hpos : 0 < p.nunitsize * n := mul_pos hus0 (by omega)
  have hns : (memoryblock.ctor p.nunitsize n a raw).nsize = p.nunitsize * n := by
    simp only [memoryblock.ctor]; exact wrap32_of_range (by omega) hsz
  have hfresh : ∀ x ∈ live, ¬ (memoryblock.ctor p.nunitsize n a raw).owns x := by
    intro x hx hr
    obtain ⟨c, hc, hco⟩ := h.owned x hx
    have := hfree c hc
    unfold memoryblock.owns at hco hr
    rw [hns] at hr
    simp only [memoryblock.ctor] at hr
    omega
  have hown : (memoryblock.ctor p.nunitsize n a raw).owns a := by
    unfold memoryblock.owns
    rw [hns]
    simp only [memoryblock.ctor]
    omega
  refine { sized := h.sized.keep rfl rfl rfl, blocks := ?_, apart := ?_, owned := ?_ }
  · intro c hc
    rcases List.mem_cons.mp hc with rfl | hc
    · refine ⟨n.toNat, ?_⟩
      rw [heldIn_cons_pos hown, heldIn_eq_nil hfresh]
      exact GenBlock.of_ctor_gen hus hn1 hsz a raw
    · obtain ⟨cnt, hci⟩ := h.blocks c hc
      refine ⟨cnt, ?_⟩
      have hca : ¬ c.owns a := by
        intro hco
        have := hfree c hc
        unfold memoryblock.owns at hco
        omega
      rw [heldIn_cons_neg hca]
      exact hci
  · refine List.pairwise_cons.mpr ⟨?_, h.apart⟩
    intro c hc
    have := hfree c hc
    unfold memoryblock.apart
    rw [hns]
    simpa [memoryblock.ctor] using this
  · intro x hx
    rcases List.mem_cons.mp hx with rfl | hx
    · exact ⟨_, List.mem_cons_self _ _, hown⟩
    · obtain ⟨c, hc, hco⟩ := h.owned x hx
      exact ⟨c, List.mem_cons_of_mem _ hc, hco⟩

theorem GenInv.step_allocate_gen {p : memorypool} {live : List Int} (h : GenInv p live)
    {num : Nat} (hnum : 0 < num) {heap : Option (Int × Arena)} (hheap : p.heapOK heap) :
    GenInv (p.allocate num heap).2 (liveAfter (p.allocate num heap).1 live) := by
  have hus := h.sized.unit
  have hus0 : 0 < p.nunitsize := by omega
  rcases allocate_cases p hnum heap with
    ⟨_, _, e⟩ | ⟨a, raw, rfl, hnil, e⟩ | ⟨a, raw, rfl, _, _, e⟩ | ⟨pre, b, post, hsplit, _, hne, e⟩
  · rw [e]; exact h
  · rw [e]
    simp only [liveAfter]
    have := h.grow_gen h.sized.init_pos h.sized.init_size a raw
      (by rw [hnil]; intro b hb; cases hb)
    rw [hnil] at this
    exact this
  · rw [e]
    simp only [liveAfter]
    refine h.grow_gen h.sized.grow_pos h.sized.grow_size a raw ?_
    intro b hb
    have := hheap a raw rfl b hb
    rwa [wrap32_of_range
      (by have := mul_pos hus0 (by have := h.sized.grow_pos; omega : 0 < p.ngrowsize); omega)
      h.sized.grow_size] at this
  · rw [e]
    simp only [liveAfter]
    have hbmem : b ∈ p.pblock := by rw [hsplit]; simp
    obtain ⟨cnt, hbi⟩ := h.blocks b hbmem
    obtain ⟨i, hi, hp, hbi'⟩ := hbi.after_take_gen hus hne
    have hap := h.apart
    rw [hsplit] at hap
    have hbo : b.owns (b.take p.nunitsize).1 := by rw [hp]; exact hbi.owns_unit_gen hus0 hi
    refine { sized := h.sized.keep rfl rfl rfl, blocks := ?_, apart := ?_, owned := ?_ }
    · intro c hc
      rcases mem_split_cases hc with rfl | hc
      · refine ⟨cnt, ?_⟩
        rw [heldIn_congr (take_adata _ b) (take_nsize _ b), heldIn_cons_pos hbo]
        exact hbi'
      · have hcm : c ∈ p.pblock := by
          rw [hsplit]; simp only [List.mem_append, List.mem_cons] at hc ⊢; tauto
        obtain ⟨cnt', hci⟩ := h.blocks c hcm
        refine ⟨cnt', ?_⟩
        have hca : ¬ c.owns (b.take p.nunitsize).1 := fun hco =>
          memoryblock.apart_owns (apart_split hap c hc) hco hbo
        rw [heldIn_cons_neg hca]
        exact hci
    · exact apart_replace hap rfl rfl
    · intro x hx
      have hown : ∃ c ∈ p.pblock, c.owns x := by
        rcases List.mem_cons.mp hx with rfl | hx
        · exact ⟨b, hbmem, hbo⟩
        · exact h.owned x hx
      obtain ⟨c, hc, hco⟩ := hown
      rw [hsplit] at hc
      rcases mem_split_cases hc with rfl | hc
      · exact ⟨(c.take p.nunitsize).2, by simp, hco⟩
      · refine ⟨c, ?_, hco⟩
        simp only [List.mem_append, List.mem_cons] at hc ⊢; tauto

/-- What `free` does with an address a caller holds, in a state that
satisfies the invariant: the block found, the unit given back, and whether
the block leaves the chain. -/
theorem GenInv.cases_of_free_gen {p : memorypool} {live : List Int} (h : GenInv p live)
    {a : Int} (ha : a ∈ live) :
    ∃ pre b post cnt, ∃ i : Nat, p.pblock = pre ++ b :: post ∧ (∀ c ∈ pre, ¬ c.owns a) ∧
      b.owns a ∧ GenBlock p.nunitsize (b.heldIn live) b cnt ∧ i < cnt ∧
      a = b.adata + (i : Int) * p.nunitsize ∧ (b.release p.nunitsize a).nfirst = i ∧
      (b.release p.nunitsize a).nfree = b.nfree + 1 ∧
      ((b.nfree + 1 = cnt ∧ (b.heldIn live).erase a = [] ∧ (p.free a).pblock = pre ++ post) ∨
       (b.nfree + 1 < cnt ∧
        GenBlock p.nunitsize ((b.heldIn live).erase a) (b.release p.nunitsize a) cnt ∧
        (p.free a).pblock = pre ++ b.release p.nunitsize a :: post)) := by
  have hus := h.sized.unit
  have hus0 : 0 < p.nunitsize := by omega
  obtain ⟨pre, b, post, hsplit, hpre, hbo⟩ := exists_first (fun c => c.owns a) p.pblock (h.owned a ha)
  have hbmem : b ∈ p.pblock := by rw [hsplit]; simp
  obtain ⟨cnt, hbi⟩ := h.blocks b hbmem
  have haL : a ∈ b.heldIn live := mem_heldIn.mpr ⟨ha, hbo⟩
  obtain ⟨i, hi, hai, hfirst, hnf, hiff, hbi'⟩ := hbi.after_release_gen hus haL
  refine ⟨pre, b, post, cnt, i, hsplit, hpre, hbo, hbi, hi, hai, hfirst, hnf, ?_⟩
  have hfc : (p.free a).pblock = pre ++
      (if wrap32 ((b.release p.nunitsize a).nfree * p.nunitsize) = (b.release p.nunitsize a).nsize
        then post else b.release p.nunitsize a :: post) := by
    simp only [memorypool.free, hsplit]
    exact freeChain_split pre b post hpre hbo
  have hsz := hbi.size_lt
  have hlt := hbi.nfree_lt
  have h0 := hbi.nfree_nonneg
  have hle : (b.nfree + 1) * p.nunitsize ≤ p.nunitsize * (cnt : Int) := by
    have : b.nfree + 1 ≤ (cnt : Int) := by omega
    have := mul_le_mul_of_nonneg_right this (le_of_lt hus0)
    linarith
  have hnn : 0 ≤ (b.nfree + 1) * p.nunitsize := mul_nonneg (by omega) (le_of_lt hus0)
  rw [hnf, release_nsize, hbi.size, wrap32_of_range (by omega) (by omega)] at hfc
  by_cases hfull : b.nfree + 1 = cnt
  · left
    refine ⟨hfull, hiff.mp hfull, ?_⟩
    rw [hfc, if_pos (by rw [hfull]; ring)]
  · right
    refine ⟨by omega, hbi' (fun e => hfull (hiff.mpr e)), ?_⟩
    rw [hfc, if_neg]
    intro e
    apply hfull
    have e' : (b.nfree + 1) * p.nunitsize = (cnt : Int) * p.nunitsize := by rw [e]; ring
    exact Int.eq_of_mul_eq_mul_right (by omega) e'

theorem GenInv.step_free_gen {p : memorypool} {live : List Int} (h : GenInv p live)
    {a : Int} (ha : a ∈ live) : GenInv (p.free a) (live.erase a) := by
  have hus := h.sized.unit
  have hus0 : 0 < p.nunitsize := by omega
  obtain ⟨pre, b, post, cnt, i, hsplit, hpre, hbo, hbi, hi, hai, hfirst, hnf, hcase⟩ :=
    h.cases_of_free_gen ha
  have hap := h.apart
  rw [hsplit] at hap
  have hframe : ∀ c ∈ pre ++ post, ∃ cnt,
      GenBlock (p.free a).nunitsize (c.heldIn (live.erase a)) c cnt := by
    intro c hc
    have hcm : c ∈ p.pblock := by
      rw [hsplit]; simp only [List.mem_append, List.mem_cons] at hc ⊢; tauto
    obtain ⟨cnt', hci⟩ := h.blocks c hcm
    refine ⟨cnt', ?_⟩
    have hca : ¬ c.owns a := fun hco => memoryblock.apart_owns (apart_split hap c hc) hco hbo
    rw [heldIn_erase_neg hca]
    exact hci
  have howner : ∀ x ∈ live.erase a, x ∈ (b.heldIn live).erase a ∨
      ∃ c ∈ pre ++ post, c.owns x := by
    intro x hx
    obtain ⟨c, hc, hco⟩ := h.owned x (List.mem_of_mem_erase hx)
    rw [hsplit] at hc
    rcases mem_split_cases hc with rfl | hc
    · left
      rw [← heldIn_erase_pos hbo]
      exact mem_heldIn.mpr ⟨hx, hco⟩
    · right; exact ⟨c, hc, hco⟩
  rcases hcase with ⟨hfull, hnil, hch⟩ | ⟨hnfull, hbi', hch⟩
  · refine { sized := h.sized.keep rfl rfl rfl, blocks := ?_, apart := ?_, owned := ?_ }
    · rw [hch]; exact hframe
    · rw [hch]; exact apart_remove hap
    · intro x hx
      rw [hch]
      rcases howner x hx with hxo | hxo
      · rw [hnil] at hxo; cases hxo
      · exact hxo
  · refine { sized := h.sized.keep rfl rfl rfl, blocks := ?_, apart := ?_, owned := ?_ }
    · rw [hch]
      intro c hc
      rcases mem_split_cases hc with rfl | hc
      · refine ⟨cnt, ?_⟩
        rw [heldIn_congr (release_adata _ b a) (release_nsize _ b a), heldIn_erase_pos hbo]
        exact hbi'
      · exact hframe c hc
    · rw [hch]; exact apart_replace hap rfl rfl
    · intro x hx
      rw [hch]
      rcases howner x hx with hxo | ⟨c, hc, hco⟩
      · have := (mem_heldIn.mp (List.mem_of_mem_erase hxo)).2
        exact ⟨b.release p.nunitsize a, by simp, this⟩
      · refine ⟨c, ?_, hco⟩
        simp only [List.mem_append, List.mem_cons] at hc ⊢; tauto

/-- The first block of the chain whose arena holds a byte of a unit that a
caller holds is the block of the unit. -/
theorem GenInv.byte_owner_gen {p : memorypool} {live : List Int} (h : GenInv p live)
    {a k : Int} (v : Nat) (ha : a ∈ live) (hk0 : 0 ≤ k) (hk : k < p.nunitsize) :
    ∃ pre b post cnt, p.pblock = pre ++ b :: post ∧ (∀ c ∈ pre, ¬ c.owns (a + k)) ∧
      b.owns (a + k) ∧ b.owns a ∧ GenBlock p.nunitsize (b.heldIn live) b cnt ∧
      GenBlock p.nunitsize (b.heldIn live)
        { b with data := store8 b.data (a + k - b.adata) v } cnt ∧
      (p.poke (a + k) v).pblock =
        pre ++ { b with data := store8 b.data (a + k - b.adata) v } :: post := by
  have hus := h.sized.unit
  have hus0 : 0 < p.nunitsize := by omega
  obtain ⟨c, hc, hco⟩ := h.owned a ha
  obtain ⟨cnt, hci⟩ := h.blocks c hc
  have haL : a ∈ c.heldIn live := mem_heldIn.mpr ⟨ha, hco⟩
  obtain ⟨i, hi, hai⟩ := hci.aligned haL
  have hcok : c.owns (a + k) := by
    have h1 := unit_lt hus0 hi
    have h2 := unit_nonneg (le_of_lt hus0) i
    have h3 := hci.size
    unfold memoryblock.owns
    omega
  obtain ⟨pre, b, post, hsplit, hpre, hbo⟩ :=
    exists_first (fun c => c.owns (a + k)) p.pblock ⟨c, hc, hcok⟩
  have hap := h.apart
  rw [hsplit] at hap
  have hcb : c = b := by
    rw [hsplit] at hc
    rcases mem_split_cases hc with e | hc
    · exact e
    · exact absurd hbo (fun hb => memoryblock.apart_owns (apart_split hap c hc) hcok hb)
  subst hcb
  refine ⟨pre, c, post, cnt, hsplit, hpre, hbo, hco, hci, hci.after_poke_gen hus v haL hk0 hk, ?_⟩
  simp only [memorypool.poke, hsplit]
  exact pokeChain_split pre c post hpre hbo

theorem GenInv.step_poke_gen {p : memorypool} {live : List Int} (h : GenInv p live)
    {a k : Int} (v : Nat) (ha : a ∈ live) (hk0 : 0 ≤ k) (hk : k < p.nunitsize) :
    GenInv (p.poke (a + k) v) live := by
  obtain ⟨pre, b, post, cnt, hsplit, hpre, hbo, hba, hbi, hbi', hch⟩ :=
    h.byte_owner_gen v ha hk0 hk
  have hap := h.apart
  rw [hsplit] at hap
  refine { sized := h.sized.keep rfl rfl rfl, blocks := ?_, apart := ?_, owned := ?_ }
  · rw [hch]
    intro d hd
    rcases mem_split_cases hd with rfl | hd
    · refine ⟨cnt, ?_⟩
      have e : memoryblock.heldIn { b with data := store8 b.data (a + k - b.adata) v } live =
          b.heldIn live := heldIn_congr rfl rfl live
      rw [e]
      exact hbi'
    · exact h.blocks d (by
        rw [hsplit]; simp only [List.mem_append, List.mem_cons] at hd ⊢; tauto)
  · rw [hch]; exact apart_replace hap rfl rfl
  · intro x hx
    rw [hch]
    obtain ⟨d, hd, hdo⟩ := h.owned x hx
    rw [hsplit] at hd
    rcases mem_split_cases hd with rfl | hd
    · exact ⟨{ d with data := store8 d.data (a + k - d.adata) v }, by simp, hdo⟩
    · refine ⟨d, ?_, hdo⟩
      simp only [List.mem_append, List.mem_cons] at hd ⊢; tauto

/-- Every state of a run that starts from an empty pool whose parameters are
in the range of `int` satisfies the invariant. -/
theorem Reachable.gen {p0 p : memorypool} {live : List Int} (hr : Reachable p0 p live)
    (h0 : p0.pblock = []) (hs : p0.Sized) : GenInv p live := by
  induction hr with
  | init =>
    refine { sized := hs, blocks := ?_, apart := ?_, owned := ?_ }
    · rw [h0]; intro b hb; cases hb
    · rw [h0]; exact List.Pairwise.nil
    · intro a ha; cases ha
  | allocate num heap _ hnum hheap ih => exact ih.step_allocate_gen hnum hheap
  | free a _ ha ih => exact ih.step_free_gen ha
  | poke a k v _ ha hk0 hk ih => exact ih.step_poke_gen v ha hk0 hk

theorem demoPool_sized : demoPool.Sized :=
  ⟨by decide, by decide, by decide, by decide, by decide⟩

/-- C18, counterexample: the pool for a type of 2^32 bytes, whose `int` unit
size is 0, with the default counts 3 and 10, after one call of `allocate`.
The block has `nsize == 0` and `nfree == 2`, so `nfree * nunitsize < nsize`
does not hold. -/
theorem zero_unit_size_breaks_size_bound :
    nullPool.pblock = [] ∧ nullPool.nunitsize = 0 ∧ 1 ≤ nullPool.ninitsize ∧
    1 ≤ nullPool.ngrowsize ∧
    ∃ p live, Reachable nullPool p live ∧
      ∃ b ∈ p.pblock, b.nsize = 0 ∧ b.nfree = 2 ∧ ¬ (b.nfree * p.nunitsize < b.nsize) :=
  ⟨rfl, by decide, by decide, by decide, (allocRun nullPool (onlyFirst (zeroed 4096)) 1).1,
    (allocRun nullPool (onlyFirst (zeroed 4096)) 1).2,
    allocRun_onlyFirst_reachable _ _ rfl 1, by decide⟩

/-- C18, amended: for a unit size of at least 2, unit counts of at least 1
and block sizes `nunitsize * count` below 2^31, in every state of a run from
the empty pool every block of the chain has `0 ≤ nfree ≤ unit_count - 1` and
`nfree * nunitsize < nsize`, and a caller holds the address of one of its
units. -/
theorem every_block_has_a_unit_held (p0 p : memorypool) (live : List Int) (b : memoryblock)
    (h0 : p0.pblock = []) (hs : p0.Sized) (hr : Reachable p0 p live) (hb : b ∈ p.pblock) :
    0 ≤ b.nfree ∧ b.nfree ≤ (b.units p.nunitsize : Int) - 1 ∧
    b.nfree * p.nunitsize < b.nsize ∧
    ∃ i : Nat, i < b.units p.nunitsize ∧ b.adata + (i : Int) * p.nunitsize ∈ live := by
  have hinv := hr.gen h0 hs
  have hus := hinv.sized.unit
  have hus0 : 0 < p.nunitsize := by omega
  obtain ⟨cnt, hg⟩ := hinv.blocks b hb
  have hlt := hg.nfree_lt
  rw [hg.units_eq_gen hus0]
  refine ⟨hg.nfree_nonneg, by omega, ?_, ?_⟩
  · rw [hg.size]; nlinarith
  · obtain ⟨a, l, hl⟩ := List.exists_cons_of_ne_nil hg.some_held
    have ha : a ∈ b.heldIn live := by rw [hl]; exact List.mem_cons_self _ _
    obtain ⟨i, hi, hai⟩ := hg.aligned ha
    exact ⟨i, hi, hai ▸ (mem_heldIn.mp ha).1⟩

/-- C18, witness: the first block of the pool of `main` after two calls of
`allocate`. -/
theorem every_block_has_a_unit_held_witness :
    ∃ b ∈ (allocRun demoPool demoHeaps 2).1.pblock,
      0 ≤ b.nfree ∧ b.nfree ≤ (b.units (allocRun demoPool demoHeaps 2).1.nunitsize : Int) - 1 ∧
      b.nfree * (allocRun demoPool demoHeaps 2).1.nunitsize < b.nsize ∧
      ∃ i : Nat, i < b.units (allocRun demoPool demoHeaps 2).1.nunitsize ∧
        b.adata + (i : Int) * (allocRun demoPool demoHeaps 2).1.nunitsize ∈
          (allocRun demoPool demoHeaps 2).2 := by
  obtain ⟨b, hb⟩ : ∃ b, b ∈ (allocRun demoPool demoHeaps 2).1.pblock := ⟨_, List.mem_cons_self _ _⟩
  exact ⟨b, hb, every_block_has_a_unit_held demoPool _ _ b rfl demoPool_sized
    (allocRun_reachable _ _ 2 (fun j hj => demoHeaps_ok j (by omega))) hb⟩

/-- C19, counterexample: the pool for a type of 2^32 bytes, whose `int` unit
size is 0, with the default counts 3 and 10 (counts from 1 to 65536, block
sizes 0), after one call of `allocate`, which returned 4096.  The units 1 and
2 are on the free list of the block, and their address `adata + i * 0` is
4096, which the caller holds; the next `allocate` hands out unit 1 and
returns 4096 again. -/
theorem free_list_unit_is_held_with_zero_unit_size :
    nullPool.pblock = [] ∧ nullPool.nunitsize = 0 ∧
    1 ≤ nullPool.ninitsize ∧ nullPool.ninitsize ≤ 65536 ∧
    1 ≤ nullPool.ngrowsize ∧ nullPool.ngrowsize ≤ 65536 ∧
    nullPool.nunitsize * nullPool.ninitsize < 2147483648 ∧
    nullPool.nunitsize * nullPool.ngrowsize < 2147483648 ∧
    ∃ p live, Reachable nullPool p live ∧ live = [4096] ∧
      (p.allocate 1 none).1 = some 4096 ∧
      ∃ b ∈ p.pblock, b.freeList p.nunitsize = [1, 2] ∧
        ∃ i ∈ b.freeList p.nunitsize, b.adata + i * p.nunitsize ∈ live :=
  ⟨rfl, by decide, by decide, by decide, by decide, by decide, by decide, by decide,
    (allocRun nullPool (onlyFirst (zeroed 4096)) 1).1,
    (allocRun nullPool (onlyFirst (zeroed 4096)) 1).2,
    allocRun_onlyFirst_reachable _ _ rfl 1, by decide, by decide, by decide⟩

/-- C20, counterexample: the pool for a type of 2^32 bytes, whose `int` unit
size is 0, with the default counts 3 and 10, after one call of `allocate`,
which returned 4096.  The only block of the chain has `nsize == 0`, so
`free(4096)` finds no block and changes nothing: the block stays in the
chain, with no block in front of it.  The next `allocate` returns 4096 again,
but leaves the block with `nfirst == 2` and `nfree == 1`, not with the
`nfirst == 1` and `nfree == 2` it had before the `free`. -/
theorem zero_unit_size_reuse_does_not_restore :
    nullPool.pblock = [] ∧ nullPool.nunitsize = 0 ∧
    1 ≤ nullPool.ninitsize ∧ nullPool.ninitsize ≤ 65536 ∧
    1 ≤ nullPool.ngrowsize ∧ nullPool.ngrowsize ≤ 65536 ∧
    ∃ p live a b b2, Reachable nullPool p live ∧ a ∈ live ∧ p.pblock = [b] ∧
      (p.free a).pblock = p.pblock ∧ ((p.free a).allocate 1 none).1 = some a ∧
      ((p.free a).allocate 1 none).2.pblock = [b2] ∧
      b.nfirst = 1 ∧ b.nfree = 2 ∧ b2.nfirst = 2 ∧ b2.nfree = 1 := by
  have e : (allocRun nullPool (onlyFirst (zeroed 4096)) 1).1.free 4096 =
      (allocRun nullPool (onlyFirst (zeroed 4096)) 1).1 := by
    show ({ (allocRun nullPool (onlyFirst (zeroed 4096)) 1).1 with
      pblock := memorypool.freeChain _ 4096 _ } : memorypool) = _
    rw [freeChain_not_owned (by decide)]
  refine ⟨rfl, by decide, by decide, by decide, by decide, by decide,
    (allocRun nullPool (onlyFirst (zeroed 4096)) 1).1,
    (allocRun nullPool (onlyFirst (zeroed 4096)) 1).2, 4096,
    memoryblock.ctor 0 3 4096 (fun _ => 0),
    ((memoryblock.ctor 0 3 4096 (fun _ => 0)).take 0).2,
    allocRun_onlyFirst_reachable _ _ rfl 1, by decide, rfl, by rw [e], ?_, ?_, ?_⟩
  · rw [e]; decide
  · rw [e]; rfl
  · decide

/-- What `free(a)` followed by `allocate` does for an address `a` held, when
the block of `a` stays in the chain and the blocks in front of it are full:
the block found, and the block after the two calls. -/
theorem GenInv.free_then_allocate {p : memorypool} {live : List Int} (h : GenInv p live)
    {a : Int} (ha : a ∈ live) {num : Nat} (hnum : 0 < num) (heap : Option (Int × Arena))
    (hkept : ∃ b ∈ (p.free a).pblock, b.owns a)
    (hfront : ∀ pre b post, p.pblock = pre ++ b :: post → b.owns a → ∀ c ∈ pre, c.nfree = 0) :
    ∃ pre b post, p.pblock = pre ++ b :: post ∧ b.owns a ∧ (∀ c ∈ pre, ¬ c.owns a) ∧
      (p.free a).allocate num heap =
        (some a, { p.free a with
          pblock := pre ++ ((b.release p.nunitsize a).take p.nunitsize).2 :: post }) ∧
      ((b.release p.nunitsize a).take p.nunitsize).2.nfree = b.nfree ∧
      (b.release p.nunitsize a).nfirst * p.nunitsize = a - b.adata ∧
      0 ≤ a - b.adata ∧ a - b.adata < 2147483648 := by
  have hus := h.sized.unit
  have hus0 : 0 < p.nunitsize := by omega
  obtain ⟨pre, b, post, cnt, i, hsplit, hpre, hbo, hbi, hi, hai, hfirst, hnf, hcase⟩ :=
    h.cases_of_free_gen ha
  have hap := h.apart
  rw [hsplit] at hap
  rcases hcase with ⟨_, _, hch⟩ | ⟨hnfull, hbi', hch⟩
  · exfalso
    obtain ⟨c, hc, hco⟩ := hkept
    rw [hch] at hc
    rcases List.mem_append.mp hc with hc' | hc'
    · exact hpre c hc' hco
    · exact memoryblock.apart_owns (apart_split hap c (List.mem_append.mpr (Or.inr hc'))) hco hbo
  · have hz := hfront pre b post hsplit hbo
    have h0 := hbi.nfree_nonneg
    have hc := hbi.cnt_lt hus
    have hne : (b.release p.nunitsize a).nfree ≠ 0 := by rw [hnf]; omega
    have ht : memorypool.takeUnit (p.free a).nunitsize (p.free a).pblock =
        some (((b.release p.nunitsize a).take p.nunitsize).1,
          pre ++ ((b.release p.nunitsize a).take p.nunitsize).2 :: post) := by
      rw [hch]; exact takeUnit_split pre _ post hz hne
    have h1 := unit_lt hus0 hi
    have h2 := unit_nonneg (le_of_lt hus0) i
    have hsz := hbi.size_lt
    have hres : ((b.release p.nunitsize a).take p.nunitsize).1 = a := by
      have hw : wrap32 ((i : Int) * p.nunitsize) = (i : Int) * p.nunitsize :=
        wrap32_of_range (by omega) (by omega)
      simp only [memoryblock.take]
      rw [hfirst, hw, hai]
      rfl
    refine ⟨pre, b, post, hsplit, hbo, hpre, ?_, ?_, ?_, ?_, ?_⟩
    · rw [allocate_of_takeUnit hnum heap ht, hres]
    · show wrap32 ((b.release p.nunitsize a).nfree - 1) = b.nfree
      rw [hnf, show b.nfree + 1 - 1 = b.nfree from by ring]
      exact wrap32_of_range (by omega) (by omega)
    · rw [hfirst, hai]; ring
    · rw [hai]; omega
    · rw [hai]; omega

/-! ## C2: reuse of a freed address -/

/-- C2, counterexample.  First, the pool of `main` after four calls of
`allocate` has a full first block at 4096 and, in front of it, a second block
at 8192 with 9 free units.  The caller holds 4104; after `free(4104)` the next
`allocate` returns 8200, a unit of the block in front.  Second, the pool of
`main` after one call of `allocate`: the caller holds 4096, the only address
held in the block, so `free(4096)` takes the block out of the chain, and the
next `allocate`, which gets storage at 8192, returns 8192. -/
theorem reuse_fails_behind_free_units_and_after_reclaim :
    (∃ p live, Reachable demoPool p live ∧ (4104 : Int) ∈ live ∧
      ((p.free 4104).allocate 1 none).1 = some 8200) ∧
    (∃ p live, Reachable demoPool p live ∧ (4096 : Int) ∈ live ∧
      (p.free 4096).heapOK (zeroed 8192) ∧
      ((p.free 4096).allocate 1 (zeroed 8192)).1 = some 8192) :=
  ⟨⟨(allocRun demoPool demoHeaps 4).1, (allocRun demoPool demoHeaps 4).2,
    allocRun_reachable _ _ 4 demoHeaps_ok, by decide, by decide⟩,
   ⟨(allocRun demoPool demoHeaps 1).1, (allocRun demoPool demoHeaps 1).2,
    allocRun_reachable _ _ 1 (fun j hj => demoHeaps_ok j (by omega)), by decide,
    heapOK_of_nil (List.eq_nil_of_length_eq_zero (by decide)) _, by decide⟩⟩

/-- C2, amended: for a unit size of at least 2, unit counts of at least 1 and
block sizes below 2^31, in every state of a run from the empty pool and for
every address `a` held: if after `free(a)` the block of `a` is still in the
chain, and every block in front of it in the chain has `nfree == 0`, then
the next `allocate` returns `a` again. -/
theorem free_then_allocate_returns_same (p0 p : memorypool) (live : List Int) (a : Int)
    (num : Nat) (heap : Option (Int × Arena)) (h0 : p0.pblock = []) (hs : p0.Sized)
    (hr : Reachable p0 p live) (ha : a ∈ live) (hnum : 0 < num)
    (hkept : ∃ b ∈ (p.free a).pblock, b.owns a)
    (hfront : ∀ pre b post, p.pblock = pre ++ b :: post → b.owns a → ∀ c ∈ pre, c.nfree = 0) :
    ((p.free a).allocate num heap).1 = some a := by
  obtain ⟨pre, b, post, _, _, _, e, _⟩ :=
    (hr.gen h0 hs).free_then_allocate ha hnum heap hkept hfront
  rw [e]

/-- C2, witness: the pool of `main` after three calls of `allocate`, with
4104 freed and allocated again. -/
theorem free_then_allocate_returns_same_witness :
    (((allocRun demoPool demoHeaps 3).1.free 4104).allocate 1 none).1 = some 4104 :=
  free_then_allocate_returns_same demoPool (allocRun demoPool demoHeaps 3).1
    (allocRun demoPool demoHeaps 3).2 4104 1 none rfl demoPool_sized
    (allocRun_reachable _ _ 3 (fun j hj => demoHeaps_ok j (by omega))) (by decide) (by decide)
    (by decide)
    (by
      intro pre b post hsplit hbo c hc
      have hl : ((allocRun demoPool demoHeaps 3).1.pblock).length = 1 := by decide
      rw [hsplit] at hl
      cases pre with
      | nil => cases hc
      | cons d pre => simp at hl)

/-- Freeing, one after the other, all the addresses held in one block. -/
theorem GenInv.free_all_of_block {p : memorypool} {live : List Int} (h : GenInv p live)
    {b : memoryblock} (hb : b ∈ p.pblock) (l : List Int) (hl : l.Perm (b.heldIn live)) :
    (∀ l1 x l2, l = l1 ++ x :: l2 → ∃ b' ∈ (freeRun p l1).pblock, b'.adata = b.adata) ∧
    (∀ b' ∈ (freeRun p l).pblock, b'.adata ≠ b.adata) := by
  induction l generalizing p live b with
  | nil =>
    exfalso
    obtain ⟨cnt, hg⟩ := h.blocks b hb
    exact hg.some_held hl.symm.eq_nil
  | cons a l' ih =>
    have hus := h.sized.unit
    have hus0 : 0 < p.nunitsize := by omega
    have haL : a ∈ b.heldIn live := hl.subset (List.mem_cons_self _ _)
    obtain ⟨hal, hao⟩ := mem_heldIn.mp haL
    obtain ⟨pre, b1, post, cnt, i, hsplit, hpre, hbo, hbi, hi, hai, hfirst, hnf, hcase⟩ :=
      h.cases_of_free_gen hal
    have hap := h.apart
    rw [hsplit] at hap
    have hbb : b = b1 := by
      rw [hsplit] at hb
      rcases mem_split_cases hb with e | hb'
      · exact e
      · exact absurd hbo (fun hx => memoryblock.apart_owns (apart_split hap b hb') hao hx)
    subst hbb
    have hl' : l'.Perm ((b.heldIn live).erase a) := by
      have := hl.erase a
      rwa [List.erase_cons_head] at this
    have hhead : ∀ l1 x l2, a :: l' = l1 ++ x :: l2 → l1 = [] →
        ∃ b' ∈ (freeRun p l1).pblock, b'.adata = b.adata := by
      intro l1 x l2 _ e
      subst e
      exact ⟨b, hb, rfl⟩
    rcases hcase with ⟨_, hnil, hch⟩ | ⟨_, hbi', hch⟩
    · have hl'nil : l' = [] := by
        rw [hnil] at hl'
        exact hl'.eq_nil
      subst hl'nil
      refine ⟨?_, ?_⟩
      · intro l1 x l2 e
        cases l1 with
        | nil => exact hhead [] x l2 e rfl
        | cons y l1' =>
          simp only [List.cons_append, List.cons.injEq] at e
          have := congrArg List.length e.2
          simp only [List.length_nil, List.length_append, List.length_cons] at this
          omega
      · intro b' hb'
        simp only [freeRun] at hb'
        rw [hch] at hb'
        have hb'm : b' ∈ p.pblock := by
          rw [hsplit]; simp only [List.mem_append, List.mem_cons] at hb' ⊢; tauto
        obtain ⟨cnt', hbi2⟩ := h.blocks b' hb'm
        have h1 := hbi2.nsize_pos_gen hus0
        have h2 := hbi.nsize_pos_gen hus0
        have h3 := apart_split hap b' hb'
        unfold memoryblock.apart at h3
        omega
    · have hinv' := h.step_free_gen hal
      have hb1' : b.release p.nunitsize a ∈ (p.free a).pblock := by rw [hch]; simp
      have hl2 : l'.Perm ((b.release p.nunitsize a).heldIn (live.erase a)) := by
        rw [heldIn_congr (release_adata _ b a) (release_nsize _ b a), heldIn_erase_pos hbo]
        exact hl'
      obtain ⟨ih1, ih2⟩ := ih hinv' hb1' hl2
      refine ⟨?_, ?_⟩
      · intro l1 x l2 e
        cases l1 with
        | nil => exact hhead [] x l2 e rfl
        | cons y l1' =>
          simp only [List.cons_append, List.cons.injEq] at e
          rw [← e.1, freeRun_cons]
          exact ih1 l1' x l2 e.2
      · intro b' hb'
        rw [freeRun_cons] at hb'
        exact ih2 b' hb'

theorem GenInv.chain_nil_of_live_nil {p : memorypool} (h : GenInv p []) : p.pblock = [] := by
  cases hc : p.pblock with
  | nil => rfl
  | cons b bs =>
    exfalso
    obtain ⟨cnt, hg⟩ := h.blocks b (by rw [hc]; simp)
    exact hg.some_held rfl

/-! ## C4: full reclamation -/

/-- C4, counterexample: the pool for a type of 2^32 bytes, whose `int` unit
size is 0, with the default counts.  The first `allocate` returns 4096 and
leaves a block with `nsize == 0`; `free(4096)` finds no block, so after it no
address is held and the block is still in the chain. -/
theorem zero_unit_size_block_is_never_reclaimed :
    nullPool.pblock = [] ∧ nullPool.nunitsize = 0 ∧
    ∃ q, Reachable nullPool q [] ∧ q.pblock.length = 1 :=
  ⟨rfl, by decide, (allocRun nullPool (onlyFirst (zeroed 4096)) 1).1.free 4096,
    Reachable.free 4096 (allocRun_onlyFirst_reachable nullPool (zeroed 4096) rfl 1) (by decide),
    by decide⟩

/-- C4, amended: for a unit size of at least 2, unit counts of at least 1 and
block sizes below 2^31, in every state of a run from the empty pool, for
every block of the chain and every list `l` of the addresses held in that
block, in any order (an address held twice is listed twice): the list is not
empty, and when `free` is called on the addresses of `l` in turn, the block
is in the chain before each of the calls (so after each of the first
`k - 1`), and it is not in the chain after the last one.  And a state in
which no address is held has an empty chain. -/
theorem block_leaves_chain_at_last_free (p0 p : memorypool) (live : List Int) (b : memoryblock)
    (l : List Int) (h0 : p0.pblock = []) (hs : p0.Sized) (hr : Reachable p0 p live)
    (hb : b ∈ p.pblock) (hl : l.Perm (b.heldIn live)) :
    l ≠ [] ∧
    (∀ l1 x l2, l = l1 ++ x :: l2 → ∃ b' ∈ (freeRun p l1).pblock, b'.adata = b.adata) ∧
    (∀ b' ∈ (freeRun p l).pblock, b'.adata ≠ b.adata) ∧
    (∀ q, Reachable p0 q [] → q.pblock = []) := by
  have hinv := hr.gen h0 hs
  obtain ⟨h1, h2⟩ := hinv.free_all_of_block hb l hl
  refine ⟨?_, h1, h2, fun q hq => (hq.gen h0 hs).chain_nil_of_live_nil⟩
  rintro rfl
  obtain ⟨cnt, hg⟩ := hinv.blocks b hb
  exact hg.some_held hl.symm.eq_nil

/-- C4, witness: the pool of `main` after three calls of `allocate`, whose
block at 4096 has its three units held; they are freed in the order 4104,
4096, 4112. -/
theorem block_leaves_chain_at_last_free_witness :
    ∃ b ∈ (allocRun demoPool demoHeaps 3).1.pblock,
      [4104, 4096, 4112].Perm (b.heldIn (allocRun demoPool demoHeaps 3).2) ∧
      ([4104, 4096, 4112] ≠ ([] : List Int) ∧
      (∀ l1 x l2, [4104, 4096, 4112] = l1 ++ x :: l2 →
        ∃ b' ∈ (freeRun (allocRun demoPool demoHeaps 3).1 l1).pblock, b'.adata = b.adata) ∧
      (∀ b' ∈ (freeRun (allocRun demoPool demoHeaps 3).1 [4104, 4096, 4112]).pblock,
        b'.adata ≠ b.adata) ∧
      (∀ q, Reachable demoPool q [] → q.pblock = [])) := by
  obtain ⟨b, hb, h1⟩ : ∃ b ∈ (allocRun demoPool demoHeaps 3).1.pblock,
      b.heldIn (allocRun demoPool demoHeaps 3).2 = [4112, 4104, 4096] := by decide
  have hp : [4104, 4096, 4112].Perm (b.heldIn (allocRun demoPool demoHeaps 3).2) := by
    rw [h1]; decide
  exact ⟨b, hb, hp, block_leaves_chain_at_last_free demoPool (allocRun demoPool demoHeaps 3).1
    (allocRun demoPool demoHeaps 3).2 b [4104, 4096, 4112] rfl demoPool_sized
    (allocRun_reachable _ _ 3 (fun j hj => demoHeaps_ok j (by omega))) hb hp⟩

/-! ## C8: the first block is created by the first `allocate` -/

/-- C8: a pool made by the constructor has an empty chain; and in any pool
whose chain is empty, with `ninitsize` an `int` of at least 1, a call of
`allocate` that gets storage at `a` leaves a chain of exactly one block, whose
size is the `int` product `nunitsize * ninitsize` of line 17, with
`ninitsize - 1` free units, the first of them unit 1, and returns `a`, the
address of the arena (unit 0).  When the product is in the range of `int`
(otherwise line 17 has no defined value) the size is `nunitsize * ninitsize`,
that is `ninitsize` units when the unit size is at least 1. -/
theorem first_allocate_creates_first_block (p : memorypool) (num : Nat) (a : Int) (raw : Arena)
    (sizeofT : Nat) (g n : Int) (hnum : 0 < num) (hp : p.pblock = [])
    (hn : 1 ≤ p.ninitsize) (hn2 : p.ninitsize < 2147483648) :
    (memorypool.ctor sizeofT g n).pblock = [] ∧
    ∃ b, p.allocate num (some (a, raw)) = (some a, { p with pblock := [b] }) ∧
      b.nsize = wrap32 (p.nunitsize * p.ninitsize) ∧ b.nfree = p.ninitsize - 1 ∧
      b.nfirst = 1 ∧ b.adata = a ∧
      (-2147483648 ≤ p.nunitsize * p.ninitsize → p.nunitsize * p.ninitsize < 2147483648 →
        b.nsize = p.nunitsize * p.ninitsize ∧
        (1 ≤ p.nunitsize → (b.units p.nunitsize : Int) = p.ninitsize)) := by
  have hn0 : num ≠ 0 := by omega
  refine ⟨rfl, memoryblock.ctor p.nunitsize p.ninitsize a raw, ?_, rfl, ?_, rfl, rfl, ?_⟩
  · simp [memorypool.allocate, hn0, hp]
  · exact wrap32_of_range (by omega) (by omega)
  · intro hsz0 hsz
    have hs : (memoryblock.ctor p.nunitsize p.ninitsize a raw).nsize =
        p.nunitsize * p.ninitsize := wrap32_of_range hsz0 hsz
    refine ⟨hs, ?_⟩
    intro hus
    unfold memoryblock.units
    rw [hs, Int.mul_ediv_cancel_left _ (by omega : p.nunitsize ≠ 0)]
    exact Int.toNat_of_nonneg (by omega)

/-- C8, witness: the pool of `main` (8 byte units, first block of 3). -/
theorem first_allocate_creates_first_block_witness :
    (memorypool.ctor 4 10 3).pblock = [] ∧
    ∃ b, demoPool.allocate 1 (some (4096, fun _ => 0)) =
        (some 4096, { demoPool with pblock := [b] }) ∧
      b.nsize = wrap32 (demoPool.nunitsize * demoPool.ninitsize) ∧
      b.nfree = demoPool.ninitsize - 1 ∧ b.nfirst = 1 ∧ b.adata = 4096 ∧
      (-2147483648 ≤ demoPool.nunitsize * demoPool.ninitsize →
        demoPool.nunitsize * demoPool.ninitsize < 2147483648 →
        b.nsize = demoPool.nunitsize * demoPool.ninitsize ∧
        (1 ≤ demoPool.nunitsize → (b.units demoPool.nunitsize : Int) = demoPool.ninitsize)) :=
  first_allocate_creates_first_block demoPool 1 4096 (fun _ => 0) 4 10 3 (by decide) rfl
    (by decide) (by decide)

/-! ## C3: the first growth -/

/-- C3, counterexample: the pool for a type of 2^32 bytes, whose `int` unit
size is 0, with the default counts 3 and 10.  The first three calls of
`allocate` all return 4096, the address of the arena of the first block, which
has `nsize == 0`: the address does not pass the test `pfree >= adata &&
pfree < adata + nsize` of lying in the block. -/
theorem zero_unit_size_addresses_lie_in_no_block :
    nullPool.pblock = [] ∧ nullPool.nunitsize = 0 ∧ 1 ≤ nullPool.ninitsize ∧
    1 ≤ nullPool.ngrowsize ∧
    ∃ b0, (allocRun nullPool demoHeaps 3).1.pblock = [b0] ∧
      (allocRun nullPool demoHeaps 3).2 = [4096, 4096, 4096] ∧ b0.nsize = 0 ∧
      ¬ b0.owns 4096 :=
  ⟨rfl, by decide, by decide, by decide, _, rfl, by decide, by decide, by decide⟩

/-- C3, amended: for a unit size of at least 2, `ninitsize = n ≥ 1`,
`ngrowsize ≥ 1` and block sizes `nunitsize * ninitsize`, `nunitsize *
ngrowsize` below 2^31, the first `n` calls of `allocate` on the empty pool
work on a chain of one block, of `n` units, and return `n` addresses that all
lie in its arena; call `n + 1` puts exactly one new block, of `ngrowsize`
units, in front of it and returns an address that lies in the arena of the
new block, in no unit of the first block, and is none of the addresses
returned before (`::operator new` answers call `n + 1` with storage that
overlaps no block of the chain). -/
theorem first_growth_after_initial_units (p : memorypool) (heaps : Nat → Option (Int × Arena))
    (n : Nat) (a1 : Int) (raw1 : Arena) (a2 : Int) (raw2 : Arena)
    (hp : p.pblock = []) (hus : 2 ≤ p.nunitsize) (hn : p.ninitsize = n) (hn1 : 1 ≤ n)
    (hg : 1 ≤ p.ngrowsize) (hsz : p.nunitsize * p.ninitsize < 2147483648)
    (hsg : p.nunitsize * p.ngrowsize < 2147483648)
    (h1 : heaps 0 = some (a1, raw1)) (h2 : heaps n = some (a2, raw2))
    (hok : (allocRun p heaps n).1.heapOK (heaps n)) :
    (∀ m, 1 ≤ m → m ≤ n → ∃ b, (allocRun p heaps m).1.pblock = [b] ∧ b.adata = a1 ∧
      b.nsize = p.nunitsize * n) ∧
    ∃ b0 b1, (allocRun p heaps n).1.pblock = [b0] ∧ b0.adata = a1 ∧
      b0.nsize = p.nunitsize * n ∧ (allocRun p heaps n).2.length = n ∧
      (∀ x ∈ (allocRun p heaps n).2, b0.owns x) ∧
      (allocRun p heaps (n + 1)).1.pblock = [b1, b0] ∧ b1.adata = a2 ∧
      b1.nsize = p.nunitsize * p.ngrowsize ∧
      (allocRun p heaps (n + 1)).2 = a2 :: (allocRun p heaps n).2 ∧
      b1.owns a2 ∧ ¬ b0.owns a2 ∧ a2 ∉ (allocRun p heaps n).2 := by
  have hus0 : 0 < p.nunitsize := by omega
  have hgpos : 0 < p.nunitsize * p.ngrowsize := mul_pos hus0 (by omega)
  have hgle : p.ngrowsize ≤ p.nunitsize * p.ngrowsize := by nlinarith
  constructor
  · intro m hm1 hmn
    obtain ⟨f, hrun, _⟩ := allocRun_first_block hp hus hsz heaps a1 raw1 h1 m hm1 (by omega)
    rw [hrun]
    exact ⟨_, rfl, rfl, by simp [hn]⟩
  · obtain ⟨f, hrun, _⟩ := allocRun_first_block hp hus hsz heaps a1 raw1 h1 n hn1 (by omega)
    have hns : wrap32 (p.nunitsize * p.ngrowsize) = p.nunitsize * p.ngrowsize :=
      wrap32_of_range (by omega) hsg
    have hz : p.ninitsize - (n : Int) = 0 := by omega
    have hok' := hok a2 raw2 h2
    rw [hrun] at hok'
    have hap := hok' _ (List.mem_singleton_self _)
    simp only [hns] at hap
    have hall : ∀ x ∈ firstUnits a1 p.nunitsize n,
        a1 ≤ x ∧ x < a1 + p.nunitsize * p.ninitsize := by
      intro x hx
      obtain ⟨j, hj, rfl⟩ := (mem_firstUnits_iff _ _ _ _).mp hx
      have hj' : j % 65536 < p.ninitsize.toNat := by omega
      have hcast : ((p.ninitsize.toNat : Nat) : Int) = p.ninitsize :=
        Int.toNat_of_nonneg (by omega)
      have h3 := unit_lt hus0 hj'
      rw [hcast] at h3
      have h4 := unit_nonneg (le_of_lt hus0) (j % 65536)
      omega
    refine ⟨_, memoryblock.ctor p.nunitsize p.ngrowsize a2 raw2, by rw [hrun], rfl, by simp [hn],
      by rw [hrun]; exact length_firstUnits _ _ _, ?_, ?_, rfl, hns, ?_, ?_, ?_, ?_⟩
    · intro x hx
      rw [hrun] at hx
      exact hall x hx
    · simp only [allocRun, hrun, h2, memorypool.allocate, memorypool.takeUnit, hz]
      simp
    · simp only [allocRun, hrun, h2, memorypool.allocate, memorypool.takeUnit, hz]
      simp [liveAfter]
    · unfold memoryblock.owns
      simp only [memoryblock.ctor, hns]
      omega
    · unfold memoryblock.owns
      simp only
      omega
    · rw [hrun]
      intro hmem
      have := hall a2 hmem
      omega

/-- C3, witness: the pool of `main` (first block of 3 units at 4096, growth
block of 10 units at 8192). -/
theorem first_growth_after_initial_units_witness :
    (∀ m, 1 ≤ m → m ≤ 3 → ∃ b, (allocRun demoPool demoHeaps m).1.pblock = [b] ∧ b.adata = 4096 ∧
      b.nsize = demoPool.nunitsize * (3 : Nat)) ∧
    ∃ b0 b1, (allocRun demoPool demoHeaps 3).1.pblock = [b0] ∧ b0.adata = 4096 ∧
      b0.nsize = demoPool.nunitsize * (3 : Nat) ∧ (allocRun demoPool demoHeaps 3).2.length = 3 ∧
      (∀ x ∈ (allocRun demoPool demoHeaps 3).2, b0.owns x) ∧
      (allocRun demoPool demoHeaps (3 + 1)).1.pblock = [b1, b0] ∧ b1.adata = 8192 ∧
      b1.nsize = demoPool.nunitsize * demoPool.ngrowsize ∧
      (allocRun demoPool demoHeaps (3 + 1)).2 = 8192 :: (allocRun demoPool demoHeaps 3).2 ∧
      b1.owns 8192 ∧ ¬ b0.owns 8192 ∧ (8192 : Int) ∉ (allocRun demoPool demoHeaps 3).2 :=
  first_growth_after_initial_units demoPool demoHeaps 3 4096 (fun _ => 0) 8192 (fun _ => 0)
    rfl (by decide) (by decide) (by decide) (by decide) (by decide) (by decide) rfl rfl
    (demoHeaps_ok 3 (by decide))

theorem free_eq_self_of_not_owned {p : memorypool} {x : Int}
    (h : ∀ b ∈ p.pblock, ¬ b.owns x) : p.free x = p := by
  simp only [memorypool.free, freeChain_not_owned h]

/-! ## C7: `free` of an address that is not held -/

/-- C7, counterexample.  First, a pool whose first block has 2 units: the
caller holds 4104 (unit 1) and has already freed 4096 (unit 0); a second
`free(4096)` raises `nfree` to 2, the block is taken for completely free and
leaves the chain, and the unit at 4104, still held, belongs to no block.
Second, the pool of `main` after three calls of `allocate` and `free(4112)`:
the caller holds 4096 and 4104; a second `free(4112)` leaves the block in the
chain with `nfree == 2`, the `free(4104)` that follows takes the block for
completely free, and an `allocate` that gets storage at 4096 returns 4096,
which the caller still holds.  Third, a pool whose first block has 65537
units, after 65536 calls of `allocate`: `free(0)` changes nothing, and the
next `allocate` returns 4096, which the caller holds. -/
theorem double_free_releases_held_unit :
    (∃ p live, Reachable pairPool p live ∧ (4096 : Int) ∉ live ∧ (4104 : Int) ∈ live ∧
      (∃ b ∈ p.pblock, b.owns 4104) ∧ ¬ ∃ b ∈ (p.free 4096).pblock, b.owns 4104) ∧
    (∃ p live, Reachable demoPool p live ∧ (4112 : Int) ∉ live ∧ (4104 : Int) ∈ live ∧
      (4096 : Int) ∈ live.erase 4104 ∧
      (∃ b ∈ p.pblock, ∃ i ∈ b.freeList p.nunitsize, 4112 = b.adata + i * p.nunitsize) ∧
      (∃ c ∈ (p.free 4112).pblock, c.owns 4112) ∧
      ((p.free 4112).free 4104).pblock.length = 0 ∧
      (((p.free 4112).free 4104).allocate 1 (zeroed 4096)).1 = some 4096) ∧
    (∃ p live, Reachable bigPool p live ∧ (∀ b ∈ p.pblock, ¬ b.owns 0) ∧
      ((p.free 0).allocate 1 none).1 = some 4096 ∧ (4096 : Int) ∈ live) := by
  refine ⟨?_, ?_, ?_⟩
  · exact ⟨(allocRun pairPool (onlyFirst (zeroed 4096)) 2).1.free 4096,
      (allocRun pairPool (onlyFirst (zeroed 4096)) 2).2.erase 4096,
      Reachable.free 4096 (allocRun_onlyFirst_reachable _ _ rfl 2) (by decide),
      by decide, by decide, by decide, by decide⟩
  · exact ⟨(allocRun demoPool (onlyFirst (zeroed 4096)) 3).1.free 4112,
      (allocRun demoPool (onlyFirst (zeroed 4096)) 3).2.erase 4112,
      Reachable.free 4112 (allocRun_onlyFirst_reachable _ _ rfl 3) (by decide),
      by decide, by decide, by decide, by decide, by decide, by decide, by decide⟩
  · obtain ⟨f, hrun, hf⟩ := allocRun_first_block (p := bigPool) rfl (by decide) (by decide)
      (onlyFirst (zeroed 4096)) 4096 (fun _ => 0) rfl 65536 (by omega) (by decide)
    have hf0 : f = 0 := by
      have := hf (by decide)
      simpa using this
    have hout : ∀ b ∈ (allocRun bigPool (onlyFirst (zeroed 4096)) 65536).1.pblock,
        ¬ b.owns 0 := by
      intro b hb
      rw [hrun] at hb
      rw [List.mem_singleton] at hb
      subst hb
      intro h
      have := h.1
      norm_num at this
    have e : (allocRun bigPool (onlyFirst (zeroed 4096)) 65536).1.free 0 =
        (allocRun bigPool (onlyFirst (zeroed 4096)) 65536).1 := free_eq_self_of_not_owned hout
    refine ⟨(allocRun bigPool (onlyFirst (zeroed 4096)) 65536).1,
      (allocRun bigPool (onlyFirst (zeroed 4096)) 65536).2,
      allocRun_onlyFirst_reachable _ _ rfl _, hout, ?_, ?_⟩
    · rw [e]
      simp only [hrun, hf0]
      decide
    · simp only [hrun]
      have := mem_firstUnits 4096 bigPool.nunitsize (j := 0) (m := 65536) (by omega)
      simpa using this

/-- C7, amended: in a pool whose parameters fit (unit size at least 2, unit
counts between 1 and 65536, block sizes below 2^31), in every state of a run
from the empty pool, let `x` be an address that lies in the arena of no
block, or the address of a unit on the free list of a block (a double free)
such that the block is still in the chain after `free(x)`.  Then no caller
holds `x`, and `free(x)` releases no unit that is held: after the call every
address held still lies in a block of the chain, and the next `allocate`
returns none of them.  When `x` lies in the arena of no block the pool after
the call is the pool before it. -/
theorem invalid_free_releases_no_held_unit (p0 p : memorypool) (live : List Int) (x : Int)
    (h0 : p0.pblock = []) (hf : p0.Fits) (hr : Reachable p0 p live)
    (hcase : (∀ b ∈ p.pblock, ¬ b.owns x) ∨
      ((∃ b ∈ p.pblock, ∃ i ∈ b.freeList p.nunitsize, x = b.adata + i * p.nunitsize) ∧
        ∃ c ∈ (p.free x).pblock, c.owns x)) :
    x ∉ live ∧
    ((∀ b ∈ p.pblock, ¬ b.owns x) → p.free x = p) ∧
    (∀ u ∈ live, ∃ b ∈ (p.free x).pblock, b.owns u) ∧
    ∀ num heap r, 0 < num → (p.free x).heapOK heap →
      ((p.free x).allocate num heap).1 = some r → r ∉ live := by
  have hinv := hr.inv h0 hf
  have hus := hinv.fits.unit
  have hus0 : 0 < p.nunitsize := by omega
  have hnoop : (∀ b ∈ p.pblock, ¬ b.owns x) → p.free x = p := free_eq_self_of_not_owned
  rcases hcase with hout | ⟨⟨b, hb, i, hi, hxi⟩, hkept⟩
  · rw [hnoop hout]
    refine ⟨?_, fun _ => rfl, hinv.owned, ?_⟩
    · intro ha
      obtain ⟨b, hb, hbo⟩ := hinv.owned x ha
      exact hout b hb hbo
    · intro num heap r hnum hheap hx
      have hnd := (hinv.step_allocate hnum hheap).nodup
      rw [hx] at hnd
      exact (List.nodup_cons.mp hnd).1
  · obtain ⟨cnt, fl, hbi, hlen⟩ := hinv.blocks b hb
    rw [hbi.freeList_eq] at hi
    obtain ⟨j, hj, rfl⟩ := List.mem_map.mp hi
    have hjc := hbi.lt j hj
    have hbo : b.owns x := by rw [hxi]; exact hbi.owns_unit hus0 hjc
    have hxl : x ∉ live := by
      intro hx
      rw [hxi] at hx
      exact (hbi.held j hjc).mp hx hj
    obtain ⟨pre, b1, post, hsplit, hpre, hbo1⟩ :=
      exists_first (fun c => c.owns x) p.pblock ⟨b, hb, hbo⟩
    have hap := hinv.apart
    rw [hsplit] at hap
    have hbb : b = b1 := by
      rw [hsplit] at hb
      rcases mem_split_cases hb with e | hb'
      · exact e
      · exact absurd hbo1 (fun hx => memoryblock.apart_owns (apart_split hap b hb') hbo hx)
    subst hbb
    have hfc : (p.free x).pblock = pre ++
        (if wrap32 ((b.release p.nunitsize x).nfree * p.nunitsize) =
            (b.release p.nunitsize x).nsize
          then post else b.release p.nunitsize x :: post) := by
      simp only [memorypool.free, hsplit]
      exact freeChain_split pre b post hpre hbo
    have hch : (p.free x).pblock = pre ++ b.release p.nunitsize x :: post := by
      rw [hfc]
      split
      · exfalso
        rename_i ht
        obtain ⟨c, hc, hco⟩ := hkept
        rw [hfc, if_pos ht] at hc
        rcases List.mem_append.mp hc with hc' | hc'
        · exact hpre c hc' hco
        · exact memoryblock.apart_owns
            (apart_split hap c (List.mem_append.mpr (Or.inr hc'))) hco hbo
      · rfl
    have h1 := unit_lt hus0 hjc
    have h2 := unit_nonneg (le_of_lt hus0) j
    have hsz := hbi.size_lt
    have hcl := hbi.cnt_le
    have hfirst : (b.release p.nunitsize x).nfirst = (j : Int) := by
      simp only [memoryblock.release]
      rw [hxi, show b.adata + (j : Int) * p.nunitsize - b.adata = (j : Int) * p.nunitsize
        from by ring, Int.mul_tdiv_cancel _ (by omega : p.nunitsize ≠ 0)]
      exact wrap32_of_range (by omega) (by omega)
    refine ⟨hxl, hnoop, ?_, ?_⟩
    · intro u hu
      obtain ⟨d, hd, hdo⟩ := hinv.owned u hu
      rw [hsplit] at hd
      rw [hch]
      rcases mem_split_cases hd with rfl | hd
      · exact ⟨d.release p.nunitsize x, by simp, hdo⟩
      · refine ⟨d, ?_, hdo⟩
        simp only [List.mem_append, List.mem_cons] at hd ⊢; tauto
    · intro num heap r hnum hheap hres hrl
      obtain ⟨d, hd, hdo⟩ := hinv.owned r hrl
      have hd' : ∃ d' ∈ (p.free x).pblock, d'.adata = d.adata ∧ d'.nsize = d.nsize := by
        rw [hsplit] at hd
        rw [hch]
        rcases mem_split_cases hd with rfl | hd
        · exact ⟨d.release p.nunitsize x, by simp, rfl, rfl⟩
        · refine ⟨d, ?_, rfl, rfl⟩
          simp only [List.mem_append, List.mem_cons] at hd ⊢; tauto
      rcases allocate_cases (p.free x) hnum heap with
        ⟨_, _, e⟩ | ⟨a, raw, _, hnil, _⟩ | ⟨a, raw, e0, _, _, e⟩ |
        ⟨pre2, c, post2, hsplit2, _, hne, e⟩
      · rw [e] at hres; cases hres
      · rw [hch] at hnil
        simp at hnil
      · rw [e] at hres
        simp only [Option.some.injEq] at hres
        subst hres
        obtain ⟨d', hd'm, hda, hds⟩ := hd'
        have := hheap a raw e0 d' hd'm
        rw [hda, hds] at this
        have hg : wrap32 ((p.free x).nunitsize * (p.free x).ngrowsize) =
            p.nunitsize * p.ngrowsize :=
          wrap32_of_range
            (by have := mul_pos hus0 (by have := hinv.fits.grow_pos; omega : 0 < p.ngrowsize)
                show -2147483648 ≤ p.nunitsize * p.ngrowsize
                omega)
            hinv.fits.grow_size
        rw [hg] at this
        have hpos := mul_pos hus0 (by have := hinv.fits.grow_pos; omega : 0 < p.ngrowsize)
        unfold memoryblock.owns at hdo
        omega
      · rw [e] at hres
        simp only [Option.some.injEq] at hres
        have hcm : c ∈ (p.free x).pblock := by rw [hsplit2]; simp
        rw [hch] at hcm
        rcases mem_split_cases hcm with rfl | hcm
        · have : ((b.release p.nunitsize x).take (p.free x).nunitsize).1 = x := by
            have hw : wrap32 ((j : Int) * p.nunitsize) = (j : Int) * p.nunitsize :=
              wrap32_of_range (by omega) (by omega)
            show (b.release p.nunitsize x).adata +
              wrap32 ((b.release p.nunitsize x).nfirst * p.nunitsize) = x
            rw [hfirst, hw, hxi]
            rfl
          rw [this] at hres
          exact hxl (hres ▸ hrl)
        · have hcp : c ∈ p.pblock := by
            rw [hsplit]; simp only [List.mem_append, List.mem_cons] at hcm ⊢; tauto
          obtain ⟨cnt', fl', hci, _⟩ := hinv.blocks c hcp
          obtain ⟨k, rest, hfl, hpk, hk, _⟩ := hci.after_take hus hne
          have hrk : r = c.adata + (k : Int) * p.nunitsize := by
            rw [← hres]; exact hpk
          rw [hrk] at hrl
          exact (hci.held k hk).mp hrl (by rw [hfl]; exact List.mem_cons_self _ _)

/-- C7, witness: the pool of `main` after three calls of `allocate` and
`free(4112)`; the caller holds 4096 and 4104, and `free(4112)` is called a
second time. -/
theorem invalid_free_releases_no_held_unit_witness :
    ((∃ b ∈ ((allocRun demoPool demoHeaps 3).1.free 4112).pblock,
        ∃ i ∈ b.freeList ((allocRun demoPool demoHeaps 3).1.free 4112).nunitsize,
          4112 = b.adata + i * ((allocRun demoPool demoHeaps 3).1.free 4112).nunitsize) ∧
      ∃ c ∈ (((allocRun demoPool demoHeaps 3).1.free 4112).free 4112).pblock, c.owns 4112) ∧
    ((4112 : Int) ∉ (allocRun demoPool demoHeaps 3).2.erase 4112 ∧
    ((∀ b ∈ ((allocRun demoPool demoHeaps 3).1.free 4112).pblock, ¬ b.owns 4112) →
      ((allocRun demoPool demoHeaps 3).1.free 4112).free 4112 =
        (allocRun demoPool demoHeaps 3).1.free 4112) ∧
    (∀ u ∈ (allocRun demoPool demoHeaps 3).2.erase 4112,
      ∃ b ∈ (((allocRun demoPool demoHeaps 3).1.free 4112).free 4112).pblock, b.owns u) ∧
    ∀ num heap r, 0 < num →
      (((allocRun demoPool demoHeaps 3).1.free 4112).free 4112).heapOK heap →
      ((((allocRun demoPool demoHeaps 3).1.free 4112).free 4112).allocate num heap).1 = some r →
      r ∉ (allocRun demoPool demoHeaps 3).2.erase 4112) :=
  ⟨by decide, invalid_free_releases_no_held_unit demoPool
    ((allocRun demoPool demoHeaps 3).1.free 4112) ((allocRun demoPool demoHeaps 3).2.erase 4112)
    4112 rfl demoPool_fits
    (Reachable.free 4112 (allocRun_reachable _ _ 3 (fun j hj => demoHeaps_ok j (by omega)))
      (by decide))
    (Or.inr (by decide))⟩

/-! ## The log of the blocks created -/

theorem Logged.reachable {p0 p : memorypool} {live : List Int} {log : List (Int × Nat)}
    {t : Nat} (h : Logged p0 p live log t) : Reachable p0 p live := by
  induction h with
  | init => exact Reachable.init
  | allocate num heap _ hnum hheap ih => exact Reachable.allocate num heap ih hnum hheap
  | free a _ ha ih => exact Reachable.free a ih ha
  | poke a k v _ ha hk0 hk ih => exact Reachable.poke a k v ih ha hk0 hk

/-- A call of `allocate` either creates a block, which it puts in front of
the chain, or leaves in the chain blocks at the same addresses in the same
order. -/
theorem created_cases (p : memorypool) {num : Nat} (hnum : 0 < num)
    (heap : Option (Int × Arena)) :
    (p.created num heap = none ∧
      (p.allocate num heap).2.pblock.map (fun b => b.adata) = p.pblock.map (fun b => b.adata)) ∨
    (∃ a raw, heap = some (a, raw) ∧ p.created num heap = some a ∧
      (∀ c ∈ p.pblock, c.nfree = 0) ∧
      (p.allocate num heap).2.pblock.map (fun b => b.adata) =
        a :: p.pblock.map (fun b => b.adata)) := by
  have hn : num ≠ 0 := by omega
  rcases allocate_cases p hnum heap with
    ⟨e0, hall, e⟩ | ⟨a, raw, e0, hnil, e⟩ | ⟨a, raw, e0, _, hall, e⟩ |
    ⟨pre, b, post, hsplit, hpre, hne, e⟩
  · left
    refine ⟨?_, by rw [e]⟩
    simp [memorypool.created, hn, takeUnit_none.mpr hall, e0]
  · right
    refine ⟨a, raw, e0, ?_, (by rw [hnil]; intro c hc; cases hc), ?_⟩
    · simp [memorypool.created, hn, hnil, memorypool.takeUnit, e0]
    · rw [e, hnil]; rfl
  · right
    refine ⟨a, raw, e0, ?_, hall, ?_⟩
    · simp [memorypool.created, hn, takeUnit_none.mpr hall, e0]
    · rw [e]; rfl
  · left
    refine ⟨?_, ?_⟩
    · have ht : memorypool.takeUnit p.nunitsize p.pblock =
          some ((b.take p.nunitsize).1, pre ++ (b.take p.nunitsize).2 :: post) := by
        rw [hsplit]; exact takeUnit_split pre b post hpre hne
      simp [memorypool.created, hn, ht]
    · rw [e, hsplit]
      simp [memoryblock.take]

theorem bornAt_cons_self (a : Int) (t : Nat) (log : List (Int × Nat)) :
    bornAt ((a, t) :: log) a = some t := by
  simp [bornAt]

theorem bornAt_cons_ne {a x : Int} (h : x ≠ a) (t : Nat) (log : List (Int × Nat)) :
    bornAt ((a, t) :: log) x = bornAt log x := by
  have : a ≠ x := fun e => h e.symm
  simp [bornAt, this]

theorem free_adata_sublist (us a : Int) (chain : List memoryblock) :
    ((memorypool.freeChain us a chain).map (fun b => b.adata)).Sublist
      (chain.map (fun b => b.adata)) := by
  induction chain with
  | nil => exact List.Sublist.refl _
  | cons b rest ih =>
    simp only [memorypool.freeChain]
    split
    · split
      · exact List.sublist_cons_self _ _
      · exact List.Sublist.refl _
    · exact ih.cons₂ _

theorem poke_adata (addr : Int) (v : Nat) (chain : List memoryblock) :
    (memorypool.pokeChain addr v chain).map (fun b => b.adata) =
      chain.map (fun b => b.adata) := by
  induction chain with
  | nil => rfl
  | cons b rest ih =>
    simp only [memorypool.pokeChain]
    split
    · rfl
    · simp [ih]

/-- Every block of the chain is in the log, with a stamp below the number of
calls made, and the blocks of the chain are listed from the latest created to
the earliest created. -/
theorem Logged.sorted {p0 p : memorypool} {live : List Int} {log : List (Int × Nat)} {t : Nat}
    (h : Logged p0 p live log t) (h0 : p0.pblock = []) (hs : p0.Sized) :
    (∀ x ∈ p.pblock.map (fun b => b.adata), ∃ s, bornAt log x = some s ∧ s < t) ∧
    (p.pblock.map (fun b => b.adata)).Pairwise (laterAt log) := by
  induction h with
  | init =>
    rw [h0]
    exact ⟨(by intro x hx; cases hx), List.Pairwise.nil⟩
  | @allocate p live log t num heap hl hnum hheap ih =>
    obtain ⟨hall, hsort⟩ := ih
    have hinv := hl.reachable.gen h0 hs
    have hus0 : 0 < p.nunitsize := by have := hinv.sized.unit; omega
    rcases created_cases p hnum heap with ⟨e1, e2⟩ | ⟨a, raw, e0, e1, _, e2⟩
    · rw [e1, e2]
      simp only [logAfter]
      exact ⟨fun x hx => by obtain ⟨s, h1, h2⟩ := hall x hx; exact ⟨s, h1, by omega⟩, hsort⟩
    · rw [e1, e2]
      simp only [logAfter]
      have hne : ∀ x ∈ p.pblock.map (fun b => b.adata), x ≠ a := by
        intro x hx e
        obtain ⟨c, hc, rfl⟩ := List.mem_map.mp hx
        obtain ⟨cnt, hg⟩ := hinv.blocks c hc
        have h1 := hg.nsize_pos_gen hus0
        have h2 := hheap a raw e0 c hc
        have hgs := hinv.sized.grow_size
        have hgp := mul_pos hus0 (by have := hinv.sized.grow_pos; omega : 0 < p.ngrowsize)
        rw [wrap32_of_range (by omega) hgs] at h2
        have e1 : c.adata = a := e
        omega
      refine ⟨?_, List.pairwise_cons.mpr ⟨?_, ?_⟩⟩
      · intro x hx
        rcases List.mem_cons.mp hx with rfl | hx
        · exact ⟨t, bornAt_cons_self _ _ _, by omega⟩
        · obtain ⟨s, h1, h2⟩ := hall x hx
          exact ⟨s, by rw [bornAt_cons_ne (hne x hx)]; exact h1, by omega⟩
      · intro x hx
        obtain ⟨s, h1, h2⟩ := hall x hx
        exact ⟨t, s, bornAt_cons_self _ _ _, by rw [bornAt_cons_ne (hne x hx)]; exact h1, h2⟩
      · refine hsort.imp_of_mem ?_
        intro x y hx hy hxy
        obtain ⟨s, r, h1, h2, h3⟩ := hxy
        exact ⟨s, r, by rw [bornAt_cons_ne (hne x hx)]; exact h1,
          by rw [bornAt_cons_ne (hne y hy)]; exact h2, h3⟩
  | @free p live log t a hl ha ih =>
    obtain ⟨hall, hsort⟩ := ih
    have hsub := free_adata_sublist p.nunitsize a p.pblock
    exact ⟨fun x hx => by
      obtain ⟨s, h1, h2⟩ := hall x (hsub.subset hx)
      exact ⟨s, h1, by omega⟩, hsort.sublist hsub⟩
  | @poke p live log t a k v hl ha hk0 hk ih =>
    obtain ⟨hall, hsort⟩ := ih
    have e : (p.poke (a + k) v).pblock.map (fun b => b.adata) =
        p.pblock.map (fun b => b.adata) := poke_adata _ _ _
    rw [e]
    exact ⟨fun x hx => by
      obtain ⟨s, h1, h2⟩ := hall x hx
      exact ⟨s, h1, by omega⟩, hsort⟩

theorem logged_allocRun (p : memorypool) (heaps : Nat → Option (Int × Arena)) (m : Nat)
    (hok : ∀ j, j < m → (allocRun p heaps j).1.heapOK (heaps j)) :
    Logged p (allocRun p heaps m).1 (allocRun p heaps m).2 (logRun p heaps m) m := by
  induction m with
  | zero => exact Logged.init
  | succ m ih =>
    simp only [allocRun, logRun]
    exact Logged.allocate 1 _ (ih (fun j hj => hok j (by omega))) (by omega) (hok m (by omega))

/-! ## C12: the order of the chain and the block that serves `allocate` -/

/-- C12, counterexample: a pool of 8 byte units whose first block has 2 units
and whose growth blocks have 0 units.  After three calls of `allocate` and
`free(4104)` the chain holds the growth block at 8192, with `nfree == -1`,
in front of the first block at 4096, with `nfree == 1`.  The first block is
the only block with `nfree > 0`, but the next `allocate` is served by the
growth block, whose `nfree` is not 0: it returns 8200, which lies in no block
with `nfree > 0`. -/
theorem allocate_serves_block_without_free_unit :
    noGrowPool.pblock = [] ∧ noGrowPool.nunitsize = 8 ∧ noGrowPool.ninitsize = 2 ∧
    noGrowPool.ngrowsize = 0 ∧
    ∃ p live, Reachable noGrowPool p live ∧
      p.pblock.map (fun b => (b.adata, b.nfree)) = [(8192, -1), (4096, 1)] ∧
      (∃ c ∈ p.pblock, 0 < c.nfree) ∧ (p.allocate 1 none).1 = some 8200 ∧
      ∀ c ∈ p.pblock, 0 < c.nfree → ¬ c.owns 8200 := by
  have hok : ∀ j, j < 3 → (allocRun noGrowPool pairHeaps j).1.heapOK (pairHeaps j) := by
    intro j hj
    interval_cases j
    · exact heapOK_of_nil rfl _
    · exact heapOK_none _
    · exact heapOK_some (by decide)
  exact ⟨rfl, by decide, rfl, rfl, (allocRun noGrowPool pairHeaps 3).1.free 4104,
    (allocRun noGrowPool pairHeaps 3).2.erase 4104,
    Reachable.free 4104 (allocRun_reachable _ _ 3 hok) (by decide),
    by decide, by decide, by decide, by decide⟩

/-- C12, amended: for a unit size of at least 2, unit counts of at least 1
and block sizes below 2^31, in every state of a run from the empty pool, of
any two blocks of the chain the one in front was created by a later call of
`allocate` (the chain lists the blocks that are left from the latest created
to the earliest created).  And when a block has `nfree > 0`, `allocate`
creates no block: with `b` the first block of the chain that has
`nfree > 0`, which is the latest created of the blocks with `nfree > 0`, the
call returns an address in the arena of `b`, takes one free unit from `b`
and leaves the other blocks as they are. -/
theorem chain_is_ordered_by_creation (p0 p : memorypool) (live : List Int)
    (log : List (Int × Nat)) (t : Nat) (h0 : p0.pblock = []) (hs : p0.Sized)
    (hr : Logged p0 p live log t) :
    p.pblock.Pairwise (createdAfter log) ∧
    ∀ num heap, 0 < num → (∃ c ∈ p.pblock, 0 < c.nfree) →
      ∃ pre b post, p.pblock = pre ++ b :: post ∧ (∀ c ∈ pre, c.nfree = 0) ∧ 0 < b.nfree ∧
        (∀ c ∈ post, 0 < c.nfree → createdAfter log b c) ∧
        p.created num heap = none ∧
        ∃ a b', p.allocate num heap = (some a, { p with pblock := pre ++ b' :: post }) ∧
          b.owns a ∧ b'.adata = b.adata ∧ b'.nsize = b.nsize ∧ b'.nfree = b.nfree - 1 := by
  obtain ⟨_, hsort⟩ := hr.sorted h0 hs
  have hsort' : p.pblock.Pairwise (createdAfter log) := by
    rw [List.pairwise_map] at hsort
    exact hsort
  have hinv := hr.reachable.gen h0 hs
  have hus := hinv.sized.unit
  have hus0 : 0 < p.nunitsize := by omega
  refine ⟨hsort', ?_⟩
  intro num heap hnum hex
  have hn : num ≠ 0 := by omega
  rcases allocate_cases p hnum heap with
    ⟨_, hall, _⟩ | ⟨a, raw, _, hnil, _⟩ | ⟨a, raw, _, _, hall, _⟩ |
    ⟨pre, b, post, hsplit, hpre, hne, e⟩
  · obtain ⟨c, hc, hcpos⟩ := hex
    have := hall c hc
    omega
  · obtain ⟨c, hc, _⟩ := hex
    rw [hnil] at hc
    cases hc
  · obtain ⟨c, hc, hcpos⟩ := hex
    have := hall c hc
    omega
  · have hbmem : b ∈ p.pblock := by rw [hsplit]; simp
    obtain ⟨cnt, hg⟩ := hinv.blocks b hbmem
    have hf0 := hg.nfree_nonneg
    have hlt := hg.nfree_lt
    have hc := hg.cnt_lt hus
    obtain ⟨i, hi, hp, _⟩ := hg.after_take_gen hus hne
    have ht : memorypool.takeUnit p.nunitsize p.pblock =
        some ((b.take p.nunitsize).1, pre ++ (b.take p.nunitsize).2 :: post) := by
      rw [hsplit]; exact takeUnit_split pre b post hpre hne
    rw [hsplit] at hsort'
    refine ⟨pre, b, post, hsplit, hpre, by omega, ?_, ?_, (b.take p.nunitsize).1,
      (b.take p.nunitsize).2, e, ?_, rfl, rfl, ?_⟩
    · intro c hc _
      exact (List.pairwise_cons.mp (List.pairwise_append.mp hsort').2.1).1 c hc
    · simp [memorypool.created, hn, ht]
    · rw [hp]; exact hg.owns_unit_gen hus0 hi
    · show wrap32 (b.nfree - 1) = b.nfree - 1
      exact wrap32_of_range (by omega) (by omega)

/-- C12, witness: the pool of `main` after four calls of `allocate` and
`free(4104)`: the growth block at 8192, created by call 3, is in front of
the first block at 4096, created by call 0; both have free units. -/
theorem chain_is_ordered_by_creation_witness :
    (((allocRun demoPool demoHeaps 4).1.free 4104).pblock.map (fun b => b.adata) =
      [8192, 4096] ∧
    bornAt (logRun demoPool demoHeaps 4) 8192 = some 3 ∧
    bornAt (logRun demoPool demoHeaps 4) 4096 = some 0) ∧
    (((allocRun demoPool demoHeaps 4).1.free 4104).pblock.Pairwise
      (createdAfter (logRun demoPool demoHeaps 4)) ∧
    ∀ num heap, 0 < num → (∃ c ∈ ((allocRun demoPool demoHeaps 4).1.free 4104).pblock,
        0 < c.nfree) →
      ∃ pre b post, ((allocRun demoPool demoHeaps 4).1.free 4104).pblock = pre ++ b :: post ∧
        (∀ c ∈ pre, c.nfree = 0) ∧ 0 < b.nfree ∧
        (∀ c ∈ post, 0 < c.nfree → createdAfter (logRun demoPool demoHeaps 4) b c) ∧
        ((allocRun demoPool demoHeaps 4).1.free 4104).created num heap = none ∧
        ∃ a b', ((allocRun demoPool demoHeaps 4).1.free 4104).allocate num heap =
            (some a, { (allocRun demoPool demoHeaps 4).1.free 4104 with
              pblock := pre ++ b' :: post }) ∧
          b.owns a ∧ b'.adata = b.adata ∧ b'.nsize = b.nsize ∧ b'.nfree = b.nfree - 1) :=
  ⟨by decide, chain_is_ordered_by_creation demoPool ((allocRun demoPool demoHeaps 4).1.free 4104)
    ((allocRun demoPool demoHeaps 4).2.erase 4104) _ 5 rfl demoPool_sized
    (Logged.free 4104 (logged_allocRun demoPool demoHeaps 4 demoHeaps_ok) (by decide))⟩

/-! ## Two runs that differ in the bytes of the storage handed out -/

theorem seen_adata {us : Int} {b b' : memoryblock} (h : b'.seen us = b.seen us) :
    b'.adata = b.adata := congrArg (fun s => s.1) h

theorem seen_nsize {us : Int} {b b' : memoryblock} (h : b'.seen us = b.seen us) :
    b'.nsize = b.nsize := congrArg (fun s => s.2.1) h

theorem seen_nfree {us : Int} {b b' : memoryblock} (h : b'.seen us = b.seen us) :
    b'.nfree = b.nfree := congrArg (fun s => s.2.2.1) h

theorem seen_owns {us : Int} {b b' : memoryblock} (h : b'.seen us = b.seen us) (x : Int) :
    b'.owns x ↔ b.owns x := owns_congr (seen_adata h) (seen_nsize h) x

theorem map_range_inj {f g : Nat → Int} (n : Nat) :
    (List.range n).map f = (List.range n).map g ↔ ∀ i : Nat, i < n → f i = g i := by
  rw [List.map_inj_left]
  exact ⟨fun h i hi => h i (List.mem_range.mpr hi), fun h i hi => h i (List.mem_range.mp hi)⟩

theorem links_eq {us : Int} {b b' : memoryblock} :
    b'.links us = b.links us ↔
      ∀ i : Nat, i < 65536 → load16 b'.data ((i : Int) * us) = load16 b.data ((i : Int) * us) := by
  unfold memoryblock.links
  exact map_range_inj _

theorem seen_small {us : Int} {b b' : memoryblock} (h : b'.seen us = b.seen us)
    (hs : b.nsize ≤ 65536 * us) : b'.freeList us = b.freeList us := by
  have h2 := seen_nsize h
  have h4 := congrArg (fun s => s.2.2.2) h
  simp only [memoryblock.seen, h2, if_pos hs] at h4
  exact Sum.inl.inj h4

theorem seen_big {us : Int} {b b' : memoryblock} (h : b'.seen us = b.seen us)
    (hs : 65536 * us < b.nsize) :
    b'.nfirst = b.nfirst ∧
    ∀ i : Nat, i < 65536 → load16 b'.data ((i : Int) * us) = load16 b.data ((i : Int) * us) := by
  have h2 := seen_nsize h
  have h4 := congrArg (fun s => s.2.2.2) h
  simp only [memoryblock.seen, h2, if_neg (not_le.mpr hs)] at h4
  have h5 := Sum.inr.inj h4
  obtain ⟨h6, h7⟩ := Prod.mk.inj h5
  exact ⟨h6, links_eq.mp h7⟩

theorem seen_of_small {us : Int} {b b' : memoryblock} (h1 : b'.adata = b.adata)
    (h2 : b'.nsize = b.nsize) (h3 : b'.nfree = b.nfree) (hs : b.nsize ≤ 65536 * us)
    (h4 : b'.freeList us = b.freeList us) : b'.seen us = b.seen us := by
  unfold memoryblock.seen
  rw [h1, h2, h3, if_pos hs, if_pos hs, h4]

theorem seen_of_big {us : Int} {b b' : memoryblock} (h1 : b'.adata = b.adata)
    (h2 : b'.nsize = b.nsize) (h3 : b'.nfree = b.nfree) (hs : 65536 * us < b.nsize)
    (h4 : b'.nfirst = b.nfirst)
    (h5 : ∀ i : Nat, i < 65536 →
      load16 b'.data ((i : Int) * us) = load16 b.data ((i : Int) * us)) :
    b'.seen us = b.seen us := by
  have h6 : b'.links us = b.links us := links_eq.mpr h5
  unfold memoryblock.seen
  rw [h1, h2, h3, if_neg (not_le.mpr hs), if_neg (not_le.mpr hs), h4, h6]

theorem load16_bytes {m m' : Arena} {x : Int} (h : load16 m' x = load16 m x) :
    m' x % 256 = m x % 256 ∧ m' (x + 1) % 256 = m (x + 1) % 256 := by
  unfold load16 at h
  omega

theorem load16_of_bytes {m m' : Arena} {x : Int} (h0 : m' x % 256 = m x % 256)
    (h1 : m' (x + 1) % 256 = m (x + 1) % 256) : load16 m' x = load16 m x := by
  unfold load16
  rw [h0, h1]

/-- Two byte stores of the same value at the same place keep two arenas in
agreement on a two byte value. -/
theorem load16_store16_congr {m m' : Arena} {x : Int} (h : load16 m' x = load16 m x)
    (off v : Int) : load16 (store16 m' off v) x = load16 (store16 m off v) x := by
  obtain ⟨h0, h1⟩ := load16_bytes h
  apply load16_of_bytes
  · simp only [store16]
    split_ifs <;> first | rfl | exact h0
  · simp only [store16]
    split_ifs <;> first | rfl | exact h1

theorem load16_store8_congr {m m' : Arena} {x : Int} (h : load16 m' x = load16 m x)
    (off : Int) (v : Nat) : load16 (store8 m' off v) x = load16 (store8 m off v) x := by
  obtain ⟨h0, h1⟩ := load16_bytes h
  apply load16_of_bytes
  · simp only [store8]
    split_ifs <;> first | rfl | exact h0
  · simp only [store8]
    split_ifs <;> first | rfl | exact h1

theorem walk_congr {us : Int} {d d' : Arena}
    (h : ∀ i : Nat, i < 65536 → load16 d' ((i : Int) * us) = load16 d ((i : Int) * us))
    (k : Nat) (head : Int) (h0 : 0 ≤ head) (h1 : head < 65536) :
    walk us d' head k = walk us d head k := by
  induction k generalizing head with
  | zero => rfl
  | succ k ih =>
    simp only [walk]
    have e : ((head.toNat : Nat) : Int) = head := by omega
    have hl := h head.toNat (by omega)
    rw [e] at hl
    rw [hl, ih _ (load16_nonneg _ _) (load16_lt _ _)]

theorem GenBlock.small {us : Int} {L : List Int} {b : memoryblock} {cnt : Nat}
    (h : GenBlock us L b cnt) (hc : cnt ≤ 65536) : ∃ fl, BlockInv us L b cnt fl ∧ L.Nodup := by
  rcases h.regime with h1 | h1
  · exact h1
  · have := h1.big; omega

theorem GenBlock.large {us : Int} {L : List Int} {b : memoryblock} {cnt : Nat}
    (h : GenBlock us L b cnt) (hc : 65536 < cnt) : BigInv us L b cnt := by
  rcases h.regime with ⟨fl, h1, _⟩ | h1
  · have := h1.cnt_le; omega
  · exact h1

theorem GenBlock.same_cnt {us : Int} {L L' : List Int} {b b' : memoryblock} {cnt cnt' : Nat}
    (h : GenBlock us L b cnt) (h' : GenBlock us L' b' cnt') (hus : 0 < us)
    (hs : b'.nsize = b.nsize) : cnt' = cnt := by
  have h1 := h.units_eq_gen hus
  have h2 := h'.units_eq_gen hus
  unfold memoryblock.units at h1 h2
  rw [hs] at h2
  omega

theorem GenBlock.nsize_small {us : Int} {L : List Int} {b : memoryblock} {cnt : Nat}
    (h : GenBlock us L b cnt) (hus : 0 < us) (hc : cnt ≤ 65536) : b.nsize ≤ 65536 * us := by
  rw [h.size]
  have h1 : (cnt : Int) ≤ 65536 := by omega
  have := mul_le_mul_of_nonneg_left h1 (le_of_lt hus)
  linarith

theorem GenBlock.nsize_big {us : Int} {L : List Int} {b : memoryblock} {cnt : Nat}
    (h : GenBlock us L b cnt) (hus : 0 < us) (hc : 65536 < cnt) : 65536 * us < b.nsize := by
  rw [h.size]
  have h1 : (65536 : Int) < cnt := by omega
  have := mul_lt_mul_of_pos_left h1 hus
  linarith

/-- Two blocks of which the calls can read the same have the same free list
and hand out the same unit next. -/
theorem GenBlock.shape_of_seen {us : Int} {L : List Int} {b b' : memoryblock} {cnt : Nat}
    (h : GenBlock us L b cnt) (h' : GenBlock us L b' cnt) (hus : 0 < us)
    (hs : b'.seen us = b.seen us) : b'.shape us = b.shape us ∧ b'.head = b.head := by
  rcases Nat.lt_or_ge 65536 cnt with hc | hc
  · obtain ⟨hf, hl⟩ := seen_big hs (h.nsize_big hus hc)
    have hb := h.large hc
    constructor
    · refine shape_of_fields (seen_adata hs) (seen_nsize hs) (seen_nfree hs) ?_
      unfold memoryblock.freeList
      rw [hf, seen_nfree hs]
      exact walk_congr hl _ _ hb.first_nonneg hb.first_lt
    · unfold memoryblock.head
      rw [hf, seen_nfree hs]
  · obtain ⟨fl, hbi, _⟩ := h.small hc
    obtain ⟨fl', hbi', _⟩ := h'.small hc
    have hsh : b'.shape us = b.shape us :=
      shape_of_fields (seen_adata hs) (seen_nsize hs) (seen_nfree hs)
        (seen_small hs (h.nsize_small hus hc))
    refine ⟨hsh, ?_⟩
    rw [hbi.head_eq, hbi'.head_eq, hsh]

theorem GenBlock.pair_take {us : Int} {L : List Int} {b b' : memoryblock} {cnt : Nat}
    (h : GenBlock us L b cnt) (h' : GenBlock us L b' cnt) (hus : 2 ≤ us)
    (hs : b'.seen us = b.seen us) (hne : b.nfree ≠ 0) :
    (b'.take us).1 = (b.take us).1 ∧ (b'.take us).2.seen us = (b.take us).2.seen us := by
  have hus0 : 0 < us := by omega
  have hA := seen_adata hs
  have hS := seen_nsize hs
  have hF := seen_nfree hs
  have hne' : b'.nfree ≠ 0 := by rw [hF]; exact hne
  rcases Nat.lt_or_ge 65536 cnt with hc | hc
  · have hbig := h.nsize_big hus0 hc
    obtain ⟨hf, hl⟩ := seen_big hs hbig
    have hb := h.large hc
    have e : ((b.nfirst.toNat : Nat) : Int) = b.nfirst := by
      have := hb.first_nonneg; omega
    have hi : b.nfirst.toNat < cnt := by have := hb.first_lt; omega
    have hw : wrap32 (b.nfirst * us) = ((b.nfirst.toNat : Nat) : Int) * us := by
      rw [e]
      have h1 := unit_lt hus0 hi
      have h2 := unit_nonneg (le_of_lt hus0) b.nfirst.toNat
      have h3 := h.size_lt
      rw [e] at h1 h2
      exact wrap32_of_range (by omega) (by omega)
    constructor
    · show b'.adata + wrap32 (b'.nfirst * us) = b.adata + wrap32 (b.nfirst * us)
      rw [hA, hf]
    · refine seen_of_big hA hS ?_ hbig ?_ hl
      · show wrap32 (b'.nfree - 1) = wrap32 (b.nfree - 1)
        rw [hF]
      · show load16 b'.data (wrap32 (b'.nfirst * us)) = load16 b.data (wrap32 (b.nfirst * us))
        rw [hf, hw]
        exact hl _ (by have := hb.first_lt; omega)
  · have hsm := h.nsize_small hus0 hc
    obtain ⟨fl, hbi, _⟩ := h.small hc
    obtain ⟨fl', hbi', _⟩ := h'.small hc
    obtain ⟨_, rfl⟩ := hbi.same_list hbi' hus0
      (shape_of_fields hA hS hF (seen_small hs hsm))
    obtain ⟨i, rest, hfl, hx, _, hn⟩ := hbi.after_take hus hne
    obtain ⟨i', rest', hfl', hx', _, hn'⟩ := hbi'.after_take hus hne'
    rw [hfl] at hfl'
    simp only [List.cons.injEq] at hfl'
    obtain ⟨rfl, rfl⟩ := hfl'
    constructor
    · rw [hx, hx', hA]
    · refine seen_of_small hA hS ?_ hsm ?_
      · show wrap32 (b'.nfree - 1) = wrap32 (b.nfree - 1)
        rw [hF]
      · rw [hn.freeList_eq, hn'.freeList_eq]

theorem GenBlock.pair_release {us : Int} {L : List Int} {b b' : memoryblock} {cnt : Nat}
    (h : GenBlock us L b cnt) (h' : GenBlock us L b' cnt) (hus : 2 ≤ us)
    (hs : b'.seen us = b.seen us) {a : Int} (ha : a ∈ L) (ho : b.owns a) :
    (b'.release us a).seen us = (b.release us a).seen us := by
  have hus0 : 0 < us := by omega
  have hA := seen_adata hs
  have hS := seen_nsize hs
  have hF := seen_nfree hs
  have hN : (b'.release us a).nfree = (b.release us a).nfree := by
    show wrap32 (b'.nfree + 1) = wrap32 (b.nfree + 1)
    rw [hF]
  rcases Nat.lt_or_ge 65536 cnt with hc | hc
  · have hbig := h.nsize_big hus0 hc
    obtain ⟨hf, hl⟩ := seen_big hs hbig
    refine seen_of_big hA hS hN hbig ?_ ?_
    · show wrap32 (Int.tdiv (a - b'.adata) us) = wrap32 (Int.tdiv (a - b.adata) us)
      rw [hA]
    · intro i hi
      show load16 (store16 b'.data (a - b'.adata) b'.nfirst) ((i : Int) * us) =
        load16 (store16 b.data (a - b.adata) b.nfirst) ((i : Int) * us)
      rw [hA, hf]
      exact load16_store16_congr (hl i hi) _ _
  · have hsm := h.nsize_small hus0 hc
    obtain ⟨fl, hbi, hnd⟩ := h.small hc
    obtain ⟨fl', hbi', _⟩ := h'.small hc
    obtain ⟨_, rfl⟩ := hbi.same_list hbi' hus0
      (shape_of_fields hA hS hF (seen_small hs hsm))
    obtain ⟨i, hai, _, _, hn⟩ := hbi.after_release hus hnd ha ho
    obtain ⟨i', hai', _, _, hn'⟩ := hbi'.after_release hus hnd ha ((seen_owns hs a).mpr ho)
    have hii : i' = i := by
      apply unit_inj hus0
      omega
    subst hii
    exact seen_of_small hA hS hN hsm (by rw [hn.freeList_eq, hn'.freeList_eq])

theorem GenBlock.pair_poke {us : Int} {L : List Int} {b b' : memoryblock} {cnt : Nat}
    (h : GenBlock us L b cnt) (h' : GenBlock us L b' cnt) (hus : 2 ≤ us)
    (hs : b'.seen us = b.seen us) {u k : Int} (v : Nat) (hu : u ∈ L) (ho : b.owns u)
    (hk0 : 0 ≤ k) (hk : k < us) :
    memoryblock.seen us { b' with data := store8 b'.data (u + k - b'.adata) v } =
      memoryblock.seen us { b with data := store8 b.data (u + k - b.adata) v } := by
  have hus0 : 0 < us := by omega
  have hA := seen_adata hs
  have hS := seen_nsize hs
  have hF := seen_nfree hs
  rcases Nat.lt_or_ge 65536 cnt with hc | hc
  · have hbig := h.nsize_big hus0 hc
    obtain ⟨hf, hl⟩ := seen_big hs hbig
    refine seen_of_big hA hS hF hbig hf ?_
    intro i hi
    show load16 (store8 b'.data (u + k - b'.adata) v) ((i : Int) * us) =
      load16 (store8 b.data (u + k - b.adata) v) ((i : Int) * us)
    rw [hA]
    exact load16_store8_congr (hl i hi) _ _
  · have hsm := h.nsize_small hus0 hc
    obtain ⟨fl, hbi, hnd⟩ := h.small hc
    obtain ⟨fl', hbi', _⟩ := h'.small hc
    obtain ⟨_, rfl⟩ := hbi.same_list hbi' hus0
      (shape_of_fields hA hS hF (seen_small hs hsm))
    have hn := hbi.after_poke hus v hu ho hk0 hk
    have hn' := hbi'.after_poke hus v hu ((seen_owns hs u).mpr ho) hk0 hk
    exact seen_of_small hA hS hF hsm (by rw [hn.freeList_eq, hn'.freeList_eq])

/-- The constructor run on storage with other bytes builds a block of which
the calls can read the same. -/
theorem seen_ctor {us : Int} (hus : 2 ≤ us) {n : Int} (hn1 : 1 ≤ n)
    (hsz : us * n < 2147483648) (a : Int) (raw raw' : Arena) :
    (memoryblock.ctor us n a raw').seen us = (memoryblock.ctor us n a raw).seen us := by
  have hus0 : 0 < us := by omega
  have hpos : 0 < us * n := mul_pos hus0 (by omega)
  have hw : wrap32 (us * n) = us * n := wrap32_of_range (by omega) hsz
  rcases le_or_lt n 65536 with hc | hc
  · refine seen_of_small rfl rfl rfl ?_ (by rw [freeList_ctor hus hn1 hc, freeList_ctor hus hn1 hc])
    show wrap32 (us * n) ≤ 65536 * us
    rw [hw]
    have := mul_le_mul_of_nonneg_left hc (le_of_lt hus0)
    linarith
  · refine seen_of_big rfl rfl rfl ?_ rfl ?_
    · show 65536 * us < wrap32 (us * n)
      rw [hw]
      have := mul_lt_mul_of_pos_left hc hus0
      linarith
    · intro i hi
      show load16 (memoryblock.thread us (n - 1).toNat 1 0 raw') ((i : Int) * us) =
        load16 (memoryblock.thread us (n - 1).toNat 1 0 raw) ((i : Int) * us)
      have h1 := thread_load hus (n - 1).toNat 1 0 raw' i (by omega)
      have h2 := thread_load hus (n - 1).toNat 1 0 raw i (by omega)
      rw [zero_add] at h1 h2
      rw [h1, h2]

theorem map_seen_split {us : Int} {pre : List memoryblock} {x : memoryblock}
    {post pre' : List memoryblock} {x' : memoryblock} {post' : List memoryblock}
    (h1 : pre'.map (memoryblock.seen us) = pre.map (memoryblock.seen us))
    (h2 : x'.seen us = x.seen us)
    (h3 : post'.map (memoryblock.seen us) = post.map (memoryblock.seen us)) :
    (pre' ++ x' :: post').map (memoryblock.seen us) =
      (pre ++ x :: post).map (memoryblock.seen us) := by
  simp only [List.map_append, List.map_cons, h1, h2, h3]

/-- Two blocks at the same place of the two chains account for the same
addresses held, with the same number of units. -/
theorem TwinGen.pair {p q : memorypool} {live : List Int} (h : TwinGen p q live)
    {b b' : memoryblock} (hb : b ∈ p.pblock) (hb' : b' ∈ q.pblock)
    (hs : b'.seen p.nunitsize = b.seen p.nunitsize) :
    ∃ cnt, GenBlock p.nunitsize (b.heldIn live) b cnt ∧
      GenBlock p.nunitsize (b.heldIn live) b' cnt := by
  have hus0 : 0 < p.nunitsize := by have := h.left.sized.unit; omega
  obtain ⟨cnt, hg⟩ := h.left.blocks b hb
  obtain ⟨cnt', hg'⟩ := h.right.blocks b' hb'
  rw [h.unit, heldIn_congr (seen_adata hs) (seen_nsize hs) live] at hg'
  have := hg.same_cnt hg' hus0 (seen_nsize hs)
  subst this
  exact ⟨cnt', hg, hg'⟩

theorem TwinGen.heapOK {p q : memorypool} {live : List Int} (h : TwinGen p q live)
    {addr : Option Int} {raw : Arena} (raw' : Arena) (hh : p.heapOK (heapAt addr raw)) :
    q.heapOK (heapAt addr raw') := by
  intro a r e b' hb'
  cases addr with
  | none => simp [heapAt] at e
  | some a0 =>
    simp only [heapAt, Option.map_some', Option.some.injEq, Prod.mk.injEq] at e
    obtain ⟨rfl, _⟩ := e
    obtain ⟨b, hb, hs⟩ := exists_of_map_eq _ h.seen hb'
    have := hh a0 raw rfl b hb
    rw [h.unit, h.grow, ← seen_adata hs, ← seen_nsize hs]
    exact this

theorem TwinGen.twin_allocate {p q : memorypool} {live : List Int} (h : TwinGen p q live)
    {num : Nat} (hnum : 0 < num) (addr : Option Int) (raw raw' : Arena)
    (hh : p.heapOK (heapAt addr raw)) :
    (q.allocate num (heapAt addr raw')).1 = (p.allocate num (heapAt addr raw)).1 ∧
    TwinGen (p.allocate num (heapAt addr raw)).2 (q.allocate num (heapAt addr raw')).2
      (liveAfter (p.allocate num (heapAt addr raw)).1 live) := by
  have hsz := h.left.sized
  have hus := hsz.unit
  have hus0 : 0 < p.nunitsize := by omega
  have hP := h.left.step_allocate_gen hnum hh
  have hQ := h.right.step_allocate_gen hnum (h.heapOK raw' hh)
  have hall : (∀ c ∈ p.pblock, c.nfree = 0) → ∀ c' ∈ q.pblock, c'.nfree = 0 := by
    intro hz c' hc'
    obtain ⟨c, hc, hs⟩ := exists_of_map_eq _ h.seen hc'
    rw [← seen_nfree hs]; exact hz c hc
  rcases allocate_cases p hnum (heapAt addr raw) with
    ⟨e0, hz, e⟩ | ⟨a, r, e0, hnil, e⟩ | ⟨a, r, e0, hne, hz, e⟩ | ⟨pre, b, post, hsplit, hpre, hne, e⟩
  · have ha : addr = none := by
      cases addr with
      | none => rfl
      | some a0 => simp [heapAt] at e0
    subst ha
    have eq : q.allocate num (heapAt none raw') = (none, q) := allocate_full_none hnum (hall hz)
    rw [e] at hP ⊢
    rw [eq] at hQ ⊢
    exact ⟨rfl, h⟩
  · cases addr with
    | none => simp [heapAt] at e0
    | some a0 =>
      simp only [heapAt, Option.map_some', Option.some.injEq, Prod.mk.injEq] at e0
      obtain ⟨rfl, rfl⟩ := e0
      have hqnil : q.pblock = [] := by
        have := h.seen
        rw [hnil] at this
        simpa using this
      have eq : q.allocate num (heapAt (some a0) raw') = _ := allocate_first hnum hqnil a0 raw'
      rw [e] at hP ⊢
      rw [eq] at hQ ⊢
      refine ⟨rfl, { left := hP, right := hQ, unit := h.unit, init := h.init, grow := h.grow,
                     seen := ?_ }⟩
      show [(memoryblock.ctor q.nunitsize q.ninitsize a0 raw').seen p.nunitsize] =
        [(memoryblock.ctor p.nunitsize p.ninitsize a0 raw).seen p.nunitsize]
      rw [h.unit, h.init, seen_ctor hus hsz.init_pos hsz.init_size a0 raw raw']
  · cases addr with
    | none => simp [heapAt] at e0
    | some a0 =>
      simp only [heapAt, Option.map_some', Option.some.injEq, Prod.mk.injEq] at e0
      obtain ⟨rfl, rfl⟩ := e0
      have hqne : q.pblock ≠ [] := by
        intro hq
        have := h.seen
        rw [hq] at this
        exact hne (by simpa using this.symm)
      have eq : q.allocate num (heapAt (some a0) raw') = _ :=
        allocate_full_grow hnum hqne (hall hz) a0 raw'
      rw [e] at hP ⊢
      rw [eq] at hQ ⊢
      refine ⟨rfl, { left := hP, right := hQ, unit := h.unit, init := h.init, grow := h.grow,
                     seen := ?_ }⟩
      show (memoryblock.ctor q.nunitsize q.ngrowsize a0 raw').seen p.nunitsize ::
          q.pblock.map (memoryblock.seen p.nunitsize) =
        (memoryblock.ctor p.nunitsize p.ngrowsize a0 raw).seen p.nunitsize ::
          p.pblock.map (memoryblock.seen p.nunitsize)
      rw [h.unit, h.grow, h.seen, seen_ctor hus hsz.grow_pos hsz.grow_size a0 raw raw']
  · obtain ⟨pre', b', post', hsplit', h1, h2, h3⟩ := map_split _ h.seen.symm hsplit
    have hpre' : ∀ c' ∈ pre', c'.nfree = 0 := by
      intro c' hc'
      obtain ⟨c, hc, hs⟩ := exists_of_map_eq _ h1 hc'
      rw [← seen_nfree hs]; exact hpre c hc
    have hne' : b'.nfree ≠ 0 := by rw [seen_nfree h2]; exact hne
    have eq := allocate_of_takeUnit hnum (heapAt addr raw')
      (show memorypool.takeUnit q.nunitsize q.pblock = _ from by
        rw [hsplit']; exact takeUnit_split pre' b' post' hpre' hne')
    rw [h.unit] at eq
    obtain ⟨cnt, hg, hg'⟩ := h.pair (by rw [hsplit]; simp) (by rw [hsplit']; simp) h2
    obtain ⟨hres, hsn⟩ := hg.pair_take hg' hus h2 hne
    rw [e] at hP ⊢
    rw [eq] at hQ ⊢
    rw [hres] at hQ ⊢
    exact ⟨rfl, { left := hP, right := hQ, unit := rfl, init := h.init, grow := h.grow,
                  seen := map_seen_split h1 hsn h3 }⟩

theorem TwinGen.twin_free {p q : memorypool} {live : List Int} (h : TwinGen p q live)
    {a : Int} (ha : a ∈ live) : TwinGen (p.free a) (q.free a) (live.erase a) := by
  have hus := h.left.sized.unit
  have hus0 : 0 < p.nunitsize := by omega
  obtain ⟨pre, b, post, cnt, i, hsplit, hpre, hbo, hg, _, hai, _, _, hcase⟩ :=
    h.left.cases_of_free_gen ha
  obtain ⟨pre', b', post', cnt', i', hsplit', hpre', hbo', hg', _, hai', _, _, hcase'⟩ :=
    h.right.cases_of_free_gen ha
  rw [h.unit] at hg' hai' hcase'
  have hm := h.seen
  rw [hsplit, hsplit'] at hm
  obtain ⟨h1, h2, h3⟩ := split_unique (memoryblock.seen p.nunitsize) (fun c => c.owns a)
    (fun c c' hs => seen_owns hs a) hm hpre hbo hpre' hbo'
  have hF := seen_nfree h2
  have hcc := hg.same_cnt hg' hus0 (seen_nsize h2)
  subst hcc
  obtain ⟨cnt0, hg0, hg0'⟩ := h.pair (by rw [hsplit]; simp) (by rw [hsplit']; simp) h2
  refine { left := h.left.step_free_gen ha, right := h.right.step_free_gen ha, unit := h.unit,
           init := h.init, grow := h.grow, seen := ?_ }
  rcases hcase with ⟨hc, _, e⟩ | ⟨hc, _, e⟩ <;> rcases hcase' with ⟨hc', _, e'⟩ | ⟨hc', _, e'⟩
  · show (q.free a).pblock.map (memoryblock.seen p.nunitsize) =
      (p.free a).pblock.map (memoryblock.seen p.nunitsize)
    rw [e, e']
    simp only [List.map_append, h1, h3]
  · omega
  · omega
  · show (q.free a).pblock.map (memoryblock.seen p.nunitsize) =
      (p.free a).pblock.map (memoryblock.seen p.nunitsize)
    rw [e, e']
    exact map_seen_split h1
      (hg0.pair_release hg0' hus h2 (mem_heldIn.mpr ⟨ha, hbo⟩) hbo) h3

theorem TwinGen.twin_poke {p q : memorypool} {live : List Int} (h : TwinGen p q live)
    {a k : Int} (v : Nat) (ha : a ∈ live) (hk0 : 0 ≤ k) (hk : k < p.nunitsize) :
    TwinGen (p.poke (a + k) v) (q.poke (a + k) v) live := by
  have hus := h.left.sized.unit
  obtain ⟨pre, b, post, cnt, hsplit, hpre, hbo, hba, _, _, e⟩ :=
    h.left.byte_owner_gen v ha hk0 hk
  obtain ⟨pre', b', post', cnt', hsplit', hpre', hbo', _, _, _, e'⟩ :=
    h.right.byte_owner_gen v ha hk0 (by rw [h.unit]; exact hk)
  have hm := h.seen
  rw [hsplit, hsplit'] at hm
  obtain ⟨h1, h2, h3⟩ := split_unique (memoryblock.seen p.nunitsize)
    (fun c => c.owns (a + k)) (fun c c' hs => seen_owns hs (a + k)) hm hpre hbo hpre' hbo'
  obtain ⟨cnt0, hg0, hg0'⟩ := h.pair (by rw [hsplit]; simp) (by rw [hsplit']; simp) h2
  refine { left := h.left.step_poke_gen v ha hk0 hk,
           right := h.right.step_poke_gen v ha hk0 (by rw [h.unit]; exact hk), unit := h.unit,
           init := h.init, grow := h.grow, seen := ?_ }
  show (q.poke (a + k) v).pblock.map (memoryblock.seen p.nunitsize) =
    (p.poke (a + k) v).pblock.map (memoryblock.seen p.nunitsize)
  rw [e, e']
  exact map_seen_split h1
    (hg0.pair_poke hg0' hus h2 v (mem_heldIn.mpr ⟨ha, hba⟩) hba hk0 hk) h3

/-- Two runs of the same calls on an empty pool whose parameters are in the
range of `int` keep the common invariant. -/
theorem Twin.paired {p0 p q : memorypool} {live : List Int} (hr : Twin p0 p q live)
    (h0 : p0.pblock = []) (hs : p0.Sized) : TwinGen p q live := by
  induction hr with
  | init =>
    exact { left := Reachable.gen Reachable.init h0 hs,
            right := Reachable.gen Reachable.init h0 hs,
            unit := rfl, init := rfl, grow := rfl, seen := rfl }
  | allocate num addr raw raw' _ hnum hh ih => exact (ih.twin_allocate hnum addr raw raw' hh).2
  | free a _ ha ih => exact ih.twin_free ha
  | poke a k v _ ha hk0 hk ih => exact ih.twin_poke v ha hk0 hk

theorem Twin.left {p0 p q : memorypool} {live : List Int} (hr : Twin p0 p q live) :
    Reachable p0 p live := by
  induction hr with
  | init => exact Reachable.init
  | allocate num addr raw raw' _ hnum hh ih => exact Reachable.allocate num _ ih hnum hh
  | free a _ ha ih => exact Reachable.free a ih ha
  | poke a k v _ ha hk0 hk ih => exact Reachable.poke a k v ih ha hk0 hk

theorem Twin.right {p0 p q : memorypool} {live : List Int} (hr : Twin p0 p q live)
    (h0 : p0.pblock = []) (hs : p0.Sized) : Reachable p0 q live := by
  induction hr with
  | init => exact Reachable.init
  | allocate num addr raw raw' ht hnum hh ih =>
    have hi := ht.paired h0 hs
    have := Reachable.allocate num (heapAt addr raw') ih hnum (hi.heapOK raw' hh)
    rw [(hi.twin_allocate hnum addr raw raw' hh).1] at this
    exact this
  | free a _ ha ih => exact Reachable.free a ih ha
  | poke a k v ht ha hk0 hk ih =>
    exact Reachable.poke a k v ih ha hk0 (by rw [(ht.paired h0 hs).unit]; exact hk)

/-- In two runs of the same calls the chains have the same length, and blocks
at the same place have the same shape and hand out the same unit next. -/
theorem TwinGen.shapes {p q : memorypool} {live : List Int} (h : TwinGen p q live) :
    q.pblock.map (memoryblock.shape p.nunitsize) =
      p.pblock.map (memoryblock.shape p.nunitsize) ∧
    q.pblock.map memoryblock.head = p.pblock.map memoryblock.head := by
  have hus0 : 0 < p.nunitsize := by have := h.left.sized.unit; omega
  have key : ∀ (P Q : List memoryblock), (∀ c ∈ P, c ∈ p.pblock) → (∀ c ∈ Q, c ∈ q.pblock) →
      Q.map (memoryblock.seen p.nunitsize) = P.map (memoryblock.seen p.nunitsize) →
      Q.map (memoryblock.shape p.nunitsize) = P.map (memoryblock.shape p.nunitsize) ∧
      Q.map memoryblock.head = P.map memoryblock.head := by
    intro P
    induction P with
    | nil =>
      intro Q _ _ hm
      have : Q = [] := by simpa using hm
      subst this
      exact ⟨rfl, rfl⟩
    | cons c P ih =>
      intro Q hP hQ hm
      cases Q with
      | nil => simp at hm
      | cons c' Q =>
        simp only [List.map_cons, List.cons.injEq] at hm
        obtain ⟨e1, e2⟩ := ih Q (fun d hd => hP d (List.mem_cons_of_mem _ hd))
          (fun d hd => hQ d (List.mem_cons_of_mem _ hd)) hm.2
        obtain ⟨cnt, hg, hg'⟩ := h.pair (hP c (List.mem_cons_self _ _))
          (hQ c' (List.mem_cons_self _ _)) hm.1
        obtain ⟨s1, s2⟩ := hg.shape_of_seen hg' hus0 hm.1
        simp only [List.map_cons, s1, s2, e1, e2, and_self]
  exact key p.pblock q.pblock (fun _ hc => hc) (fun _ hc => hc) h.seen

/-! ## C17: bytes the constructor did not write -/

/-- C17, counterexample: a pool of 8 byte units whose first block has 0 units.
Two runs make the same two calls of `allocate`; `::operator new` answers the
first with storage at 4096, filled with bytes 0 in one run and with bytes 255
in the other.  The constructor writes no byte of the arena.  Both runs return
4096 and then 4104, and the second call reads `nfirst` from the bytes at
offset 8, which nothing wrote: the third call of `allocate` returns 4096 in
the first run and 4096 + 65535 * 8 in the second. -/
theorem unwritten_bytes_reach_results_without_initial_units :
    noInitPool.pblock = [] ∧ noInitPool.nunitsize = 8 ∧ noInitPool.ninitsize = 0 ∧
    ∃ p q live, Twin noInitPool p q live ∧ live = [4104, 4096] ∧
      (p.allocate 1 none).1 = some 4096 ∧ (q.allocate 1 none).1 = some 528376 := by
  have ht : Twin noInitPool
      ((noInitPool.allocate 1 (heapAt (some 4096) (fun _ => 0))).2.allocate 1
        (heapAt none (fun _ => 0))).2
      ((noInitPool.allocate 1 (heapAt (some 4096) (fun _ => 255))).2.allocate 1
        (heapAt none (fun _ => 255))).2 _ :=
    Twin.allocate 1 none (fun _ => 0) (fun _ => 255)
      (Twin.allocate 1 (some 4096) (fun _ => 0) (fun _ => 255) Twin.init (by decide)
        (heapOK_of_nil rfl _))
      (by decide) (heapOK_none _)
  exact ⟨rfl, by decide, rfl, _, _, _, ht, by decide, by decide, by decide⟩

/-- C17, amended: for a unit size of at least 2, unit counts of at least 1
and block sizes below 2^31, take two runs of the same calls of `allocate`,
`free` of an address held and writes into units held, on the empty pool, in
which `::operator new` answers with the same addresses but with storage that
holds different bytes.  Then both runs hold the same addresses (the calls of
`allocate` returned the same addresses), the two chains have blocks with the
same arenas, the same `nfree` and the same free lists, in the same order,
every block that has a free unit has the same `nfirst` in both runs, and the
next call of `allocate` returns the same address in both. -/
theorem unwritten_bytes_do_not_reach_results (p0 p q : memorypool) (live : List Int)
    (h0 : p0.pblock = []) (hs : p0.Sized) (hr : Twin p0 p q live) :
    Reachable p0 p live ∧ Reachable p0 q live ∧
    q.pblock.map (memoryblock.shape p.nunitsize) =
      p.pblock.map (memoryblock.shape p.nunitsize) ∧
    q.pblock.map memoryblock.head = p.pblock.map memoryblock.head ∧
    (∀ (num : Nat) (addr : Option Int) (raw raw' : Arena), 0 < num →
      p.heapOK (heapAt addr raw) →
      (q.allocate num (heapAt addr raw')).1 = (p.allocate num (heapAt addr raw)).1) := by
  have hi := hr.paired h0 hs
  refine ⟨hr.left, hr.right h0 hs, hi.shapes.1, hi.shapes.2, ?_⟩
  intro num addr raw raw' hnum hh
  exact (hi.twin_allocate hnum addr raw raw' hh).1

/-- C17, witness: the pool of `main` after three calls of `allocate`, with
storage filled with bytes 0 in one run and with bytes 255 in the other: the
link read in the last unit leaves `nfirst == 0` in one run and
`nfirst == 65535` in the other, in a block with `nfree == 0`. -/
theorem unwritten_bytes_do_not_reach_results_witness :
    demoPool.pblock = [] ∧ demoPool.Sized ∧
    Twin demoPool (rawRun (fun _ => 0)) (rawRun (fun _ => 255)) [4112, 4104, 4096] ∧
    (rawRun (fun _ => 0)).pblock.map (fun b => b.nfirst) = [0] ∧
    (rawRun (fun _ => 255)).pblock.map (fun b => b.nfirst) = [65535] ∧
    (Reachable demoPool (rawRun (fun _ => 0)) [4112, 4104, 4096] ∧
     Reachable demoPool (rawRun (fun _ => 255)) [4112, 4104, 4096] ∧
     (rawRun (fun _ => 255)).pblock.map (memoryblock.shape (rawRun (fun _ => 0)).nunitsize) =
       (rawRun (fun _ => 0)).pblock.map (memoryblock.shape (rawRun (fun _ => 0)).nunitsize) ∧
     (rawRun (fun _ => 255)).pblock.map memoryblock.head =
       (rawRun (fun _ => 0)).pblock.map memoryblock.head ∧
     (∀ (num : Nat) (addr : Option Int) (raw raw' : Arena), 0 < num →
       (rawRun (fun _ => 0)).heapOK (heapAt addr raw) →
       ((rawRun (fun _ => 255)).allocate num (heapAt addr raw')).1 =
         ((rawRun (fun _ => 0)).allocate num (heapAt addr raw)).1)) := by
  have ht : Twin demoPool (rawRun (fun _ => 0)) (rawRun (fun _ => 255)) [4112, 4104, 4096] :=
    Twin.allocate 1 none (fun _ => 0) (fun _ => 255)
      (Twin.allocate 1 none (fun _ => 0) (fun _ => 255)
        (Twin.allocate 1 (some 4096) (fun _ => 0) (fun _ => 255) Twin.init (by decide)
          (heapOK_of_nil rfl _))
        (by decide) (heapOK_none _))
      (by decide) (heapOK_none _)
  exact ⟨rfl, demoPool_sized, ht, by decide, by decide,
    unwritten_bytes_do_not_reach_results demoPool _ _ _ rfl demoPool_sized ht⟩

end MemoryPool
